import Mathlib

/-!
# The fine-grained locking binary search tree of `db_fine.c`

A shallow embedding of `src/db_fine.c`: the per-node reader/writer lock, the lock-coupling
`search`, and the three operations `query`, `add` and `xremove`, run by one thread.

* A C string is the list of its bytes before the terminating NUL (`Str`).
* A value of type `node_t *` that owns what it points to is a `Tree`: `NULL` or a node with its
  two subtrees and its lock fields.
* A pointer into the tree is the path from the node the walk started at (`Ptr`).
* A pthread call that would block for ever, or whose behaviour is undefined, yields `none`;
  so does a `strncpy` past the end of its buffer.
* `malloc` may fail: `node_create` takes the outcome of its three allocations as an argument.
* The operations named `_log` are the operations once more, returning next to their result the
  lock calls they make, in order (`LockEvent`); they are proved to return what the operations
  return.
-/

namespace DbFine

/-! ## Strings -/

/-- A C string: its bytes up to, not including, the terminating NUL. -/
abbrev Str := List Nat

/-- The bytes of an ASCII literal. -/
def cstr (s : String) : Str := s.toList.map Char.toNat

/-- The libc `strcmp`, reduced to the sign of its result: bytewise lexicographic comparison,
the end of a string comparing below every byte. -/
def strcmp : Str → Str → Int
  | [], [] => 0
  | [], _ :: _ => -1
  | _ :: _, [] => 1
  | a :: as, b :: bs => if a = b then strcmp as bs else if a < b then -1 else 1

/-- The conversion of the `int` argument `len - 1` to the `size_t` parameter of `strncpy`
(64-bit `size_t`). -/
def size_t_of_int (i : Int) : Nat := (i % (2 : Int) ^ 64).toNat

/-- The libc `strncpy(dest, src, n)` on a buffer given by its bytes: the first `n` bytes of the
buffer become the bytes of `src`, cut at `n` or padded with NULs up to `n`; the rest of the
buffer is kept.  Writing past the end of the buffer is undefined (`none`). -/
def strncpy (dest : List Nat) (src : Str) (n : Nat) : Option (List Nat) :=
  if n ≤ dest.length then
    some (src.take n ++ List.replicate (n - src.length) 0 ++ dest.drop n)
  else none

/-- The C string held in a buffer: its bytes up to the first NUL. -/
def c_string (buf : List Nat) : Str := buf.takeWhile (fun b => b ≠ 0)

/-! ## The per-node reader/writer lock -/

/-- Modelled from the spec: the lock fields of `node_t`, declared in the absent `db.h` (spec
section 4.1: a `request` mutex, a `node` mutex and a reader count with its guard); the names
are those the code of `read_lock` uses.  A mutex is `true` when held. -/
structure rwlock where
  request_mutex : Bool
  num_readers : Int
  num_readers_mutex : Bool
  node_mutex : Bool
  deriving DecidableEq, Repr

/-- The lock fields as `PTHREAD_MUTEX_INITIALIZER` / `pthread_mutex_init` leave them. -/
def rwlock.init : rwlock := ⟨false, 0, false, false⟩

/-- Lock fields of a node one writer holds. -/
def rwlock.written : rwlock := ⟨false, 0, false, true⟩

/-- Lock fields of a node one reader holds. -/
def rwlock.read1 : rwlock := ⟨false, 1, false, true⟩

/-- A default mutex: locking a held mutex never returns in a single thread. -/
def pthread_mutex_lock (m : Bool) : Option Bool := if m then none else some true

/-- A default mutex: unlocking a mutex that is not held is undefined. -/
def pthread_mutex_unlock (m : Bool) : Option Bool := if m then some false else none

/-- `read_lock` (lines 14-24). -/
def read_lock (node : rwlock) : Option rwlock := do
  let request ← pthread_mutex_lock node.request_mutex
  let guard ← pthread_mutex_lock node.num_readers_mutex
  let num_readers := node.num_readers + 1
  let node_mutex ← if num_readers = 1 then pthread_mutex_lock node.node_mutex
                   else some node.node_mutex
  let guard ← pthread_mutex_unlock guard
  let request ← pthread_mutex_unlock request
  pure ⟨request, num_readers, guard, node_mutex⟩

/-- `read_unlock` (lines 27-34). -/
def read_unlock (node : rwlock) : Option rwlock := do
  let guard ← pthread_mutex_lock node.num_readers_mutex
  let num_readers := node.num_readers - 1
  let node_mutex ← if num_readers = 0 then pthread_mutex_unlock node.node_mutex
                   else some node.node_mutex
  let guard ← pthread_mutex_unlock guard
  pure ⟨node.request_mutex, num_readers, guard, node_mutex⟩

/-- `write_lock` (lines 37-42). -/
def write_lock (node : rwlock) : Option rwlock := do
  let request ← pthread_mutex_lock node.request_mutex
  let node_mutex ← pthread_mutex_lock node.node_mutex
  let request ← pthread_mutex_unlock request
  pure ⟨request, node.num_readers, node.num_readers_mutex, node_mutex⟩

/-- `write_unlock` (lines 45-48). -/
def write_unlock (node : rwlock) : Option rwlock := do
  let node_mutex ← pthread_mutex_unlock node.node_mutex
  pure ⟨node.request_mutex, node.num_readers, node.num_readers_mutex, node_mutex⟩

/-! ## Nodes and pointers -/

/-- Modelled from the spec: `node_t *` for the `node_t` of the absent `db.h` (spec section 3:
`name`, `value`, the two child links, the lock state).  A node owns its children, so a pointer
together with what it points to is `NULL` or a node carrying its two subtrees. -/
inductive Tree where
  | null : Tree
  | node (name value : Str) (lchild rchild : Tree) (lk : rwlock) : Tree
  deriving DecidableEq, Repr

/-- Which child link of a node. -/
inductive Dir where
  | L : Dir
  | R : Dir
  deriving DecidableEq, Repr

/-- A pointer to a node of the tree, or the address of the link that leads to it: the path
from the node the walk started at. -/
abbrev Ptr := List Dir

namespace Tree

/-- `p->name` (empty for `NULL`, which the code never dereferences). -/
def name : Tree → Str
  | null => []
  | node n _ _ _ _ => n

/-- `p->value`. -/
def value : Tree → Str
  | null => []
  | node _ v _ _ _ => v

/-- `p->lchild`. -/
def lchild : Tree → Tree
  | null => null
  | node _ _ l _ _ => l

/-- `p->rchild`. -/
def rchild : Tree → Tree
  | null => null
  | node _ _ _ r _ => r

/-- The lock fields of `*p`. -/
def lk : Tree → rwlock
  | null => rwlock.init
  | node _ _ _ _ k => k

/-- `p == NULL`. -/
def isNull : Tree → Bool
  | null => true
  | node _ _ _ _ _ => false

/-- The node (with its subtree) a pointer designates; `none` when the path leaves the tree. -/
def deref : Tree → Ptr → Option Tree
  | t, [] => some t
  | null, _ :: _ => none
  | node _ _ l _ _, Dir.L :: p => deref l p
  | node _ _ _ r _, Dir.R :: p => deref r p

/-- The assignment `*pp = x` to the link at a path: what hangs at the path is replaced. -/
def store : Tree → Ptr → Tree → Option Tree
  | _, [], x => some x
  | null, _ :: _, _ => none
  | node n v l r k, Dir.L :: p, x => (store l p x).map (fun l1 => node n v l1 r k)
  | node n v l r k, Dir.R :: p, x => (store r p x).map (fun r1 => node n v l r1 k)

/-- A lock primitive applied to the node a pointer designates. -/
def withLock (t : Tree) (p : Ptr) (f : rwlock → Option rwlock) : Option Tree :=
  match deref t p with
  | some (node n v l r k) => (f k).bind (fun k1 => store t p (node n v l r k1))
  | _ => none

end Tree

/-- The global `head` as line 11 initialises it: the sentinel, with empty name and value. -/
def head : Tree := Tree.node [] [] Tree.null Tree.null rwlock.init

/-! ## Allocation -/

/-- The outcomes of the three `malloc` calls of `node_create`, in order: the node, its name
buffer, its value buffer (`true`: the call returned memory). -/
structure Heap where
  node_ok : Bool
  name_ok : Bool
  value_ok : Bool
  deriving DecidableEq, Repr

/-- Every allocation succeeds. -/
def Heap.ok : Heap := ⟨true, true, true⟩

/-- `node_create` (lines 52-82): `NULL` when one of the three allocations fails, else a node
with copies of the two strings, the given children and initialised lock fields. -/
def node_create (m : Heap) (arg_name arg_value : Str) (arg_left arg_right : Tree) : Tree :=
  if !m.node_ok then Tree.null
  else if !m.name_ok then Tree.null
  else if !m.value_ok then Tree.null
  else Tree.node arg_name arg_value arg_left arg_right rwlock.init

/-! ## search -/

/-- What a call of `search` leaves behind: the tree below and including the node it was called
on, the returned pointer (`none` for `NULL`) and the pointer stored in `*parentpp` (`none` when
nothing was stored); both pointers are paths from the node `search` was called on. -/
structure SearchRes where
  tree : Tree
  result : Option Ptr
  parentpp : Option Ptr
  deriving DecidableEq, Repr

/-- `search(name, parent, parentpp)` (lines 261-308).  `parent` is the node the call is made on
and `plk` the current state of its lock fields, which the caller has just locked (the lock
fields stored in `parent` itself are those from before that locking and are not read);
`writing` is `parentpp != NULL`. -/
def search (name : Str) : Tree → rwlock → Bool → Option SearchRes
  | Tree.null, _, _ => none
  | Tree.node pname pvalue l r _, plk, writing =>
    let left : Bool := decide (strcmp name pname < 0)
    match (if left then l else r) with
    | Tree.null =>
      -- the bottom of the tree: result = NULL
      if writing then
        some ⟨Tree.node pname pvalue l r plk, none, some []⟩
      else do
        let plk ← read_unlock plk
        some ⟨Tree.node pname pvalue l r plk, none, none⟩
    | Tree.node nname nvalue nl nr nlk => do
      let nlk ← if writing then write_lock nlk else read_lock nlk
      let plk ← if writing then some plk else read_unlock plk
      if strcmp name nname = 0 then
        -- next is the target; falls through to the store into *parentpp
        let next := Tree.node nname nvalue nl nr nlk
        some ⟨if left then Tree.node pname pvalue next r plk else Tree.node pname pvalue l next plk,
          some [if left then Dir.L else Dir.R], if writing then some [] else none⟩
      else do
        let plk ← if writing then write_unlock plk else some plk
        let s ← if left then search name l nlk writing else search name r nlk writing
        some ⟨if left then Tree.node pname pvalue s.tree r plk else Tree.node pname pvalue l s.tree plk,
          s.result.map (fun p => (if left then Dir.L else Dir.R) :: p),
          s.parentpp.map (fun p => (if left then Dir.L else Dir.R) :: p)⟩

/-! ## query -/

/-- The literal `"not found"`. -/
def not_found : Str := [110, 111, 116, 32, 102, 111, 117, 110, 100]

/-- `query(name, result, len)` (lines 101-119) on the tree at `head`: the buffer `result` and
the tree afterwards. -/
def query (name : Str) (result : List Nat) (len : Int) (head : Tree) :
    Option (List Nat × Tree) := do
  let hlk ← read_lock head.lk
  let s ← search name head hlk false
  match s.result with
  | none =>
    let result ← strncpy result not_found (size_t_of_int (len - 1))
    some (result, s.tree)
  | some target =>
    let tnode ← s.tree.deref target
    let result ← strncpy result tnode.value (size_t_of_int (len - 1))
    let tree ← s.tree.withLock target read_unlock
    some (result, tree)

/-! ## add -/

/-- `add(name, value)` (lines 123-153) on the tree at `head`: the returned `int` and the tree
afterwards.  `m` gives the outcome of the allocations of `node_create`. -/
def add (m : Heap) (name value : Str) (head : Tree) : Option (Int × Tree) := do
  let hlk ← write_lock head.lk
  let s ← search name head hlk true
  match s.result with
  | some target =>
    -- there is already a node with this key
    let tree ← s.tree.withLock target write_unlock
    let parent ← s.parentpp
    let tree ← tree.withLock parent write_unlock
    some (0, tree)
  | none =>
    match s.parentpp with
    | none => some (0, s.tree)
    | some parent =>
      let newnode := node_create m name value Tree.null Tree.null
      let pnode ← s.tree.deref parent
      let tree ← if strcmp name pnode.name < 0 then s.tree.store (parent ++ [Dir.L]) newnode
                 else s.tree.store (parent ++ [Dir.R]) newnode
      let tree ← tree.withLock parent write_unlock
      some (1, tree)

/-! ## xremove -/

namespace Tree

/-- The assignment `p->name = s`. -/
def setName (t : Tree) (p : Ptr) (s : Str) : Option Tree :=
  match deref t p with
  | some (node _ v l r k) => store t p (node s v l r k)
  | _ => none

/-- The assignment `p->value = s`. -/
def setValue (t : Tree) (p : Ptr) (s : Str) : Option Tree :=
  match deref t p with
  | some (node n _ l r k) => store t p (node n s l r k)
  | _ => none

end Tree

/-- `swap_pointers(&a->name, &b->name)` (lines 162-166): the two nodes exchange their name
buffers. -/
def swap_pointers_name (t : Tree) (a b : Ptr) : Option Tree := do
  let na ← t.deref a
  let nb ← t.deref b
  let tmp := nb.name
  let t ← t.setName b na.name
  t.setName a tmp

/-- `swap_pointers(&a->value, &b->value)` (lines 162-166). -/
def swap_pointers_value (t : Tree) (a b : Ptr) : Option Tree := do
  let na ← t.deref a
  let nb ← t.deref b
  let tmp := nb.value
  let t ← t.setValue b na.value
  t.setValue a tmp

/-- The `while` loop of `xremove` (lines 231-241) on the subtree at `next`, whose lock fields
are `nlk`, write-locked by the caller: the subtree after the loop and the final `pnext` as a
path from the initial one. -/
def xremove_loop : Tree → rwlock → Option (Tree × Ptr)
  | Tree.null, _ => none
  | Tree.node n v l r _, nlk =>
    match l with
    | Tree.null => some (Tree.node n v Tree.null r nlk, [])
    | Tree.node _ _ _ _ llk => do
      let llk ← write_lock llk
      let nlk ← write_unlock nlk
      let w ← xremove_loop l llk
      some (Tree.node n v w.1 r nlk, Dir.L :: w.2)

/-- The two-children branch of `xremove` after the parent has been released (lines 227-247):
the walk to the leftmost node of the right subtree of `dnode`, the two swaps, the unlinking of
that node and the release of `dnode`. -/
def xremove_successor (tree : Tree) (dnode : Ptr) : Option Tree := do
  let tree ← tree.withLock (dnode ++ [Dir.R]) write_lock
  -- pnext = &dnode->rchild; next = *pnext; the loop
  let next ← tree.deref (dnode ++ [Dir.R])
  let w ← xremove_loop next next.lk
  let tree ← tree.store (dnode ++ [Dir.R]) w.1
  let pnext := dnode ++ Dir.R :: w.2
  let tree ← swap_pointers_name tree dnode pnext
  let tree ← swap_pointers_value tree dnode pnext
  let next ← tree.deref pnext
  let tree ← tree.store pnext next.rchild
  -- node_destroy(next)
  tree.withLock dnode write_unlock

/-- `xremove(name)` (lines 170-250) on the tree at `head`: the returned `int` and the tree
afterwards.  `node_destroy` is called on a node that has just been unlinked and whose node
mutex the caller still holds; the node, its strings and its mutexes end there, and nothing of
it remains in the tree. -/
def xremove (name : Str) (head : Tree) : Option (Int × Tree) := do
  let hlk ← write_lock head.lk
  let s ← search name head hlk true
  match s.result with
  | none =>
    -- it's not there
    let parent ← s.parentpp
    let tree ← s.tree.withLock parent write_unlock
    some (0, tree)
  | some dnode =>
    let parent ← s.parentpp
    let d ← s.tree.deref dnode
    let p ← s.tree.deref parent
    if d.rchild.isNull then
      let tree ← if strcmp d.name p.name < 0 then s.tree.store (parent ++ [Dir.L]) d.lchild
                 else s.tree.store (parent ++ [Dir.R]) d.lchild
      let tree ← tree.withLock parent write_unlock
      some (1, tree)
    else if d.lchild.isNull then
      let tree ← if strcmp d.name p.name < 0 then s.tree.store (parent ++ [Dir.L]) d.rchild
                 else s.tree.store (parent ++ [Dir.R]) d.rchild
      let tree ← tree.withLock parent write_unlock
      some (1, tree)
    else
      let tree ← s.tree.withLock parent write_unlock
      let tree ← xremove_successor tree dnode
      some (1, tree)

/-! ## Observations on a tree -/

namespace Tree

/-- The in-order sequence of the (name, value) pairs of a tree. -/
def inorder : Tree → List (Str × Str)
  | null => []
  | node n v l r _ => inorder l ++ (n, v) :: inorder r

/-- The in-order sequence of the names of a tree. -/
def keys (t : Tree) : List Str := t.inorder.map Prod.fst

/-- The (name, value) pairs stored under the sentinel, in order. -/
def entries (t : Tree) : List (Str × Str) := t.lchild.inorder ++ t.rchild.inorder

/-- The names stored under the sentinel, in order. -/
def names (t : Tree) : List Str := t.entries.map Prod.fst

/-- The nodes whose lock fields are not all free, each with its lock fields, in pre-order. -/
def locked : Tree → List (Ptr × rwlock)
  | null => []
  | node _ _ l r k =>
    (if k = rwlock.init then [] else [([], k)])
      ++ ((locked l).map (fun e => (Dir.L :: e.1, e.2))
      ++ (locked r).map (fun e => (Dir.R :: e.1, e.2)))

end Tree

/-- The BST ordering invariant: at every node, every name in the left subtree compares below
the name of the node and every name in the right subtree above it. -/
def Ordered : Tree → Prop
  | Tree.null => True
  | Tree.node n _ l r _ =>
    (∀ k ∈ l.keys, strcmp k n < 0) ∧ (∀ k ∈ r.keys, 0 < strcmp k n) ∧ Ordered l ∧ Ordered r

/-- No lock of any node is held: all lock fields are as initialised. -/
def Quiescent : Tree → Prop
  | Tree.null => True
  | Tree.node _ _ l r k => k = rwlock.init ∧ Quiescent l ∧ Quiescent r

/-- The ordering invariant can be checked on a given tree. -/
instance decidableOrdered : (t : Tree) → Decidable (Ordered t)
  | Tree.null => isTrue trivial
  | Tree.node n _ l r _ =>
    have : Decidable (Ordered l) := decidableOrdered l
    have : Decidable (Ordered r) := decidableOrdered r
    inferInstanceAs (Decidable ((∀ k ∈ l.keys, strcmp k n < 0) ∧ (∀ k ∈ r.keys, 0 < strcmp k n)
      ∧ Ordered l ∧ Ordered r))

/-- Freedom of all locks can be checked on a given tree. -/
instance decidableQuiescent : (t : Tree) → Decidable (Quiescent t)
  | Tree.null => isTrue trivial
  | Tree.node _ _ l r k =>
    have : Decidable (Quiescent l) := decidableQuiescent l
    have : Decidable (Quiescent r) := decidableQuiescent r
    inferInstanceAs (Decidable (k = rwlock.init ∧ Quiescent l ∧ Quiescent r))

/-- The sentinel: a node with empty name and empty value (line 11). -/
def isSentinel : Tree → Bool
  | Tree.node [] [] _ _ _ => true
  | _ => false

/-- The trees the store goes through, from the initial `head`, by calls of `add` and `xremove`
with non-empty names that return. -/
inductive Reachable : Tree → Prop
  | init : Reachable head
  | add (m : Heap) (name value : Str) (t t1 : Tree) (rc : Int) :
      Reachable t → name ≠ [] → add m name value t = some (rc, t1) → Reachable t1
  | xremove (name : Str) (t t1 : Tree) (rc : Int) :
      Reachable t → name ≠ [] → xremove name t = some (rc, t1) → Reachable t1

/-! ## Example stores -/

/-- A node without children and with free locks. -/
def leaf (name value : String) : Tree :=
  Tree.node (cstr name) (cstr value) Tree.null Tree.null rwlock.init

/-- An inner node with free locks. -/
def inner (name value : String) (l r : Tree) : Tree :=
  Tree.node (cstr name) (cstr value) l r rwlock.init

/-- The store of scenario 4 of the spec: `m`, `f`, `t`, `a`, `h`, `p`, `z` added in this order
with the values `1` to `7`. -/
def store_mftahpz : Tree :=
  Tree.node [] [] Tree.null
    (inner "m" "1" (inner "f" "2" (leaf "a" "4") (leaf "h" "5"))
      (inner "t" "3" (leaf "p" "6") (leaf "z" "7")))
    rwlock.init

/-- The store of scenario 4 after `remove("m")`. -/
def store_fahptz : Tree :=
  Tree.node [] [] Tree.null
    (inner "p" "6" (inner "f" "2" (leaf "a" "4") (leaf "h" "5"))
      (inner "t" "3" Tree.null (leaf "z" "7")))
    rwlock.init

/-- The store of scenario 5 of the spec: `d`, `b`, `f`, `a`, `c`, `e`, `g` added in this order
with the values `1` to `7`. -/
def store_dbfaceg : Tree :=
  Tree.node [] [] Tree.null
    (inner "d" "1" (inner "b" "2" (leaf "a" "4") (leaf "c" "5"))
      (inner "f" "3" (leaf "e" "6") (leaf "g" "7")))
    rwlock.init

/-- Successive calls of `add`, all allocations succeeding, each on the tree the one before
left. -/
def add_all : List (String × String) → Tree → Option Tree
  | [], t => some t
  | (name, value) :: rest, t =>
    (add Heap.ok (cstr name) (cstr value) t).bind (fun x => add_all rest x.2)

/-- A buffer of sixteen bytes with arbitrary content. -/
def buffer16 : List Nat := List.replicate 16 7

/-! ## Auxiliary functions for the proofs

The functions below are not taken from the source: they describe, without locks and pointers,
what the three operations compute, and are what the embedded code is proved equal to. -/

/-- A node given by the link `search` follows (`d`), what hangs there (`t`) and the other
child (`o`). -/
def mkNode (n v : Str) (d : Dir) (t o : Tree) (k : rwlock) : Tree :=
  match d with
  | Dir.L => Tree.node n v t o k
  | Dir.R => Tree.node n v o t k

/-- The link of a node with name `pname` that `search` follows for `name` (lines 266-267). -/
def dirOf (name pname : Str) : Dir := if strcmp name pname < 0 then Dir.L else Dir.R

/-- A result of `search` on a child, seen from its parent. -/
def SearchRes.lift (n v : Str) (d : Dir) (o : Tree) (k : rwlock) (s : SearchRes) : SearchRes :=
  ⟨mkNode n v d s.tree o k, s.result.map (fun p => d :: p), s.parentpp.map (fun p => d :: p)⟩

/-- The part of `query` after the call of `search`. -/
def query_tail (result : List Nat) (len : Int) (s : SearchRes) : Option (List Nat × Tree) :=
  match s.result with
  | none => do
    let result ← strncpy result not_found (size_t_of_int (len - 1))
    some (result, s.tree)
  | some target => do
    let tnode ← s.tree.deref target
    let result ← strncpy result tnode.value (size_t_of_int (len - 1))
    let tree ← s.tree.withLock target read_unlock
    some (result, tree)

/-- The part of `add` after the call of `search`. -/
def add_tail (m : Heap) (name value : Str) (s : SearchRes) : Option (Int × Tree) :=
  match s.result with
  | some target => do
    let tree ← s.tree.withLock target write_unlock
    let parent ← s.parentpp
    let tree ← tree.withLock parent write_unlock
    some (0, tree)
  | none =>
    match s.parentpp with
    | none => some (0, s.tree)
    | some parent => do
      let newnode := node_create m name value Tree.null Tree.null
      let pnode ← s.tree.deref parent
      let tree ← if strcmp name pnode.name < 0 then s.tree.store (parent ++ [Dir.L]) newnode
                 else s.tree.store (parent ++ [Dir.R]) newnode
      let tree ← tree.withLock parent write_unlock
      some (1, tree)

/-- The part of `xremove` after the call of `search`. -/
def xremove_tail (s : SearchRes) : Option (Int × Tree) :=
  match s.result with
  | none => do
    let parent ← s.parentpp
    let tree ← s.tree.withLock parent write_unlock
    some (0, tree)
  | some dnode => do
    let parent ← s.parentpp
    let d ← s.tree.deref dnode
    let p ← s.tree.deref parent
    if d.rchild.isNull then
      let tree ← if strcmp d.name p.name < 0 then s.tree.store (parent ++ [Dir.L]) d.lchild
                 else s.tree.store (parent ++ [Dir.R]) d.lchild
      let tree ← tree.withLock parent write_unlock
      some (1, tree)
    else if d.lchild.isNull then
      let tree ← if strcmp d.name p.name < 0 then s.tree.store (parent ++ [Dir.L]) d.rchild
                 else s.tree.store (parent ++ [Dir.R]) d.rchild
      let tree ← tree.withLock parent write_unlock
      some (1, tree)
    else
      let tree ← s.tree.withLock parent write_unlock
      let tree ← xremove_successor tree dnode
      some (1, tree)

/-- The locks a call of `search` for `name` leaves held, by mode and outcome, as the table of
spec section 4.2 lists them, with the pointers the call hands back. -/
def SearchPost (writing : Bool) (name : Str) (s : SearchRes) : Prop :=
  match writing, s.result with
  | false, some target =>
    s.parentpp = none ∧ s.tree.locked = [(target, rwlock.read1)]
      ∧ (s.tree.deref target).map Tree.name = some name
  | false, none => s.parentpp = none ∧ s.tree.locked = []
  | true, some target =>
    ∃ parent d, s.parentpp = some parent ∧ target = parent ++ [d]
      ∧ s.tree.locked = [(parent, rwlock.written), (target, rwlock.written)]
      ∧ (s.tree.deref target).map Tree.name = some name
  | true, none => ∃ parent, s.parentpp = some parent ∧ s.tree.locked = [(parent, rwlock.written)]

/-- The value of the first node named `name` on the way `search` takes from the root of `t`. -/
def find (name : Str) : Tree → Option Str
  | Tree.null => none
  | Tree.node n v l r _ =>
    if strcmp name n = 0 then some v
    else if strcmp name n < 0 then find name l else find name r

/-- The tree with a node for `name` attached where the way of `search` leaves the tree;
unchanged when the way meets a node named `name`. -/
def ins (m : Heap) (name value : Str) : Tree → Tree
  | Tree.null => node_create m name value Tree.null Tree.null
  | Tree.node n v l r k =>
    if strcmp name n = 0 then Tree.node n v l r k
    else if strcmp name n < 0 then Tree.node n v (ins m name value l) r k
    else Tree.node n v l (ins m name value r) k

/-- The leftmost node of a tree. -/
def minNode : Tree → Tree
  | Tree.null => Tree.null
  | Tree.node n v l r k =>
    match l with
    | Tree.null => Tree.node n v Tree.null r k
    | Tree.node _ _ _ _ _ => minNode l

/-- The tree with its leftmost node replaced by the right child of that node. -/
def dropMin : Tree → Tree
  | Tree.null => Tree.null
  | Tree.node n v l r k =>
    match l with
    | Tree.null => r
    | Tree.node _ _ _ _ _ => Tree.node n v (dropMin l) r k

/-- The tree without the first node named `name` on the way of `search`: a node without right
child gives way to its left child, one without left child to its right child, one with two
children takes the name and value of the leftmost node of its right subtree, which is dropped. -/
def del (name : Str) : Tree → Tree
  | Tree.null => Tree.null
  | Tree.node n v l r k =>
    if strcmp name n = 0 then
      if r.isNull then l
      else if l.isNull then r
      else Tree.node (minNode r).name (minNode r).value l (dropMin r) k
    else if strcmp name n < 0 then Tree.node n v (del name l) r k
    else Tree.node n v l (del name r) k

/-! ## Sequences of calls on the lock of one node -/

/-- A call of one of the four lock functions on a node. -/
inductive LockCall where
  | read_lock : LockCall
  | read_unlock : LockCall
  | write_lock : LockCall
  | write_unlock : LockCall
  deriving DecidableEq, Repr

/-- The lock function a call names, on the lock fields of the node. -/
def LockCall.run : LockCall → rwlock → Option rwlock
  | LockCall.read_lock, lk => DbFine.read_lock lk
  | LockCall.read_unlock, lk => DbFine.read_unlock lk
  | LockCall.write_lock, lk => DbFine.write_lock lk
  | LockCall.write_unlock, lk => DbFine.write_unlock lk

/-- The locks on one node that have been taken and not yet released: how many by readers and
how many by writers. -/
structure Holders where
  readers : Nat
  writers : Nat
  deriving DecidableEq, Repr

/-- The outstanding locks after a call; `none` when the call is an unlock that matches no
outstanding lock of its kind. -/
def Holders.after : Holders → LockCall → Option Holders
  | h, LockCall.read_lock => some ⟨h.readers + 1, h.writers⟩
  | h, LockCall.read_unlock => if 0 < h.readers then some ⟨h.readers - 1, h.writers⟩ else none
  | h, LockCall.write_lock => some ⟨h.readers, h.writers + 1⟩
  | h, LockCall.write_unlock => if 0 < h.writers then some ⟨h.readers, h.writers - 1⟩ else none

/-- A sequence of calls on one node, from the lock fields `lk` and the outstanding locks `h`:
the lock fields and outstanding locks after the last call; `none` when an unlock matches no
outstanding lock or a call does not return. -/
def run_calls : List LockCall → rwlock → Holders → Option (rwlock × Holders)
  | [], lk, h => some (lk, h)
  | c :: cs, lk, h =>
    match h.after c, c.run lk with
    | some h1, some lk1 => run_calls cs lk1 h1
    | _, _ => none

/-- What relates the lock fields of a node to the locks outstanding on it. -/
def LockInv (lk : rwlock) (h : Holders) : Prop :=
  lk.request_mutex = false ∧ lk.num_readers_mutex = false ∧ lk.num_readers = h.readers
    ∧ (lk.node_mutex = true ↔ (0 < h.readers ∨ h.writers = 1))
    ∧ ¬ (0 < h.readers ∧ 0 < h.writers) ∧ h.writers ≤ 1

/-- The trees the store goes through, from the initial `head`, by calls of `query`, `add` and
`xremove` with any names, the empty one included, that return. -/
inductive ReachableAny : Tree → Prop
  | init : ReachableAny head
  | query (name : Str) (result buf : List Nat) (len : Int) (t t1 : Tree) :
      ReachableAny t → query name result len t = some (buf, t1) → ReachableAny t1
  | add (m : Heap) (name value : Str) (t t1 : Tree) (rc : Int) :
      ReachableAny t → add m name value t = some (rc, t1) → ReachableAny t1
  | xremove (name : Str) (t t1 : Tree) (rc : Int) :
      ReachableAny t → xremove name t = some (rc, t1) → ReachableAny t1

/-- The store after `add("", "x")` on the initial store: the node named `""` hangs under the
right link of the sentinel. -/
def store_empty_name : Tree :=
  Tree.node [] [] Tree.null (Tree.node [] (cstr "x") Tree.null Tree.null rwlock.init) rwlock.init

/-- The store after `add("", "x")` and `add("b", "y")` on the initial store. -/
def store_empty_name_b : Tree :=
  Tree.node [] [] Tree.null (Tree.node [] (cstr "x") Tree.null (leaf "b" "y") rwlock.init)
    rwlock.init

/-- What a call of `search` for `name` in write mode hands back in `*parentpp`: a pointer to a
node of the tree, whose child slot on the side `name` goes is empty when no target was
found. -/
def InsertPoint (name : Str) (s : SearchRes) : Prop :=
  ∃ parent pnode, s.parentpp = some parent ∧ s.tree.deref parent = some pnode
    ∧ pnode.isNull = false
    ∧ (s.result = none →
        (if strcmp name pnode.name < 0 then pnode.lchild else pnode.rchild) = Tree.null)

/-! ## interpret_command -/

/-- The libc `isspace` in the C locale: the space and the bytes from tab to carriage return. -/
def isspace (c : Nat) : Bool := c = 32 || (9 ≤ c && c ≤ 13)

/-- One `%255s` conversion of `sscanf`: white space is skipped, then the bytes up to the next
white space, at most 255 of them, are stored as a string; the string and the input that is
left.  `none` when the input ends before a word starts: `sscanf` then stores nothing and the
destination array, a local of `interpret_command`, stays uninitialised. -/
def scan_word (input : Str) : Option (Str × Str) :=
  let rest := input.dropWhile isspace
  let word := (rest.takeWhile (fun c => !isspace c)).take 255
  if word = [] then none else some (word, rest.drop word.length)

/-- The libc `strlen` on a buffer given by its bytes; reading past a buffer that holds no NUL is
undefined (`none`). -/
def strlen (buf : List Nat) : Option Nat :=
  if 0 ∈ buf then some (c_string buf).length else none

/-- The case `'q'` of `interpret_command` (lines 327-340), `args` being `&command[1]`. -/
def interpret_query (args : Str) (response : List Nat) (len : Int) (head : Tree) :
    Option (List Nat × Tree) :=
  (scan_word args).bind (fun w =>
    if w.1.length = 0 then
      (strncpy response (cstr "ill-formed command") (size_t_of_int (len - 1))).map
        (fun b => (b, head))
    else
      (query w.1 response len head).bind (fun q =>
        (strlen q.1).bind (fun n =>
          if n = 0 then
            (strncpy q.1 not_found (size_t_of_int (len - 1))).map (fun b => (b, q.2))
          else some q)))

/-- The case `'a'` of `interpret_command` (lines 342-356), `args` being `&command[1]`. -/
def interpret_add (m : Heap) (args : Str) (response : List Nat) (len : Int) (head : Tree) :
    Option (List Nat × Tree) :=
  (scan_word args).bind (fun w1 =>
    (scan_word w1.2).bind (fun w2 =>
      if w1.1.length = 0 ∨ w2.1.length = 0 then
        (strncpy response (cstr "ill-formed command") (size_t_of_int (len - 1))).map
          (fun b => (b, head))
      else
        (add m w1.1 w2.1 head).bind (fun a =>
          if a.1 ≠ 0 then
            (strncpy response (cstr "added") (size_t_of_int (len - 1))).map (fun b => (b, a.2))
          else
            (strncpy response (cstr "already in database") (size_t_of_int (len - 1))).map
              (fun b => (b, a.2)))))

/-- The case `'d'` of `interpret_command` (lines 358-372), `args` being `&command[1]`. -/
def interpret_delete (args : Str) (response : List Nat) (len : Int) (head : Tree) :
    Option (List Nat × Tree) :=
  (scan_word args).bind (fun w =>
    if w.1.length = 0 then
      (strncpy response (cstr "ill-formed command") (size_t_of_int (len - 1))).map
        (fun b => (b, head))
    else
      (xremove w.1 head).bind (fun x =>
        if x.1 ≠ 0 then
          (strncpy response (cstr "removed") (size_t_of_int (len - 1))).map (fun b => (b, x.2))
        else
          (strncpy response (cstr "not in database") (size_t_of_int (len - 1))).map
            (fun b => (b, x.2))))

/-- `interpret_command(command, response, len)` (lines 315-400) on the tree at `head`: the
response buffer and the tree afterwards.  `m` gives the outcome of the allocations of an `add`.
The verb `f` opens a file and interprets its lines; files are outside this embedding, which
gives `none` for it. -/
def interpret_command (m : Heap) (command : Str) (response : List Nat) (len : Int)
    (head : Tree) : Option (List Nat × Tree) :=
  if command.length ≤ 1 then
    (strncpy response (cstr "ill-formed command") (size_t_of_int (len - 1))).map
      (fun b => (b, head))
  else
    match command with
    | 113 :: args => interpret_query args response len head
    | 97 :: args => interpret_add m args response len head
    | 100 :: args => interpret_delete args response len head
    | 102 :: _ => none
    | _ =>
      (strncpy response (cstr "ill-formed command") (size_t_of_int (len - 1))).map
        (fun b => (b, head))

/-- A word as `%255s` reads it whole: not empty, at most 255 bytes, no white space. -/
def isWord (w : Str) : Bool := !w.isEmpty && decide (w.length ≤ 255) && w.all (fun c => !isspace c)

/-- The store after `add("apple", "red")` on the initial store (scenario 2 of the spec). -/
def store_apple : Tree := Tree.node [] [] Tree.null (leaf "apple" "red") rwlock.init

/-- A buffer of thirty-two bytes with arbitrary content. -/
def buffer32 : List Nat := List.replicate 32 7

/-! ## The lock calls of an operation, in order

The operations once more, each returning next to its result the calls of `read_lock`,
`read_unlock`, `write_lock` and `write_unlock` it makes, in order, each with the pointer of the
node it is made on. -/

/-- A call of a lock function on the node at a pointer. -/
structure LockEvent where
  call : LockCall
  node : Ptr
  deriving DecidableEq, Repr

/-- An event of a walk that started at the node at `q`, with its pointer taken from where `q`
starts. -/
def LockEvent.under (q : Ptr) (e : LockEvent) : LockEvent := ⟨e.call, q ++ e.node⟩

/-- Whether a call takes a lock (`read_lock`, `write_lock`) or gives one back. -/
def LockCall.acquires : LockCall → Bool
  | LockCall.read_lock => true
  | LockCall.write_lock => true
  | LockCall.read_unlock => false
  | LockCall.write_unlock => false

/-- The nodes the operation holds after an event, in the order it took them. -/
def held_step (H : List Ptr) (e : LockEvent) : List Ptr :=
  if e.call.acquires then H ++ [e.node] else H.erase e.node

/-- The nodes the operation holds after a sequence of events. -/
def held_after (H : List Ptr) (es : List LockEvent) : List Ptr := es.foldl held_step H

/-- `search` (lines 261-308) with its lock calls: as `search`, and the events in order, with
pointers from the node the call is made on. -/
def search_log (name : Str) : Tree → rwlock → Bool → Option (SearchRes × List LockEvent)
  | Tree.null, _, _ => none
  | Tree.node pname pvalue l r _, plk, writing =>
    let left : Bool := decide (strcmp name pname < 0)
    let d : Dir := if left then Dir.L else Dir.R
    match (if left then l else r) with
    | Tree.null =>
      if writing then
        some (⟨Tree.node pname pvalue l r plk, none, some []⟩, [])
      else do
        let plk ← read_unlock plk
        some (⟨Tree.node pname pvalue l r plk, none, none⟩, [⟨LockCall.read_unlock, []⟩])
    | Tree.node nname nvalue nl nr nlk => do
      let nlk ← if writing then write_lock nlk else read_lock nlk
      let plk ← if writing then some plk else read_unlock plk
      let log1 : List LockEvent :=
        if writing then [⟨LockCall.write_lock, [d]⟩]
        else [⟨LockCall.read_lock, [d]⟩, ⟨LockCall.read_unlock, []⟩]
      if strcmp name nname = 0 then
        let next := Tree.node nname nvalue nl nr nlk
        some (⟨if left then Tree.node pname pvalue next r plk
                else Tree.node pname pvalue l next plk,
          some [d], if writing then some [] else none⟩, log1)
      else do
        let plk ← if writing then write_unlock plk else some plk
        let log2 : List LockEvent := if writing then [⟨LockCall.write_unlock, []⟩] else []
        let s ← if left then search_log name l nlk writing else search_log name r nlk writing
        some (⟨if left then Tree.node pname pvalue s.1.tree r plk
                else Tree.node pname pvalue l s.1.tree plk,
          s.1.result.map (fun p => d :: p), s.1.parentpp.map (fun p => d :: p)⟩,
          log1 ++ log2 ++ s.2.map (LockEvent.under [d]))

/-- The part of `query` after the call of `search`, with its lock calls. -/
def query_tail_log (result : List Nat) (len : Int) (s : SearchRes) :
    Option ((List Nat × Tree) × List LockEvent) :=
  match s.result with
  | none => do
    let result ← strncpy result not_found (size_t_of_int (len - 1))
    some ((result, s.tree), [])
  | some target => do
    let tnode ← s.tree.deref target
    let result ← strncpy result tnode.value (size_t_of_int (len - 1))
    let tree ← s.tree.withLock target read_unlock
    some ((result, tree), [⟨LockCall.read_unlock, target⟩])

/-- `query` (lines 101-119) with its lock calls: `read_lock(&head)`, those of `search`, those
of the part after it. -/
def query_log (name : Str) (result : List Nat) (len : Int) (head : Tree) :
    Option ((List Nat × Tree) × List LockEvent) := do
  let hlk ← read_lock head.lk
  let s ← search_log name head hlk false
  let q ← query_tail_log result len s.1
  some (q.1, ⟨LockCall.read_lock, []⟩ :: s.2 ++ q.2)

/-- The part of `add` after the call of `search`, with its lock calls. -/
def add_tail_log (m : Heap) (name value : Str) (s : SearchRes) :
    Option ((Int × Tree) × List LockEvent) :=
  match s.result with
  | some target => do
    let tree ← s.tree.withLock target write_unlock
    let parent ← s.parentpp
    let tree ← tree.withLock parent write_unlock
    some ((0, tree), [⟨LockCall.write_unlock, target⟩, ⟨LockCall.write_unlock, parent⟩])
  | none =>
    match s.parentpp with
    | none => some ((0, s.tree), [])
    | some parent => do
      let newnode := node_create m name value Tree.null Tree.null
      let pnode ← s.tree.deref parent
      let tree ← if strcmp name pnode.name < 0 then s.tree.store (parent ++ [Dir.L]) newnode
                 else s.tree.store (parent ++ [Dir.R]) newnode
      let tree ← tree.withLock parent write_unlock
      some ((1, tree), [⟨LockCall.write_unlock, parent⟩])

/-- `add` (lines 123-153) with its lock calls: `write_lock(&head)`, those of `search`, those of
the part after it. -/
def add_log (m : Heap) (name value : Str) (head : Tree) :
    Option ((Int × Tree) × List LockEvent) := do
  let hlk ← write_lock head.lk
  let s ← search_log name head hlk true
  let a ← add_tail_log m name value s.1
  some (a.1, ⟨LockCall.write_lock, []⟩ :: s.2 ++ a.2)

/-- The `while` loop of `xremove` (lines 231-241) with its lock calls, pointers from `next`. -/
def xremove_loop_log : Tree → rwlock → Option ((Tree × Ptr) × List LockEvent)
  | Tree.null, _ => none
  | Tree.node n v l r _, nlk =>
    match l with
    | Tree.null => some ((Tree.node n v Tree.null r nlk, []), [])
    | Tree.node _ _ _ _ llk => do
      let llk ← write_lock llk
      let nlk ← write_unlock nlk
      let w ← xremove_loop_log l llk
      some ((Tree.node n v w.1.1 r nlk, Dir.L :: w.1.2),
        ⟨LockCall.write_lock, [Dir.L]⟩ :: ⟨LockCall.write_unlock, []⟩
          :: w.2.map (LockEvent.under [Dir.L]))

/-- The two-children branch of `xremove` after the parent has been released (lines 227-247)
with its lock calls. -/
def xremove_successor_log (tree : Tree) (dnode : Ptr) : Option (Tree × List LockEvent) := do
  let tree ← tree.withLock (dnode ++ [Dir.R]) write_lock
  let next ← tree.deref (dnode ++ [Dir.R])
  let w ← xremove_loop_log next next.lk
  let tree ← tree.store (dnode ++ [Dir.R]) w.1.1
  let pnext := dnode ++ Dir.R :: w.1.2
  let tree ← swap_pointers_name tree dnode pnext
  let tree ← swap_pointers_value tree dnode pnext
  let next ← tree.deref pnext
  let tree ← tree.store pnext next.rchild
  let tree ← tree.withLock dnode write_unlock
  some (tree, ⟨LockCall.write_lock, dnode ++ [Dir.R]⟩
    :: w.2.map (LockEvent.under (dnode ++ [Dir.R])) ++ [⟨LockCall.write_unlock, dnode⟩])

/-- The part of `xremove` after the call of `search`, with its lock calls. -/
def xremove_tail_log (s : SearchRes) : Option ((Int × Tree) × List LockEvent) :=
  match s.result with
  | none => do
    let parent ← s.parentpp
    let tree ← s.tree.withLock parent write_unlock
    some ((0, tree), [⟨LockCall.write_unlock, parent⟩])
  | some dnode => do
    let parent ← s.parentpp
    let d ← s.tree.deref dnode
    let p ← s.tree.deref parent
    if d.rchild.isNull then
      let tree ← if strcmp d.name p.name < 0 then s.tree.store (parent ++ [Dir.L]) d.lchild
                 else s.tree.store (parent ++ [Dir.R]) d.lchild
      let tree ← tree.withLock parent write_unlock
      some ((1, tree), [⟨LockCall.write_unlock, parent⟩])
    else if d.lchild.isNull then
      let tree ← if strcmp d.name p.name < 0 then s.tree.store (parent ++ [Dir.L]) d.rchild
                 else s.tree.store (parent ++ [Dir.R]) d.rchild
      let tree ← tree.withLock parent write_unlock
      some ((1, tree), [⟨LockCall.write_unlock, parent⟩])
    else
      let tree ← s.tree.withLock parent write_unlock
      let x ← xremove_successor_log tree dnode
      some ((1, x.1), ⟨LockCall.write_unlock, parent⟩ :: x.2)

/-- `xremove` (lines 170-250) with its lock calls: `write_lock(&head)`, those of `search`,
those of the part after it. -/
def xremove_log (name : Str) (head : Tree) : Option ((Int × Tree) × List LockEvent) := do
  let hlk ← write_lock head.lk
  let s ← search_log name head hlk true
  let x ← xremove_tail_log s.1
  some (x.1, ⟨LockCall.write_lock, []⟩ :: s.2 ++ x.2)

/-! ## Auxiliary definitions for the lock calls

The functions and predicates below are not taken from the source: they give the lock calls of
`search` and of the loop of `xremove` as plain lists, and state properties of sequences of lock
calls. -/

/-- The lock calls `search` makes when none of them blocks, with pointers from the node the
call is made on. -/
def search_events (name : Str) : Tree → Bool → List LockEvent
  | Tree.null, _ => []
  | Tree.node pname _ l r _, writing =>
    let left : Bool := decide (strcmp name pname < 0)
    let d : Dir := if left then Dir.L else Dir.R
    match (if left then l else r) with
    | Tree.null => if writing then [] else [⟨LockCall.read_unlock, []⟩]
    | Tree.node nname _ _ _ _ =>
      let log1 : List LockEvent :=
        if writing then [⟨LockCall.write_lock, [d]⟩]
        else [⟨LockCall.read_lock, [d]⟩, ⟨LockCall.read_unlock, []⟩]
      if strcmp name nname = 0 then log1
      else
        let log2 : List LockEvent := if writing then [⟨LockCall.write_unlock, []⟩] else []
        log1 ++ log2
          ++ (if left then search_events name l writing
              else search_events name r writing).map (LockEvent.under [d])

/-- The lock calls of `k` rounds of the `while` loop of `xremove`, with pointers from the node
the loop starts at. -/
def walk_events : Nat → List LockEvent
  | 0 => []
  | k + 1 =>
    ⟨LockCall.write_lock, [Dir.L]⟩ :: ⟨LockCall.write_unlock, []⟩
      :: (walk_events k).map (LockEvent.under [Dir.L])

/-- The rule of root-to-leaf order for an acquisition while the nodes `H` are held: the node
is a child of a held node, and neither equal to nor an ancestor of a held node. -/
def AcquiresBelow (H : List Ptr) (e : LockEvent) : Prop :=
  e.node ≠ [] ∧ e.node.dropLast ∈ H ∧ ∀ h ∈ H, ¬ e.node <+: h

/-- Every acquisition of a sequence of events obeys the rule of root-to-leaf order, the nodes
`H` being held at its start. -/
def OrderedAcq : List Ptr → List LockEvent → Prop
  | _, [] => True
  | H, e :: es =>
    (e.call.acquires = true → AcquiresBelow H e) ∧ OrderedAcq (held_step H e) es

/-- The events of an operation are in root-to-leaf order: the first is an acquisition of the
node the operation starts at, the sentinel, and every later acquisition obeys the rule. -/
def RootToLeaf : List LockEvent → Prop
  | [] => False
  | e :: es => e.call.acquires = true ∧ e.node = [] ∧ OrderedAcq [[]] es

/-- A property of the set of held nodes holds at every point of a sequence of events: before
the first event, between two events, after the last. -/
def AtEveryPoint (P : List Ptr → Prop) : List Ptr → List LockEvent → Prop
  | H, [] => P H
  | H, e :: es => P H ∧ AtEveryPoint P (held_step H e) es

/-- The node at `q` is on the left spine of the right subtree of the node at `dnode`. -/
def OnLeftSpine (dnode q : Ptr) : Prop := ∃ i, q = dnode ++ Dir.R :: List.replicate i Dir.L

/-- The held nodes are the target alone, or the target and one node on the left spine of its
right subtree. -/
def FootprintTwo (dnode : Ptr) (H : List Ptr) : Prop :=
  H = [dnode] ∨ ∃ q, OnLeftSpine dnode q ∧ H = [dnode, q]

/-- The held nodes are the target alone, the target and one node on the left spine of its right
subtree, or the target, such a node and the left child of that node. -/
def FootprintHandOver (dnode : Ptr) (H : List Ptr) : Prop :=
  FootprintTwo dnode H ∨ ∃ q, OnLeftSpine dnode q ∧ H = [dnode, q, q ++ [Dir.L]]

/-- The store of scenario 4 when `search("m")` called by `xremove` has returned: the sentinel
and the node of `m` are write-locked, the node of `m` is the result, the sentinel its
parent. -/
def store_mftahpz_found_m : SearchRes :=
  ⟨Tree.node [] [] Tree.null
      (Tree.node (cstr "m") (cstr "1") (inner "f" "2" (leaf "a" "4") (leaf "h" "5"))
        (inner "t" "3" (leaf "p" "6") (leaf "z" "7")) rwlock.written)
      rwlock.written,
    some [Dir.R], some []⟩

/-! ## Facts about `strcmp` -/

theorem strcmp_self (a : Str) : strcmp a a = 0 := by
  induction a with
  | nil => rfl
  | cons x xs ih => simp [strcmp, ih]

theorem strcmp_eq_zero {a b : Str} : strcmp a b = 0 ↔ a = b := by
  constructor
  · intro h
    induction a generalizing b with
    | nil => cases b with
      | nil => rfl
      | cons y ys => simp [strcmp] at h
    | cons x xs ih => cases b with
      | nil => simp [strcmp] at h
      | cons y ys =>
        by_cases hxy : x = y
        · simp [strcmp, hxy] at h
          rw [hxy, ih h]
        · by_cases hlt : x < y <;> simp [strcmp, hxy, hlt] at h
  · intro h
    rw [h]
    exact strcmp_self b

theorem strcmp_flip {a b : Str} : strcmp a b < 0 ↔ 0 < strcmp b a := by
  induction a generalizing b with
  | nil => cases b <;> simp [strcmp]
  | cons x xs ih => cases b with
    | nil => simp [strcmp]
    | cons y ys =>
      by_cases hxy : x = y
      · subst hxy
        simp [strcmp, ih]
      · have hyx : ¬ y = x := fun h => hxy h.symm
        by_cases hlt : x < y
        · have : ¬ y < x := by omega
          simp [strcmp, hxy, hyx, hlt, this]
        · have : y < x := by omega
          simp [strcmp, hxy, hyx, hlt, this]

theorem strcmp_trans {a b c : Str} (h1 : strcmp a b < 0) (h2 : strcmp b c < 0) :
    strcmp a c < 0 := by
  induction a generalizing b c with
  | nil => cases c with
    | nil => cases b <;> simp [strcmp] at h1 h2
    | cons z zs => simp [strcmp]
  | cons x xs ih => cases b with
    | nil => simp [strcmp] at h1
    | cons y ys => cases c with
      | nil => simp [strcmp] at h2
      | cons z zs =>
        by_cases hxy : x = y
        · subst hxy
          by_cases hxz : x = z
          · subst hxz
            simp [strcmp] at h1 h2 ⊢
            exact ih h1 h2
          · by_cases hlt : x < z
            · simp [strcmp, hxz, hlt]
            · simp [strcmp, hxz, hlt] at h2
        · by_cases hlt : x < y
          · by_cases hyz : y = z
            · subst hyz
              simp [strcmp, hxy, hlt]
            · by_cases hlt2 : y < z
              · have h3 : x ≠ z := by omega
                have h4 : x < z := by omega
                simp [strcmp, h3, h4]
              · simp [strcmp, hyz, hlt2] at h2
          · simp [strcmp, hxy, hlt] at h1

theorem strcmp_nil_right (a : Str) : ¬ strcmp a [] < 0 := by
  cases a <;> simp [strcmp]

theorem strcmp_nil_pos {a : Str} (h : a ≠ []) : 0 < strcmp a [] := by
  cases a with
  | nil => exact absurd rfl h
  | cons x xs => simp [strcmp]

theorem strcmp_not_lt_of_lt {a b : Str} (h : strcmp a b < 0) : ¬ strcmp b a < 0 := by
  have := strcmp_flip.mp h
  omega

theorem strcmp_ne_of_lt {a b : Str} (h : strcmp a b < 0) : a ≠ b := by
  intro e
  rw [e, strcmp_self] at h
  exact absurd h (by decide)

theorem strcmp_ne_of_gt {a b : Str} (h : 0 < strcmp a b) : a ≠ b := by
  intro e
  rw [e, strcmp_self] at h
  exact absurd h (by decide)

theorem strcmp_cases (a b : Str) : strcmp a b < 0 ∨ a = b ∨ 0 < strcmp a b := by
  rcases lt_trichotomy (strcmp a b) 0 with h | h | h
  · exact Or.inl h
  · exact Or.inr (Or.inl (strcmp_eq_zero.mp h))
  · exact Or.inr (Or.inr h)

/-! ## Pointers -/

@[simp] theorem deref_mkNode (n v : Str) (d : Dir) (t o : Tree) (k : rwlock) (p : Ptr) :
    (mkNode n v d t o k).deref (d :: p) = t.deref p := by
  cases d <;> simp [mkNode, Tree.deref]

@[simp] theorem store_mkNode (n v : Str) (d : Dir) (t o : Tree) (k : rwlock) (p : Ptr) (x : Tree) :
    (mkNode n v d t o k).store (d :: p) x = (t.store p x).map (fun t1 => mkNode n v d t1 o k) := by
  cases d <;> simp [mkNode, Tree.store]

@[simp] theorem withLock_mkNode (n v : Str) (d : Dir) (t o : Tree) (k : rwlock) (p : Ptr)
    (f : rwlock → Option rwlock) :
    (mkNode n v d t o k).withLock (d :: p) f
      = (t.withLock p f).map (fun t1 => mkNode n v d t1 o k) := by
  simp only [Tree.withLock, deref_mkNode]
  cases h : t.deref p with
  | none => simp
  | some x =>
    cases x with
    | null => simp
    | node a b l r c =>
      cases f c <;> simp

@[simp] theorem withLock_nil (n v : Str) (l r : Tree) (k : rwlock) (f : rwlock → Option rwlock) :
    (Tree.node n v l r k).withLock [] f = (f k).map (fun k1 => Tree.node n v l r k1) := by
  cases h : f k <;> simp [Tree.withLock, Tree.deref, Tree.store, h]

theorem mkNode_nil (n v : Str) (d : Dir) (t o : Tree) (k : rwlock) (f : rwlock → Option rwlock) :
    (mkNode n v d t o k).withLock [] f = (f k).map (fun k1 => mkNode n v d t o k1) := by
  cases d <;> simp [mkNode]

theorem node_eq_mkNode (name n v : Str) (l r : Tree) (k : rwlock) :
    Tree.node n v l r k
      = mkNode n v (dirOf name n) (if strcmp name n < 0 then l else r)
          (if strcmp name n < 0 then r else l) k := by
  by_cases h : strcmp name n < 0 <;> simp [dirOf, mkNode, h]

/-! ## Lock primitives on free and held locks -/

@[simp] theorem write_lock_init : write_lock rwlock.init = some rwlock.written := by decide
@[simp] theorem write_unlock_written : write_unlock rwlock.written = some rwlock.init := by decide
@[simp] theorem read_lock_init : read_lock rwlock.init = some rwlock.read1 := by decide
@[simp] theorem read_unlock_read1 : read_unlock rwlock.read1 = some rwlock.init := by decide

/-! ## One step of `search` -/

theorem search_mkNode (name n v : Str) (d : Dir) (t o : Tree) (k plk : rwlock) (w : Bool)
    (hd : d = dirOf name n) :
    search name (mkNode n v d t o k) plk w =
      match t with
      | Tree.null =>
        if w then some ⟨mkNode n v d Tree.null o plk, none, some []⟩
        else (read_unlock plk).bind (fun plk1 => some ⟨mkNode n v d Tree.null o plk1, none, none⟩)
      | Tree.node nn nv nl nr nlk =>
        (if w then write_lock nlk else read_lock nlk).bind (fun nlk1 =>
        (if w then some plk else read_unlock plk).bind (fun plk1 =>
          if strcmp name nn = 0 then
            some ⟨mkNode n v d (Tree.node nn nv nl nr nlk1) o plk1, some [d],
              if w then some [] else none⟩
          else
            (if w then write_unlock plk1 else some plk1).bind (fun plk2 =>
              (search name (Tree.node nn nv nl nr nlk) nlk1 w).bind (fun s =>
                some (s.lift n v d o plk2))))) := by
  subst hd
  by_cases h : strcmp name n < 0
  · have hd : dirOf name n = Dir.L := by simp [dirOf, h]
    rw [hd]
    simp only [mkNode]
    rw [search]
    simp only [h, decide_True, if_true]
    cases t <;> cases w <;> simp [SearchRes.lift, mkNode]
  · have hd : dirOf name n = Dir.R := by simp [dirOf, h]
    rw [hd]
    simp only [mkNode]
    rw [search]
    simp only [h, decide_False]
    cases t <;> cases w <;> simp [SearchRes.lift, mkNode]

theorem search_write_null (name n v : Str) (d : Dir) (o : Tree) (k plk : rwlock)
    (hd : d = dirOf name n) :
    search name (mkNode n v d Tree.null o k) plk true
      = some ⟨mkNode n v d Tree.null o plk, none, some []⟩ := by
  rw [search_mkNode name n v d Tree.null o k plk true hd]
  simp

theorem search_write_found (name n v : Str) (d : Dir) (o : Tree) (k : rwlock)
    (nn nv : Str) (nl nr : Tree) (hd : d = dirOf name n) (h0 : strcmp name nn = 0) :
    search name (mkNode n v d (Tree.node nn nv nl nr rwlock.init) o k) rwlock.written true
      = some ⟨mkNode n v d (Tree.node nn nv nl nr rwlock.written) o rwlock.written,
          some [d], some []⟩ := by
  rw [search_mkNode name n v d _ o k rwlock.written true hd]
  simp [h0]

theorem search_write_rec (name n v : Str) (d : Dir) (o : Tree) (k : rwlock)
    (nn nv : Str) (nl nr : Tree) (hd : d = dirOf name n) (h0 : ¬ strcmp name nn = 0) :
    search name (mkNode n v d (Tree.node nn nv nl nr rwlock.init) o k) rwlock.written true
      = (search name (Tree.node nn nv nl nr rwlock.init) rwlock.written true).map
          (SearchRes.lift n v d o rwlock.init) := by
  rw [search_mkNode name n v d _ o k rwlock.written true hd]
  simp only [h0, if_true, if_false, write_lock_init, write_unlock_written, Option.some_bind]
  cases search name (Tree.node nn nv nl nr rwlock.init) rwlock.written true <;> simp

theorem search_read_null (name n v : Str) (d : Dir) (o : Tree) (k : rwlock)
    (hd : d = dirOf name n) :
    search name (mkNode n v d Tree.null o k) rwlock.read1 false
      = some ⟨mkNode n v d Tree.null o rwlock.init, none, none⟩ := by
  rw [search_mkNode name n v d Tree.null o k rwlock.read1 false hd]
  simp

theorem search_read_found (name n v : Str) (d : Dir) (o : Tree) (k : rwlock)
    (nn nv : Str) (nl nr : Tree) (hd : d = dirOf name n) (h0 : strcmp name nn = 0) :
    search name (mkNode n v d (Tree.node nn nv nl nr rwlock.init) o k) rwlock.read1 false
      = some ⟨mkNode n v d (Tree.node nn nv nl nr rwlock.read1) o rwlock.init,
          some [d], none⟩ := by
  rw [search_mkNode name n v d _ o k rwlock.read1 false hd]
  simp [h0]

theorem search_read_rec (name n v : Str) (d : Dir) (o : Tree) (k : rwlock)
    (nn nv : Str) (nl nr : Tree) (hd : d = dirOf name n) (h0 : ¬ strcmp name nn = 0) :
    search name (mkNode n v d (Tree.node nn nv nl nr rwlock.init) o k) rwlock.read1 false
      = (search name (Tree.node nn nv nl nr rwlock.init) rwlock.read1 false).map
          (SearchRes.lift n v d o rwlock.init) := by
  rw [search_mkNode name n v d _ o k rwlock.read1 false hd]
  simp only [h0, if_false, read_lock_init, read_unlock_read1, Option.some_bind,
    Bool.false_eq_true]
  cases search name (Tree.node nn nv nl nr rwlock.init) rwlock.read1 false <;> simp

/-! ## The parts after `search` commute with stepping up to the parent -/

theorem query_tail_lift (result : List Nat) (len : Int) (n v : Str) (d : Dir) (o : Tree)
    (k : rwlock) (s : SearchRes) :
    query_tail result len (s.lift n v d o k)
      = (query_tail result len s).map (fun x => (x.1, mkNode n v d x.2 o k)) := by
  obtain ⟨t, r, pp⟩ := s
  cases r with
  | none =>
    simp only [query_tail, SearchRes.lift, Option.map_none']
    cases h1 : strncpy result not_found (size_t_of_int (len - 1)) <;> simp [h1]
  | some target =>
    simp only [query_tail, SearchRes.lift, Option.map_some', deref_mkNode, withLock_mkNode]
    cases h6 : t.deref target with
    | none => simp [*]
    | some tn =>
      cases h7 : strncpy result tn.value (size_t_of_int (len - 1)) with
      | none => simp [*]
      | some b => cases h2 : t.withLock target read_unlock <;> simp [h2]

theorem add_tail_lift (m : Heap) (name value : Str) (n v : Str) (d : Dir) (o : Tree)
    (k : rwlock) (s : SearchRes) :
    add_tail m name value (s.lift n v d o k)
      = (add_tail m name value s).map (fun x => (x.1, mkNode n v d x.2 o k)) := by
  obtain ⟨t, r, pp⟩ := s
  cases r with
  | some target =>
    simp only [add_tail, SearchRes.lift, Option.map_some', withLock_mkNode]
    cases h8 : t.withLock target write_unlock with
    | none => simp [*]
    | some t1 =>
      cases pp with
      | none => simp [*]
      | some parent =>
        simp only [Option.map_some', Option.some_bind, withLock_mkNode]
        cases h3 : t1.withLock parent write_unlock <;> simp [h3]
  | none =>
    cases pp with
    | none => simp [add_tail, SearchRes.lift]
    | some parent =>
      simp only [add_tail, SearchRes.lift, Option.map_some', Option.map_none', deref_mkNode,
        List.cons_append, store_mkNode]
      cases h9 : t.deref parent with
      | none => simp [*]
      | some pn =>
        simp only [Option.bind_eq_bind, Option.some_bind]
        split
        · cases h10 : t.store (parent ++ [Dir.L]) (node_create m name value Tree.null Tree.null) with
          | none => simp [*]
          | some t1 =>
            simp only [Option.map_some', Option.some_bind, withLock_mkNode]
            cases h4 : t1.withLock parent write_unlock <;> simp [h4]
        · cases h11 : t.store (parent ++ [Dir.R]) (node_create m name value Tree.null Tree.null) with
          | none => simp [*]
          | some t1 =>
            simp only [Option.map_some', Option.some_bind, withLock_mkNode]
            cases h5 : t1.withLock parent write_unlock <;> simp [h5]

/-! ## `query` and `add` on a tree without held locks -/

theorem bind_map_lift {α : Type} (x : Option SearchRes) (f : SearchRes → SearchRes)
    (g : SearchRes → Option α) : (x.map f).bind g = x.bind (fun s => g (f s)) := by
  cases x <;> rfl

theorem bind_then_map {α β γ : Type} (x : Option α) (g : α → Option β) (F : β → γ) :
    x.bind (fun s => (g s).map F) = (x.bind g).map F := by
  cases x <;> rfl

theorem query_search (name : Str) (result : List Nat) (len : Int) :
    ∀ (t : Tree), Quiescent t → ∀ (n v : Str) (d : Dir) (o : Tree) (k : rwlock),
      d = dirOf name n →
      (search name (mkNode n v d t o k) rwlock.read1 false).bind (query_tail result len)
        = (strncpy result ((find name t).getD not_found) (size_t_of_int (len - 1))).map
            (fun b => (b, mkNode n v d t o rwlock.init)) := by
  intro t
  induction t with
  | null =>
    intro _ n v d o k hd
    rw [search_read_null name n v d o k hd]
    simp only [Option.some_bind, query_tail, find, Option.getD_none]
    cases h : strncpy result not_found (size_t_of_int (len - 1)) <;> simp [h]
  | node nn nv nl nr nk ihl ihr =>
    intro hq n v d o k hd
    obtain ⟨hk, hql, hqr⟩ := hq
    subst hk
    by_cases h0 : strcmp name nn = 0
    · rw [search_read_found name n v d o k nn nv nl nr hd h0]
      simp only [Option.some_bind, query_tail, find, h0, if_true, Option.getD_some,
        deref_mkNode, Tree.deref, Tree.value, withLock_mkNode, withLock_nil, read_unlock_read1,
        Option.map_some', Option.bind_eq_bind]
      cases h : strncpy result nv (size_t_of_int (len - 1)) <;> simp [h]
    · rw [search_read_rec name n v d o k nn nv nl nr hd h0, bind_map_lift]
      simp only [query_tail_lift]
      have key : (search name (Tree.node nn nv nl nr rwlock.init) rwlock.read1 false).bind
            (query_tail result len)
          = (strncpy result ((find name (Tree.node nn nv nl nr rwlock.init)).getD not_found)
              (size_t_of_int (len - 1))).map
              (fun b => (b, Tree.node nn nv nl nr rwlock.init)) := by
        by_cases hlt : strcmp name nn < 0
        · have := ihl hql nn nv Dir.L nr rwlock.init (by simp [dirOf, hlt])
          simpa [mkNode, find, h0, hlt] using this
        · have := ihr hqr nn nv Dir.R nl rwlock.init (by simp [dirOf, hlt])
          simpa [mkNode, find, h0, hlt] using this
      rw [bind_then_map, key, Option.map_map]
      rfl

theorem add_search (m : Heap) (name value : Str) :
    ∀ (t : Tree), Quiescent t → ∀ (n v : Str) (d : Dir) (o : Tree) (k : rwlock),
      d = dirOf name n →
      (search name (mkNode n v d t o k) rwlock.written true).bind (add_tail m name value)
        = some (if (find name t).isSome then 0 else 1,
            mkNode n v d (ins m name value t) o rwlock.init) := by
  intro t
  induction t with
  | null =>
    intro _ n v d o k hd
    rw [search_write_null name n v d o k rwlock.written hd]
    subst hd
    by_cases hlt : strcmp name n < 0
    · simp [add_tail, find, ins, dirOf, hlt, mkNode, Tree.deref, Tree.name, Tree.store]
    · simp [add_tail, find, ins, dirOf, hlt, mkNode, Tree.deref, Tree.name, Tree.store]
  | node nn nv nl nr nk ihl ihr =>
    intro hq n v d o k hd
    obtain ⟨hk, hql, hqr⟩ := hq
    subst hk
    by_cases h0 : strcmp name nn = 0
    · rw [search_write_found name n v d o k nn nv nl nr hd h0]
      simp [add_tail, find, ins, h0, mkNode_nil]
    · rw [search_write_rec name n v d o k nn nv nl nr hd h0, bind_map_lift]
      simp only [add_tail_lift]
      have key : (search name (Tree.node nn nv nl nr rwlock.init) rwlock.written true).bind
            (add_tail m name value)
          = some (if (find name (Tree.node nn nv nl nr rwlock.init)).isSome then 0 else 1,
              ins m name value (Tree.node nn nv nl nr rwlock.init)) := by
        by_cases hlt : strcmp name nn < 0
        · have := ihl hql nn nv Dir.L nr rwlock.init (by simp [dirOf, hlt])
          simpa [mkNode, find, ins, h0, hlt] using this
        · have := ihr hqr nn nv Dir.R nl rwlock.init (by simp [dirOf, hlt])
          simpa [mkNode, find, ins, h0, hlt] using this
      rw [bind_then_map, key]
      rfl

/-! ## Stores and loads at one pointer -/

theorem deref_store {t : Tree} {p : Ptr} {x t1 : Tree} (h : t.store p x = some t1) :
    t1.deref p = some x := by
  induction p generalizing t t1 with
  | nil =>
    simp only [Tree.store, Option.some.injEq] at h
    subst h
    cases x <;> rfl
  | cons d p ih =>
    cases t with
    | null => simp [Tree.store] at h
    | node n v l r k =>
      cases d with
      | L =>
        simp only [Tree.store, Option.map_eq_some'] at h
        obtain ⟨l1, hl, rfl⟩ := h
        simpa [Tree.deref] using ih hl
      | R =>
        simp only [Tree.store, Option.map_eq_some'] at h
        obtain ⟨r1, hr, rfl⟩ := h
        simpa [Tree.deref] using ih hr

theorem store_store {t : Tree} {p : Ptr} {x t1 : Tree} (h : t.store p x = some t1) (y : Tree) :
    t1.store p y = t.store p y := by
  induction p generalizing t t1 with
  | nil => cases t <;> cases t1 <;> rfl
  | cons d p ih =>
    cases t with
    | null => simp [Tree.store] at h
    | node n v l r k =>
      cases d with
      | L =>
        simp only [Tree.store, Option.map_eq_some'] at h
        obtain ⟨l1, hl, rfl⟩ := h
        simp [Tree.store, ih hl]
      | R =>
        simp only [Tree.store, Option.map_eq_some'] at h
        obtain ⟨r1, hr, rfl⟩ := h
        simp [Tree.store, ih hr]

theorem store_of_deref {t : Tree} {p : Ptr} {y : Tree} (h : t.deref p = some y) (x : Tree) :
    ∃ t1, t.store p x = some t1 := by
  induction p generalizing t with
  | nil => exact ⟨x, by cases t <;> rfl⟩
  | cons d p ih =>
    cases t with
    | null => simp [Tree.deref] at h
    | node n v l r k =>
      cases d with
      | L =>
        obtain ⟨l1, hl⟩ := ih (t := l) (by simpa [Tree.deref] using h)
        exact ⟨Tree.node n v l1 r k, by simp [Tree.store, hl]⟩
      | R =>
        obtain ⟨r1, hr⟩ := ih (t := r) (by simpa [Tree.deref] using h)
        exact ⟨Tree.node n v l r1 k, by simp [Tree.store, hr]⟩

/-! ## The successor walk of `xremove` -/

@[simp] theorem setName_mkNode (n v : Str) (d : Dir) (t o : Tree) (k : rwlock) (p : Ptr)
    (s : Str) :
    (mkNode n v d t o k).setName (d :: p) s
      = (t.setName p s).map (fun t1 => mkNode n v d t1 o k) := by
  simp only [Tree.setName, deref_mkNode]
  cases h : t.deref p with
  | none => simp
  | some x => cases x <;> simp

@[simp] theorem setValue_mkNode (n v : Str) (d : Dir) (t o : Tree) (k : rwlock) (p : Ptr)
    (s : Str) :
    (mkNode n v d t o k).setValue (d :: p) s
      = (t.setValue p s).map (fun t1 => mkNode n v d t1 o k) := by
  simp only [Tree.setValue, deref_mkNode]
  cases h : t.deref p with
  | none => simp
  | some x => cases x <;> simp

@[simp] theorem swap_pointers_name_mkNode (n v : Str) (d : Dir) (t o : Tree) (k : rwlock)
    (a b : Ptr) :
    swap_pointers_name (mkNode n v d t o k) (d :: a) (d :: b)
      = (swap_pointers_name t a b).map (fun t1 => mkNode n v d t1 o k) := by
  simp only [swap_pointers_name, Option.bind_eq_bind, deref_mkNode, setName_mkNode,
    Option.map_bind, Option.bind_map, Function.comp_def]

@[simp] theorem swap_pointers_value_mkNode (n v : Str) (d : Dir) (t o : Tree) (k : rwlock)
    (a b : Ptr) :
    swap_pointers_value (mkNode n v d t o k) (d :: a) (d :: b)
      = (swap_pointers_value t a b).map (fun t1 => mkNode n v d t1 o k) := by
  simp only [swap_pointers_value, Option.bind_eq_bind, deref_mkNode, setValue_mkNode,
    Option.map_bind, Option.bind_map, Function.comp_def]

theorem xremove_successor_mkNode (n v : Str) (d : Dir) (t o : Tree) (k : rwlock) (p : Ptr) :
    xremove_successor (mkNode n v d t o k) (d :: p)
      = (xremove_successor t p).map (fun t1 => mkNode n v d t1 o k) := by
  simp only [xremove_successor, Option.bind_eq_bind, List.cons_append, deref_mkNode,
    withLock_mkNode, store_mkNode, swap_pointers_name_mkNode, swap_pointers_value_mkNode,
    Option.map_bind, Option.bind_map, Function.comp_def]

theorem rchild_node (n v : Str) (l r : Tree) (k : rwlock) : (Tree.node n v l r k).rchild = r :=
  rfl

theorem lchild_node (n v : Str) (l r : Tree) (k : rwlock) : (Tree.node n v l r k).lchild = l :=
  rfl

theorem name_node (n v : Str) (l r : Tree) (k : rwlock) : (Tree.node n v l r k).name = n :=
  rfl

theorem minNode_node_node (n v : Str) (ln lv : Str) (ll lr : Tree) (lk : rwlock) (r : Tree)
    (k : rwlock) :
    minNode (Tree.node n v (Tree.node ln lv ll lr lk) r k) = minNode (Tree.node ln lv ll lr lk) :=
  rfl

theorem dropMin_node_node (n v : Str) (ln lv : Str) (ll lr : Tree) (lk : rwlock) (r : Tree)
    (k : rwlock) :
    dropMin (Tree.node n v (Tree.node ln lv ll lr lk) r k)
      = Tree.node n v (dropMin (Tree.node ln lv ll lr lk)) r k :=
  rfl

theorem xremove_loop_spec :
    ∀ (rl : Tree), Quiescent rl → ∀ (rn rv : Str) (rr : Tree) (k : rwlock),
      ∃ rstar p, xremove_loop (Tree.node rn rv rl rr k) rwlock.written = some (rstar, p) ∧
        rstar.deref p = some (Tree.node (minNode (Tree.node rn rv rl rr rwlock.init)).name
          (minNode (Tree.node rn rv rl rr rwlock.init)).value Tree.null
          (minNode (Tree.node rn rv rl rr rwlock.init)).rchild rwlock.written) ∧
        rstar.store p (minNode (Tree.node rn rv rl rr rwlock.init)).rchild
          = some (dropMin (Tree.node rn rv rl rr rwlock.init)) := by
  intro rl
  induction rl with
  | null =>
    intro _ rn rv rr k
    exact ⟨Tree.node rn rv Tree.null rr rwlock.written, [], by
      simp [xremove_loop, minNode, dropMin, Tree.deref, Tree.store, Tree.name, Tree.value,
        Tree.rchild]⟩
  | node ln lv ll lr lk ihl _ =>
    intro hq rn rv rr k
    obtain ⟨hk, hql, _⟩ := hq
    subst hk
    obtain ⟨rstar, p, h1, h2, h3⟩ := ihl hql ln lv lr rwlock.init
    refine ⟨Tree.node rn rv rstar rr rwlock.init, Dir.L :: p, ?_, ?_, ?_⟩
    · rw [xremove_loop]
      simp [h1]
    · rw [minNode_node_node]
      simpa [Tree.deref] using h2
    · rw [minNode_node_node, dropMin_node_node]
      simp only [Tree.store]
      rw [h3]
      rfl

theorem xremove_successor_root (nn nv : Str) (nl : Tree) (rn rv : Str) (rl rr : Tree)
    (hq : Quiescent rl) :
    xremove_successor
        (Tree.node nn nv nl (Tree.node rn rv rl rr rwlock.init) rwlock.written) []
      = some (Tree.node (minNode (Tree.node rn rv rl rr rwlock.init)).name
          (minNode (Tree.node rn rv rl rr rwlock.init)).value nl
          (dropMin (Tree.node rn rv rl rr rwlock.init)) rwlock.init) := by
  obtain ⟨rstar, p, h1, h2, h3⟩ := xremove_loop_spec rl hq rn rv rr rwlock.written
  generalize minNode (Tree.node rn rv rl rr rwlock.init) = M at h2 h3 ⊢
  generalize dropMin (Tree.node rn rv rl rr rwlock.init) = D at h3 ⊢
  obtain ⟨r1, hr1⟩ := store_of_deref h2 (Tree.node nn M.value Tree.null M.rchild rwlock.written)
  have d1 := deref_store hr1
  obtain ⟨r2, hr2⟩ := store_of_deref d1 (Tree.node nn nv Tree.null M.rchild rwlock.written)
  have d2 := deref_store hr2
  have s3 : r2.store p M.rchild = some D := by
    rw [store_store hr2, store_store hr1, h3]
  have e1 : (Tree.node nn nv nl (Tree.node rn rv rl rr rwlock.init) rwlock.written).withLock
      [Dir.R] write_lock
      = some (Tree.node nn nv nl (Tree.node rn rv rl rr rwlock.written) rwlock.written) := by
    simp [Tree.withLock, Tree.deref, Tree.store]
  have e3 : swap_pointers_name (Tree.node nn nv nl rstar rwlock.written) [] (Dir.R :: p)
      = some (Tree.node M.name nv nl r1 rwlock.written) := by
    simp [swap_pointers_name, Tree.deref, h2, Tree.setName, Tree.store, hr1, Tree.name]
  have e4 : swap_pointers_value (Tree.node M.name nv nl r1 rwlock.written) [] (Dir.R :: p)
      = some (Tree.node M.name M.value nl r2 rwlock.written) := by
    simp [swap_pointers_value, Tree.deref, d1, Tree.setValue, Tree.store, hr2, Tree.value]
  simp only [xremove_successor, List.nil_append, e1, Option.bind_eq_bind, Option.some_bind,
    Tree.deref, Tree.lk, h1, Tree.store, e3, e4, d2, rchild_node, s3, Option.map_some',
    withLock_nil, write_unlock_written]

/-! ## `xremove` on a tree without held locks -/

theorem xremove_tail_lift (n v : Str) (d : Dir) (o : Tree) (k : rwlock) (s : SearchRes) :
    xremove_tail (s.lift n v d o k)
      = (xremove_tail s).map (fun x => (x.1, mkNode n v d x.2 o k)) := by
  obtain ⟨t, r, pp⟩ := s
  cases r with
  | none =>
    cases pp with
    | none => simp [xremove_tail, SearchRes.lift]
    | some parent =>
      simp only [xremove_tail, SearchRes.lift, Option.map_some', Option.map_none',
        Option.bind_eq_bind, Option.some_bind, withLock_mkNode, Option.map_bind, Option.bind_map,
        Function.comp_def]
  | some dnode =>
    cases pp with
    | none => simp [xremove_tail, SearchRes.lift]
    | some parent =>
      simp only [xremove_tail, SearchRes.lift, Option.map_some', Option.bind_eq_bind,
        Option.some_bind, deref_mkNode]
      cases h1 : t.deref dnode with
      | none => simp
      | some dn =>
        cases h2 : t.deref parent with
        | none => simp
        | some pn =>
          simp only [Option.some_bind]
          split
          · split <;>
              simp only [List.cons_append, store_mkNode, withLock_mkNode, Option.map_bind,
                Option.bind_map, Function.comp_def] <;> rfl
          · split
            · split <;>
                simp only [List.cons_append, store_mkNode, withLock_mkNode, Option.map_bind,
                  Option.bind_map, Function.comp_def] <;> rfl
            · simp only [withLock_mkNode, xremove_successor_mkNode, Option.map_bind,
                Option.bind_map, Function.comp_def]
              rfl

theorem xremove_search (name : Str) :
    ∀ (t : Tree), Quiescent t → ∀ (n v : Str) (d : Dir) (o : Tree) (k : rwlock),
      d = dirOf name n →
      (search name (mkNode n v d t o k) rwlock.written true).bind xremove_tail
        = some (if (find name t).isSome then 1 else 0,
            mkNode n v d (del name t) o rwlock.init) := by
  intro t
  induction t with
  | null =>
    intro _ n v d o k hd
    rw [search_write_null name n v d o k rwlock.written hd]
    simp [xremove_tail, find, del, mkNode_nil]
  | node nn nv nl nr nk ihl ihr =>
    intro hq n v d o k hd
    obtain ⟨hk, hql, hqr⟩ := hq
    subst hk
    by_cases h0 : strcmp name nn = 0
    · rw [search_write_found name n v d o k nn nv nl nr hd h0]
      have hname : name = nn := strcmp_eq_zero.mp h0
      subst hname
      have hpn : (mkNode n v d (Tree.node name nv nl nr rwlock.written) o rwlock.written).name
          = n := by cases d <;> rfl
      have hst : ∀ (x : Tree) (f : Tree → Option (Int × Tree)),
          (if strcmp name n < 0 then
              ((mkNode n v d (Tree.node name nv nl nr rwlock.written) o rwlock.written).store
                [Dir.L] x).bind f
            else
              ((mkNode n v d (Tree.node name nv nl nr rwlock.written) o rwlock.written).store
                [Dir.R] x).bind f)
            = f (mkNode n v d x o rwlock.written) := by
        intro x f
        subst hd
        by_cases hlt : strcmp name n < 0 <;> simp [dirOf, hlt, mkNode, Tree.store]
      simp only [Option.some_bind, xremove_tail, deref_mkNode, Tree.deref, Option.bind_eq_bind,
        hpn, name_node, rchild_node, lchild_node, List.nil_append, hst, mkNode_nil,
        write_unlock_written, Option.map_some', find, h0, if_true, Option.isSome_some, del]
      cases nr with
      | null => simp [Tree.isNull]
      | node rn rv rl rr rk =>
        obtain ⟨hrk, hqrl, _⟩ := hqr
        subst hrk
        cases nl with
        | null => simp [Tree.isNull]
        | node ln lv ll lr lk =>
          simp only [Tree.isNull, Bool.false_eq_true, if_false, xremove_successor_mkNode,
            xremove_successor_root name nv _ rn rv rl rr hqrl, Option.map_some', Option.some_bind]
    · rw [search_write_rec name n v d o k nn nv nl nr hd h0, bind_map_lift]
      simp only [xremove_tail_lift]
      have key : (search name (Tree.node nn nv nl nr rwlock.init) rwlock.written true).bind
            xremove_tail
          = some (if (find name (Tree.node nn nv nl nr rwlock.init)).isSome then 1 else 0,
              del name (Tree.node nn nv nl nr rwlock.init)) := by
        by_cases hlt : strcmp name nn < 0
        · have := ihl hql nn nv Dir.L nr rwlock.init (by simp [dirOf, hlt])
          simpa [mkNode, find, del, h0, hlt] using this
        · have := ihr hqr nn nv Dir.R nl rwlock.init (by simp [dirOf, hlt])
          simpa [mkNode, find, del, h0, hlt] using this
      rw [bind_then_map, key]
      rfl

/-! ## The three operations on a tree without held locks -/

theorem query_eq (name : Str) (result : List Nat) (len : Int) (n v : Str) (d : Dir)
    (t o : Tree) (hd : d = dirOf name n) (hq : Quiescent t) :
    query name result len (mkNode n v d t o rwlock.init)
      = (strncpy result ((find name t).getD not_found) (size_t_of_int (len - 1))).map
          (fun b => (b, mkNode n v d t o rwlock.init)) := by
  have h := query_search name result len t hq n v d o rwlock.init hd
  have hl : (mkNode n v d t o rwlock.init).lk = rwlock.init := by cases d <;> rfl
  rw [← h]
  simp only [query, hl, read_lock_init, Option.bind_eq_bind, Option.some_bind]
  rfl

theorem add_eq (m : Heap) (name value : Str) (n v : Str) (d : Dir) (t o : Tree)
    (hd : d = dirOf name n) (hq : Quiescent t) :
    add m name value (mkNode n v d t o rwlock.init)
      = some (if (find name t).isSome then 0 else 1,
          mkNode n v d (ins m name value t) o rwlock.init) := by
  have h := add_search m name value t hq n v d o rwlock.init hd
  have hl : (mkNode n v d t o rwlock.init).lk = rwlock.init := by cases d <;> rfl
  rw [← h]
  simp only [add, hl, write_lock_init, Option.bind_eq_bind, Option.some_bind]
  rfl

theorem xremove_eq (name : Str) (n v : Str) (d : Dir) (t o : Tree)
    (hd : d = dirOf name n) (hq : Quiescent t) :
    xremove name (mkNode n v d t o rwlock.init)
      = some (if (find name t).isSome then 1 else 0,
          mkNode n v d (del name t) o rwlock.init) := by
  have h := xremove_search name t hq n v d o rwlock.init hd
  have hl : (mkNode n v d t o rwlock.init).lk = rwlock.init := by cases d <;> rfl
  rw [← h]
  simp only [xremove, hl, write_lock_init, Option.bind_eq_bind, Option.some_bind]
  rfl

theorem dirOf_nil (name : Str) : dirOf name [] = Dir.R := by
  simp [dirOf, strcmp_nil_right]

/-- On the sentinel, every operation goes to the right child. -/
theorem query_sentinel (name : Str) (result : List Nat) (len : Int) (v : Str) (l r : Tree)
    (hq : Quiescent r) :
    query name result len (Tree.node [] v l r rwlock.init)
      = (strncpy result ((find name r).getD not_found) (size_t_of_int (len - 1))).map
          (fun b => (b, Tree.node [] v l r rwlock.init)) :=
  query_eq name result len [] v Dir.R r l (dirOf_nil name).symm hq

theorem add_sentinel (m : Heap) (name value : Str) (v : Str) (l r : Tree) (hq : Quiescent r) :
    add m name value (Tree.node [] v l r rwlock.init)
      = some (if (find name r).isSome then 0 else 1,
          Tree.node [] v l (ins m name value r) rwlock.init) :=
  add_eq m name value [] v Dir.R r l (dirOf_nil name).symm hq

theorem xremove_sentinel (name : Str) (v : Str) (l r : Tree) (hq : Quiescent r) :
    xremove name (Tree.node [] v l r rwlock.init)
      = some (if (find name r).isSome then 1 else 0,
          Tree.node [] v l (del name r) rwlock.init) :=
  xremove_eq name [] v Dir.R r l (dirOf_nil name).symm hq

/-! ## Locks stay free -/

theorem quiescent_node_create (m : Heap) (name value : Str) :
    Quiescent (node_create m name value Tree.null Tree.null) := by
  unfold node_create
  split
  · trivial
  · split
    · trivial
    · split
      · trivial
      · exact ⟨rfl, trivial, trivial⟩

theorem quiescent_ins (m : Heap) (name value : Str) (t : Tree) (hq : Quiescent t) :
    Quiescent (ins m name value t) := by
  induction t with
  | null => exact quiescent_node_create m name value
  | node n v l r k ihl ihr =>
    obtain ⟨hk, hl, hr⟩ := hq
    unfold ins
    split
    · exact ⟨hk, hl, hr⟩
    · split
      · exact ⟨hk, ihl hl, hr⟩
      · exact ⟨hk, hl, ihr hr⟩

theorem quiescent_dropMin (t : Tree) (hq : Quiescent t) : Quiescent (dropMin t) := by
  induction t with
  | null => trivial
  | node n v l r k ihl _ =>
    obtain ⟨hk, hl, hr⟩ := hq
    cases l with
    | null => exact hr
    | node ln lv ll lr lk =>
      rw [dropMin_node_node]
      exact ⟨hk, ihl hl, hr⟩

theorem quiescent_del (name : Str) (t : Tree) (hq : Quiescent t) : Quiescent (del name t) := by
  induction t with
  | null => trivial
  | node n v l r k ihl ihr =>
    obtain ⟨hk, hl, hr⟩ := hq
    unfold del
    split
    · split
      · exact hl
      · split
        · exact hr
        · exact ⟨hk, hl, quiescent_dropMin r hr⟩
    · split
      · exact ⟨hk, ihl hl, hr⟩
      · exact ⟨hk, hl, ihr hr⟩

/-! ## Search trees -/

theorem keys_node (n v : Str) (l r : Tree) (k : rwlock) :
    (Tree.node n v l r k).keys = l.keys ++ n :: r.keys := by
  simp [Tree.keys, Tree.inorder]

theorem keys_null : Tree.null.keys = [] := rfl

theorem mem_keys_of_mem_inorder {t : Tree} {k v : Str} (h : (k, v) ∈ t.inorder) : k ∈ t.keys := by
  simp only [Tree.keys, List.mem_map]
  exact ⟨(k, v), h, rfl⟩

theorem find_mem {name v : Str} {t : Tree} (h : find name t = some v) :
    (name, v) ∈ t.inorder := by
  induction t with
  | null => simp [find] at h
  | node n nv l r k ihl ihr =>
    simp only [Tree.inorder, List.mem_append, List.mem_cons]
    unfold find at h
    split at h
    · rename_i h0
      have := strcmp_eq_zero.mp h0
      simp only [Option.some.injEq] at h
      subst this
      subst h
      exact Or.inr (Or.inl rfl)
    · split at h
      · exact Or.inl (ihl h)
      · exact Or.inr (Or.inr (ihr h))

theorem mem_find {name v : Str} {t : Tree} (ho : Ordered t) (h : (name, v) ∈ t.inorder) :
    find name t = some v := by
  induction t with
  | null => simp [Tree.inorder] at h
  | node n nv l r k ihl ihr =>
    obtain ⟨hl, hr, hol, hor⟩ := ho
    simp only [Tree.inorder, List.mem_append, List.mem_cons] at h
    rcases h with h | h | h
    · have hlt := hl name (mem_keys_of_mem_inorder h)
      have hne : ¬ strcmp name n = 0 := by omega
      simp [find, hne, hlt, ihl hol h]
    · simp only [Prod.mk.injEq] at h
      obtain ⟨h1, h2⟩ := h
      subst h1
      subst h2
      simp [find, strcmp_self]
    · have hgt := hr name (mem_keys_of_mem_inorder h)
      have hne : ¬ strcmp name n = 0 := by omega
      have hnl : ¬ strcmp name n < 0 := by omega
      simp [find, hne, hnl, ihr hor h]

theorem find_none_of_not_mem {name : Str} {t : Tree} (h : name ∉ t.keys) : find name t = none := by
  cases hf : find name t with
  | none => rfl
  | some v => exact absurd (mem_keys_of_mem_inorder (find_mem hf)) h

theorem find_isSome_of_mem {name : Str} {t : Tree} (ho : Ordered t) (h : name ∈ t.keys) :
    ∃ v, find name t = some v ∧ (name, v) ∈ t.inorder := by
  simp only [Tree.keys, List.mem_map] at h
  obtain ⟨⟨k, v⟩, hm, hk⟩ := h
  simp only at hk
  subst hk
  exact ⟨v, mem_find ho hm, hm⟩

/-! ### Insertion -/

theorem keys_node_create (m : Heap) (name value : Str) :
    ∀ k ∈ (node_create m name value Tree.null Tree.null).keys, k = name := by
  intro k hk
  unfold node_create at hk
  split at hk
  · simp [Tree.keys, Tree.inorder] at hk
  · split at hk
    · simp [Tree.keys, Tree.inorder] at hk
    · split at hk
      · simp [Tree.keys, Tree.inorder] at hk
      · simpa [Tree.keys, Tree.inorder] using hk

theorem keys_ins (m : Heap) (name value : Str) (t : Tree) :
    ∀ k ∈ (ins m name value t).keys, k = name ∨ k ∈ t.keys := by
  induction t with
  | null =>
    intro k hk
    exact Or.inl (keys_node_create m name value k hk)
  | node n v l r lk ihl ihr =>
    intro k hk
    unfold ins at hk
    split at hk
    · exact Or.inr hk
    · split at hk
      · rw [keys_node] at hk ⊢
        simp only [List.mem_append, List.mem_cons] at hk ⊢
        rcases hk with hk | hk | hk
        · rcases ihl k hk with h | h
          · exact Or.inl h
          · exact Or.inr (Or.inl h)
        · exact Or.inr (Or.inr (Or.inl hk))
        · exact Or.inr (Or.inr (Or.inr hk))
      · rw [keys_node] at hk ⊢
        simp only [List.mem_append, List.mem_cons] at hk ⊢
        rcases hk with hk | hk | hk
        · exact Or.inr (Or.inl hk)
        · exact Or.inr (Or.inr (Or.inl hk))
        · rcases ihr k hk with h | h
          · exact Or.inl h
          · exact Or.inr (Or.inr (Or.inr h))

theorem ordered_node_create (m : Heap) (name value : Str) :
    Ordered (node_create m name value Tree.null Tree.null) := by
  unfold node_create
  split
  · trivial
  · split
    · trivial
    · split
      · trivial
      · simp [Ordered, Tree.keys, Tree.inorder]

theorem ordered_ins (m : Heap) (name value : Str) (t : Tree) (ho : Ordered t) :
    Ordered (ins m name value t) := by
  induction t with
  | null => exact ordered_node_create m name value
  | node n v l r lk ihl ihr =>
    obtain ⟨hl, hr, hol, hor⟩ := ho
    unfold ins
    split
    · exact ⟨hl, hr, hol, hor⟩
    · rename_i h0
      split
      · rename_i hlt
        refine ⟨?_, hr, ihl hol, hor⟩
        intro k hk
        rcases keys_ins m name value l k hk with h | h
        · rw [h]
          exact hlt
        · exact hl k h
      · rename_i hlt
        refine ⟨hl, ?_, hol, ihr hor⟩
        intro k hk
        rcases keys_ins m name value r k hk with h | h
        · rw [h]
          omega
        · exact hr k h

theorem find_ins_self (name value : Str) (t : Tree) (h : find name t = none) :
    find name (ins Heap.ok name value t) = some value := by
  induction t with
  | null => simp [ins, node_create, Heap.ok, find, strcmp_self]
  | node n v l r lk ihl ihr =>
    unfold find at h
    split at h
    · simp at h
    · rename_i h0
      split at h
      · rename_i hlt
        simp [ins, h0, hlt, find, ihl h]
      · rename_i hlt
        simp [ins, h0, hlt, find, ihr h]

theorem find_ins_other (m : Heap) (name value j : Str) (t : Tree) (hj : j ≠ name) :
    find j (ins m name value t) = find j t := by
  have hne : ¬ strcmp j name = 0 := fun h => hj (strcmp_eq_zero.mp h)
  induction t with
  | null =>
    unfold ins node_create
    split
    · rfl
    · split
      · rfl
      · split
        · rfl
        · simp [find, hne]
  | node n v l r lk ihl ihr =>
    unfold ins
    split
    · rfl
    · split
      · simp only [find, ihl]
      · simp only [find, ihr]

theorem ins_of_found (m : Heap) (name value : Str) (t : Tree) (h : (find name t).isSome) :
    ins m name value t = t := by
  induction t with
  | null => simp [find] at h
  | node n v l r lk ihl ihr =>
    unfold find at h
    unfold ins
    split
    · rfl
    · rename_i h0
      simp only [h0, if_false] at h
      split
      · rename_i hlt
        simp only [hlt, if_true] at h
        rw [ihl h]
      · rename_i hlt
        simp only [hlt, if_false] at h
        rw [ihr h]

/-! ### Deletion -/

theorem del_of_not_found (name : Str) (t : Tree) (h : find name t = none) : del name t = t := by
  induction t with
  | null => rfl
  | node n v l r lk ihl ihr =>
    unfold find at h
    unfold del
    split at h
    · simp at h
    · rename_i h0
      simp only [h0, if_false]
      split at h
      · rename_i hlt
        simp only [hlt, if_true]
        rw [ihl h]
      · rename_i hlt
        simp only [hlt, if_false]
        rw [ihr h]

theorem inorder_minNode (n v : Str) (l r : Tree) (k : rwlock) :
    (Tree.node n v l r k).inorder
      = ((minNode (Tree.node n v l r k)).name, (minNode (Tree.node n v l r k)).value)
          :: (dropMin (Tree.node n v l r k)).inorder := by
  induction l generalizing n v r k with
  | null => simp [minNode, dropMin, Tree.inorder, Tree.name, Tree.value]
  | node ln lv ll lr lk ihl _ =>
    rw [minNode_node_node, dropMin_node_node]
    simp only [Tree.inorder] at ihl ⊢
    rw [ihl ln lv lr lk]
    simp

theorem del_split {name v : Str} {t : Tree} (h : find name t = some v) :
    ∃ l1 l2, t.inorder = l1 ++ (name, v) :: l2 ∧ (del name t).inorder = l1 ++ l2 := by
  induction t with
  | null => simp [find] at h
  | node n nv l r k ihl ihr =>
    unfold find at h
    unfold del
    split at h
    · rename_i h0
      have hn := strcmp_eq_zero.mp h0
      simp only [Option.some.injEq] at h
      subst hn
      subst h
      simp only [h0, if_true]
      cases r with
      | null =>
        exact ⟨l.inorder, [], by simp [Tree.inorder, Tree.isNull]⟩
      | node rn rv rl rr rk =>
        cases l with
        | null =>
          exact ⟨[], (Tree.node rn rv rl rr rk).inorder, by simp [Tree.inorder, Tree.isNull]⟩
        | node ln lv ll lr lk =>
          refine ⟨(Tree.node ln lv ll lr lk).inorder, (Tree.node rn rv rl rr rk).inorder, rfl, ?_⟩
          simp only [Tree.isNull, Bool.false_eq_true, if_false]
          rw [inorder_minNode rn rv rl rr rk]
          rfl
    · rename_i h0
      simp only [h0, if_false]
      split at h
      · rename_i hlt
        obtain ⟨l1, l2, e1, e2⟩ := ihl h
        refine ⟨l1, l2 ++ (n, nv) :: r.inorder, ?_, ?_⟩
        · simp [Tree.inorder, e1]
        · simp [hlt, Tree.inorder, e2]
      · rename_i hlt
        obtain ⟨l1, l2, e1, e2⟩ := ihr h
        refine ⟨l.inorder ++ (n, nv) :: l1, l2, ?_, ?_⟩
        · simp [Tree.inorder, e1]
        · simp [hlt, Tree.inorder, e2]

/-! ### The ordering invariant and the in-order sequence -/

theorem ordered_iff_pairwise (t : Tree) :
    Ordered t ↔ t.keys.Pairwise (fun a b => strcmp a b < 0) := by
  induction t with
  | null => simp [Ordered, Tree.keys, Tree.inorder]
  | node n v l r k ihl ihr =>
    rw [keys_node, List.pairwise_append, List.pairwise_cons]
    simp only [Ordered, ihl, ihr]
    constructor
    · rintro ⟨hl, hr, pl, pr⟩
      refine ⟨pl, ⟨fun b hb => strcmp_flip.mpr (hr b hb), pr⟩, ?_⟩
      intro a ha b hb
      rcases List.mem_cons.mp hb with rfl | hb
      · exact hl a ha
      · exact strcmp_trans (hl a ha) (strcmp_flip.mpr (hr b hb))
    · rintro ⟨pl, ⟨hr, pr⟩, hlr⟩
      exact ⟨fun a ha => hlr a ha n (List.mem_cons_self n _),
        fun b hb => strcmp_flip.mp (hr b hb), pl, pr⟩

theorem pairwise_nodup {l : List Str} (h : l.Pairwise (fun a b => strcmp a b < 0)) : l.Nodup := by
  refine List.Pairwise.imp ?_ h
  intro a b hab
  exact strcmp_ne_of_lt hab

theorem keys_del_split {name v : Str} {t : Tree} (h : find name t = some v) :
    ∃ k1 k2, t.keys = k1 ++ name :: k2 ∧ (del name t).keys = k1 ++ k2 := by
  obtain ⟨l1, l2, e1, e2⟩ := del_split h
  exact ⟨l1.map Prod.fst, l2.map Prod.fst, by simp [Tree.keys, e1], by simp [Tree.keys, e2]⟩

theorem ordered_del (name : Str) (t : Tree) (ho : Ordered t) : Ordered (del name t) := by
  cases hf : find name t with
  | none => rw [del_of_not_found name t hf]; exact ho
  | some v =>
    obtain ⟨k1, k2, e1, e2⟩ := keys_del_split hf
    rw [ordered_iff_pairwise] at ho ⊢
    rw [e1] at ho
    rw [e2]
    refine List.Pairwise.sublist ?_ ho
    exact List.Sublist.append_left (List.sublist_cons_self name k2) k1

theorem not_mem_keys_del (name : Str) (t : Tree) (ho : Ordered t) : name ∉ (del name t).keys := by
  cases hf : find name t with
  | none =>
    rw [del_of_not_found name t hf]
    intro hm
    obtain ⟨v, hv, _⟩ := find_isSome_of_mem ho hm
    rw [hf] at hv
    exact absurd hv (by simp)
  | some v =>
    obtain ⟨k1, k2, e1, e2⟩ := keys_del_split hf
    have hnd := pairwise_nodup ((ordered_iff_pairwise t).mp ho)
    rw [e1] at hnd
    rw [e2]
    intro hm
    have h1 := List.nodup_append.mp hnd
    rcases List.mem_append.mp hm with hm | hm
    · exact h1.2.2 hm (List.mem_cons_self name k2)
    · exact (List.nodup_cons.mp h1.2.1).1 hm

theorem find_del_other (name j : Str) (t : Tree) (ho : Ordered t) (hj : j ≠ name) :
    find j (del name t) = find j t := by
  cases hf : find name t with
  | none => rw [del_of_not_found name t hf]
  | some v =>
    obtain ⟨l1, l2, e1, e2⟩ := del_split hf
    have ho2 := ordered_del name t ho
    have key : ∀ w, (j, w) ∈ (del name t).inorder ↔ (j, w) ∈ t.inorder := by
      intro w
      rw [e1, e2]
      simp only [List.mem_append, List.mem_cons, Prod.mk.injEq]
      constructor
      · rintro (h | h)
        · exact Or.inl h
        · exact Or.inr (Or.inr h)
      · rintro (h | h | h)
        · exact Or.inl h
        · exact absurd h.1 hj
        · exact Or.inr h
    cases h1 : find j (del name t) with
    | none =>
      cases h2 : find j t with
      | none => rfl
      | some w =>
        have := mem_find ho2 ((key w).mpr (find_mem h2))
        rw [h1] at this
        exact absurd this (by simp)
    | some w =>
      exact (mem_find ho ((key w).mp (find_mem h1))).symm

/-! ## The sentinel -/

theorem sentinel_shape {t : Tree} (hs : isSentinel t = true) (ho : Ordered t) (hq : Quiescent t) :
    ∃ r, t = Tree.node [] [] Tree.null r rwlock.init ∧ Ordered r ∧ Quiescent r
      ∧ ∀ k ∈ r.keys, k ≠ [] := by
  cases t with
  | null => simp [isSentinel] at hs
  | node n v l r k =>
    cases n with
    | cons a as => simp [isSentinel] at hs
    | nil =>
      cases v with
      | cons a as => simp [isSentinel] at hs
      | nil =>
        obtain ⟨hl, hr, hol, hor⟩ := ho
        obtain ⟨hk, hql, hqr⟩ := hq
        subst hk
        have hnull : l = Tree.null := by
          cases l with
          | null => rfl
          | node ln lv ll lr lk =>
            have := hl ln (by simp [keys_node])
            exact absurd this (strcmp_nil_right ln)
        subst hnull
        refine ⟨r, rfl, hor, hqr, ?_⟩
        intro k hk
        exact strcmp_ne_of_gt (hr k hk)

theorem sentinel_build {r : Tree} (ho : Ordered r) (hq : Quiescent r) (hk : ∀ k ∈ r.keys, k ≠ []) :
    isSentinel (Tree.node [] [] Tree.null r rwlock.init) = true
      ∧ Ordered (Tree.node [] [] Tree.null r rwlock.init)
      ∧ Quiescent (Tree.node [] [] Tree.null r rwlock.init) := by
  refine ⟨rfl, ⟨?_, ?_, trivial, ho⟩, ⟨rfl, trivial, hq⟩⟩
  · intro k hk
    simp [keys_null] at hk
  · intro k hkr
    exact strcmp_nil_pos (hk k hkr)

theorem names_sentinel (n v : Str) (r : Tree) (k : rwlock) :
    (Tree.node n v Tree.null r k).names = r.keys := by
  simp [Tree.names, Tree.entries, Tree.lchild, Tree.rchild, Tree.inorder, Tree.keys]

theorem entries_sentinel (n v : Str) (r : Tree) (k : rwlock) :
    (Tree.node n v Tree.null r k).entries = r.inorder := by
  simp [Tree.entries, Tree.lchild, Tree.rchild, Tree.inorder]

theorem keys_del_subset (name : Str) (t : Tree) : ∀ k ∈ (del name t).keys, k ∈ t.keys := by
  intro k hk
  cases hf : find name t with
  | none => rwa [del_of_not_found name t hf] at hk
  | some v =>
    obtain ⟨k1, k2, e1, e2⟩ := keys_del_split hf
    rw [e2] at hk
    rw [e1]
    simp only [List.mem_append, List.mem_cons] at hk ⊢
    rcases hk with h | h
    · exact Or.inl h
    · exact Or.inr (Or.inr h)

/-! ## The response buffer -/

theorem size_t_of_int_pred (len : Int) (h1 : 1 ≤ len) (h2 : len < 2 ^ 31) :
    size_t_of_int (len - 1) = (len - 1).toNat := by
  unfold size_t_of_int
  rw [Int.emod_eq_of_lt (by omega) (by omega)]

theorem takeWhile_append_zero (v rest : List Nat) (hv : 0 ∉ v) :
    (v ++ 0 :: rest).takeWhile (fun b => b ≠ 0) = v := by
  induction v with
  | nil => simp
  | cons a as ih =>
    have ha : a ≠ 0 := fun h => hv (by simp [h])
    have has : 0 ∉ as := fun h => hv (by simp [h])
    simpa [List.takeWhile_cons, ha] using ih has

theorem strncpy_spec (result : List Nat) (v : Str) (len : Int) (hv : 0 ∉ v)
    (hlen : (v.length : Int) + 1 ≤ len) (hbuf : len ≤ result.length) (hint : len < 2 ^ 31) :
    ∃ buf, strncpy result v (size_t_of_int (len - 1)) = some buf ∧ buf.take v.length = v
      ∧ ((v.length : Int) + 1 < len → c_string buf = v) := by
  rw [size_t_of_int_pred len (by omega) hint]
  have hn : (len - 1).toNat ≤ result.length := by omega
  have hvn : v.length ≤ (len - 1).toNat := by omega
  refine ⟨v.take (len - 1).toNat ++ List.replicate ((len - 1).toNat - v.length) 0
    ++ result.drop (len - 1).toNat, by simp only [strncpy, hn, if_true], ?_, ?_⟩
  · rw [List.take_of_length_le hvn, List.append_assoc, List.take_left']
    rfl
  · intro hlt
    obtain ⟨j, hj⟩ : ∃ j, (len - 1).toNat - v.length = j + 1 :=
      ⟨(len - 1).toNat - v.length - 1, by omega⟩
    rw [List.take_of_length_le hvn, hj, List.replicate_succ]
    simp only [c_string, List.append_assoc, List.cons_append]
    exact takeWhile_append_zero v _ hv

theorem not_found_no_nul : 0 ∉ not_found := by decide

/-! ## Reachable stores -/

theorem keys_ins_ne_nil (m : Heap) (name value : Str) (r : Tree) (hname : name ≠ [])
    (hk : ∀ k ∈ r.keys, k ≠ []) : ∀ k ∈ (ins m name value r).keys, k ≠ [] := by
  intro k hkk
  rcases keys_ins m name value r k hkk with h | h
  · rw [h]
    exact hname
  · exact hk k h

theorem reachable_inv {t : Tree} (h : Reachable t) :
    isSentinel t = true ∧ Ordered t ∧ Quiescent t := by
  induction h with
  | init => exact ⟨by decide, by decide, by decide⟩
  | add m name value t t1 rc _ hname hadd ih =>
    obtain ⟨r, rfl, hor, hqr, hkr⟩ := sentinel_shape ih.1 ih.2.1 ih.2.2
    rw [add_sentinel m name value [] Tree.null r hqr] at hadd
    simp only [Option.some.injEq, Prod.mk.injEq] at hadd
    rw [← hadd.2]
    exact sentinel_build (ordered_ins m name value r hor) (quiescent_ins m name value r hqr)
      (keys_ins_ne_nil m name value r hname hkr)
  | xremove name t t1 rc _ hname hrem ih =>
    obtain ⟨r, rfl, hor, hqr, hkr⟩ := sentinel_shape ih.1 ih.2.1 ih.2.2
    rw [xremove_sentinel name [] Tree.null r hqr] at hrem
    simp only [Option.some.injEq, Prod.mk.injEq] at hrem
    rw [← hrem.2]
    exact sentinel_build (ordered_del name r hor) (quiescent_del name r hqr)
      (fun k hk => hkr k (keys_del_subset name r k hk))

/-! ## The claims -/

/-- C1 (reachability): on every store reachable from the initial `head` by calls of `add` and
`xremove` with non-empty names, for a name `k` that is not stored (non-empty or not) and a
value `v`, `add(k, v)` (its allocations succeeding) returns 1, and the `query(k)` that follows,
given a buffer of `len` bytes with room for `v` and its NUL, writes the bytes of `v` at the
start of the buffer; they are followed by a NUL, so that the buffer holds the C string `v`,
when `len` is above the length of `v` plus one (`strncpy` is called with `len - 1`). -/
theorem add_then_query_yields_value (t : Tree) (hreach : Reachable t) (k v : Str)
    (hfresh : k ∉ t.names) (hv : 0 ∉ v) (result : List Nat) (len : Int)
    (hlen : (v.length : Int) + 1 ≤ len) (hbuf : len ≤ result.length) (hint : len < 2 ^ 31) :
    ∃ t1 buf t2, add Heap.ok k v t = some (1, t1)
      ∧ query k result len t1 = some (buf, t2) ∧ buf.take v.length = v
      ∧ ((v.length : Int) + 1 < len → c_string buf = v) := by
  obtain ⟨hs, ho, hq⟩ := reachable_inv hreach
  obtain ⟨r, rfl, hor, hqr, hkr⟩ := sentinel_shape hs ho hq
  rw [names_sentinel] at hfresh
  have hnone : find k r = none := find_none_of_not_mem hfresh
  obtain ⟨buf, hb1, hb2, hb3⟩ := strncpy_spec result v len hv hlen hbuf hint
  refine ⟨Tree.node [] [] Tree.null (ins Heap.ok k v r) rwlock.init, buf,
    Tree.node [] [] Tree.null (ins Heap.ok k v r) rwlock.init, ?_, ?_, hb2, hb3⟩
  · rw [add_sentinel Heap.ok k v [] Tree.null r hqr, hnone]
    rfl
  · rw [query_sentinel k result len [] Tree.null _ (quiescent_ins Heap.ok k v r hqr),
      find_ins_self k v r hnone]
    simp [hb1]

/-- C2 (deletion persistence): on a store in BST order with no lock held, for a stored name
`k` (every stored name is non-empty), `xremove(k)` returns 1, `k` is no longer the name of any
node of the tree, and the `query(k)` that follows, given a buffer of `len >= 10` bytes, writes
the nine bytes of `"not found"` at the start of the buffer; the buffer holds the C string
`"not found"` when `len > 10`. -/
theorem xremove_then_query_not_found (head : Tree) (hs : isSentinel head = true)
    (ho : Ordered head) (hq : Quiescent head) (k : Str) (hin : k ∈ head.names)
    (result : List Nat) (len : Int) (hlen : 10 ≤ len) (hbuf : len ≤ result.length)
    (hint : len < 2 ^ 31) :
    ∃ t1 buf t2, xremove k head = some (1, t1) ∧ k ∉ t1.keys
      ∧ query k result len t1 = some (buf, t2) ∧ buf.take 9 = not_found
      ∧ (10 < len → c_string buf = not_found) := by
  obtain ⟨r, rfl, hor, hqr, hkr⟩ := sentinel_shape hs ho hq
  rw [names_sentinel] at hin
  obtain ⟨v, hv, _⟩ := find_isSome_of_mem hor hin
  have hgone := not_mem_keys_del k r hor
  obtain ⟨buf, hb1, hb2, hb3⟩ := strncpy_spec result not_found len not_found_no_nul
    (by simp [not_found]; omega) hbuf hint
  refine ⟨Tree.node [] [] Tree.null (del k r) rwlock.init, buf,
    Tree.node [] [] Tree.null (del k r) rwlock.init, ?_, ?_, ?_, hb2,
    fun h => hb3 (by simp [not_found]; omega)⟩
  · rw [xremove_sentinel k [] Tree.null r hqr, hv]
    rfl
  · rw [keys_node, keys_null, List.nil_append, List.mem_cons]
    rintro (h | h)
    · exact hkr k hin h
    · exact hgone h
  · rw [query_sentinel k result len [] Tree.null _ (quiescent_del k r hqr),
      find_none_of_not_mem hgone]
    simp [hb1]

/-- C3 (the ordering invariant is kept): on a store in BST order with no lock held, every
`add(k, v)` and every `xremove(k)` with a non-empty name returns and leaves a tree in BST order;
its in-order sequence of names is strictly increasing and has no name twice. -/
theorem ordering_invariant_kept (head : Tree) (hs : isSentinel head = true)
    (ho : Ordered head) (hq : Quiescent head) (k : Str) (hk : k ≠ []) :
    (∀ (m : Heap) (v : Str), ∃ rc t1, add m k v head = some (rc, t1) ∧ Ordered t1
        ∧ t1.keys.Pairwise (fun a b => strcmp a b < 0) ∧ t1.keys.Nodup)
    ∧ (∃ rc t1, xremove k head = some (rc, t1) ∧ Ordered t1
        ∧ t1.keys.Pairwise (fun a b => strcmp a b < 0) ∧ t1.keys.Nodup) := by
  obtain ⟨r, rfl, hor, hqr, hkr⟩ := sentinel_shape hs ho hq
  constructor
  · intro m v
    have hb := sentinel_build (ordered_ins m k v r hor) (quiescent_ins m k v r hqr)
      (keys_ins_ne_nil m k v r hk hkr)
    have hp := (ordered_iff_pairwise _).mp hb.2.1
    exact ⟨_, _, add_sentinel m k v [] Tree.null r hqr, hb.2.1, hp, pairwise_nodup hp⟩
  · have hb := sentinel_build (ordered_del k r hor) (quiescent_del k r hqr)
      (fun j hj => hkr j (keys_del_subset k r j hj))
    have hp := (ordered_iff_pairwise _).mp hb.2.1
    exact ⟨_, _, xremove_sentinel k [] Tree.null r hqr, hb.2.1, hp, pairwise_nodup hp⟩

/-- C4 (duplicate add): on a store in BST order with no lock held, when `k` is stored with
value `v0`, `add(k, v)` returns 0 and leaves the very same tree, and a following `query(k)`,
given a buffer of `len` bytes with room for `v0` and its NUL, writes the bytes of `v0` at the
start of the buffer; the buffer holds the C string `v0` when `len` is above the length of `v0`
plus one. -/
theorem duplicate_add_is_noop (head : Tree) (hs : isSentinel head = true)
    (ho : Ordered head) (hq : Quiescent head) (k v0 : Str) (hin : (k, v0) ∈ head.entries)
    (m : Heap) (v : Str) (hv0 : 0 ∉ v0) (result : List Nat) (len : Int)
    (hlen : (v0.length : Int) + 1 ≤ len) (hbuf : len ≤ result.length) (hint : len < 2 ^ 31) :
    add m k v head = some (0, head)
      ∧ ∃ buf, query k result len head = some (buf, head) ∧ buf.take v0.length = v0
          ∧ ((v0.length : Int) + 1 < len → c_string buf = v0) := by
  obtain ⟨r, rfl, hor, hqr, hkr⟩ := sentinel_shape hs ho hq
  rw [entries_sentinel] at hin
  have hf : find k r = some v0 := mem_find hor hin
  obtain ⟨buf, hb1, hb2, hb3⟩ := strncpy_spec result v0 len hv0 hlen hbuf hint
  constructor
  · rw [add_sentinel m k v [] Tree.null r hqr, hf, ins_of_found m k v r (by simp [hf])]
    rfl
  · refine ⟨buf, ?_, hb2, hb3⟩
    rw [query_sentinel k result len [] Tree.null r hqr, hf]
    simp [hb1]

/-- C5 (removing an absent name): on a store in BST order with no lock held, for a name `k`
that is not stored (non-empty or not), `xremove(k)` returns 0 and leaves the very same tree. -/
theorem xremove_absent_is_noop (head : Tree) (hs : isSentinel head = true)
    (ho : Ordered head) (hq : Quiescent head) (k : Str) (hout : k ∉ head.names) :
    xremove k head = some (0, head) := by
  obtain ⟨r, rfl, hor, hqr, hkr⟩ := sentinel_shape hs ho hq
  rw [names_sentinel] at hout
  have hf : find k r = none := find_none_of_not_mem hout
  rw [xremove_sentinel k [] Tree.null r hqr, hf, del_of_not_found k r hf]
  rfl

/-- C6 (query of an absent name): on a store in BST order with no lock held, for a name `k`
that is not stored and a buffer of `len >= 10` bytes, `query(k)` writes the nine bytes of
`"not found"` at the start of the buffer and leaves the very same tree; the buffer holds the C
string `"not found"` when `len > 10` (`strncpy` is called with `len - 1`). -/
theorem query_absent_not_found (head : Tree) (hs : isSentinel head = true)
    (ho : Ordered head) (hq : Quiescent head) (k : Str) (hout : k ∉ head.names)
    (result : List Nat) (len : Int) (hlen : 10 ≤ len) (hbuf : len ≤ result.length)
    (hint : len < 2 ^ 31) :
    ∃ buf, query k result len head = some (buf, head) ∧ buf.take 9 = not_found
      ∧ (10 < len → c_string buf = not_found) := by
  obtain ⟨r, rfl, hor, hqr, hkr⟩ := sentinel_shape hs ho hq
  rw [names_sentinel] at hout
  have hf : find k r = none := find_none_of_not_mem hout
  obtain ⟨buf, hb1, hb2, hb3⟩ := strncpy_spec result not_found len not_found_no_nul
    (by simp [not_found]; omega) hbuf hint
  refine ⟨buf, ?_, hb2, fun h => hb3 (by simp [not_found]; omega)⟩
  rw [query_sentinel k result len [] Tree.null r hqr, hf, Option.getD_none, hb1]
  rfl

/-- C7 (other names are untouched): on a store in BST order with no lock held, for a name `k`
and any other name `j`, `query(j)` writes the same bytes after `add(k, v)` as before it, and
the same bytes after `xremove(k)` as before it. -/
theorem other_names_untouched (head : Tree) (hs : isSentinel head = true)
    (ho : Ordered head) (hq : Quiescent head) (k j : Str) (hj : j ≠ k)
    (result : List Nat) (len : Int) :
    (∀ (m : Heap) (v : Str), ∃ rc t1, add m k v head = some (rc, t1)
        ∧ (query j result len t1).map Prod.fst = (query j result len head).map Prod.fst)
    ∧ (∃ rc t1, xremove k head = some (rc, t1)
        ∧ (query j result len t1).map Prod.fst = (query j result len head).map Prod.fst) := by
  obtain ⟨r, rfl, hor, hqr, hkr⟩ := sentinel_shape hs ho hq
  constructor
  · intro m v
    refine ⟨_, _, add_sentinel m k v [] Tree.null r hqr, ?_⟩
    rw [query_sentinel j result len [] Tree.null _ (quiescent_ins m k v r hqr),
      query_sentinel j result len [] Tree.null r hqr, find_ins_other m k v j r hj]
    simp [Option.map_map, Function.comp_def]
  · refine ⟨_, _, xremove_sentinel k [] Tree.null r hqr, ?_⟩
    rw [query_sentinel j result len [] Tree.null _ (quiescent_del k r hqr),
      query_sentinel j result len [] Tree.null r hqr, find_del_other k j r hor hj]
    simp [Option.map_map, Function.comp_def]

/-- C8 (the entries after a removal): on a store in BST order with no lock held, for a stored
name `k`, `xremove(k)` returns 1 and the in-order sequence of (name, value) pairs under the
sentinel afterwards is the sequence before with the one entry of `k` taken out; no entry of
`k` remains. -/
theorem entries_after_xremove (head : Tree) (hs : isSentinel head = true)
    (ho : Ordered head) (hq : Quiescent head) (k : Str) (hin : k ∈ head.names) :
    ∃ t1 v l1 l2, xremove k head = some (1, t1) ∧ head.entries = l1 ++ (k, v) :: l2
      ∧ t1.entries = l1 ++ l2 ∧ k ∉ (l1 ++ l2).map Prod.fst := by
  obtain ⟨r, rfl, hor, hqr, hkr⟩ := sentinel_shape hs ho hq
  rw [names_sentinel] at hin
  obtain ⟨v, hv, _⟩ := find_isSome_of_mem hor hin
  obtain ⟨l1, l2, e1, e2⟩ := del_split hv
  refine ⟨Tree.node [] [] Tree.null (del k r) rwlock.init, v, l1, l2, ?_, ?_, ?_, ?_⟩
  · rw [xremove_sentinel k [] Tree.null r hqr, hv]
    rfl
  · rw [entries_sentinel, e1]
  · rw [entries_sentinel, e2]
  · have := not_mem_keys_del k r hor
    rwa [Tree.keys, e2] at this

/-- C9 (lock hygiene): on any tree none of whose locks is held, for any name, `query` (given a
buffer of at least `len >= 1` bytes), `add` (whatever the allocations do) and `xremove` return,
and in the tree they leave no lock field of any node is held and every reader count is 0. -/
theorem lock_hygiene (head : Tree) (hnn : head.isNull = false) (hq : Quiescent head)
    (name value : Str) (m : Heap) (result : List Nat) (len : Int) (hlen : 1 ≤ len)
    (hbuf : len ≤ result.length) (hint : len < 2 ^ 31) :
    (∃ buf t1, query name result len head = some (buf, t1) ∧ Quiescent t1)
    ∧ (∃ rc t1, add m name value head = some (rc, t1) ∧ Quiescent t1)
    ∧ (∃ rc t1, xremove name head = some (rc, t1) ∧ Quiescent t1) := by
  cases head with
  | null => simp [Tree.isNull] at hnn
  | node n v l r k =>
    obtain ⟨hk, hql, hqr⟩ := hq
    subst hk
    have hn : size_t_of_int (len - 1) ≤ result.length := by
      rw [size_t_of_int_pred len hlen hint]
      omega
    rw [node_eq_mkNode name n v l r rwlock.init]
    by_cases hlt : strcmp name n < 0
    · simp only [hlt, if_true]
      have hmk : ∀ x : Tree, Quiescent x → Quiescent (mkNode n v (dirOf name n) x r rwlock.init) := by
        intro x hx
        simp only [dirOf, hlt, if_true, mkNode]
        exact ⟨rfl, hx, hqr⟩
      refine ⟨?_, ?_, ?_⟩
      · rw [query_eq name result len n v _ l r rfl hql]
        simp only [strncpy, hn, if_true, Option.map_some']
        exact ⟨_, _, rfl, hmk l hql⟩
      · rw [add_eq m name value n v _ l r rfl hql]
        exact ⟨_, _, rfl, hmk _ (quiescent_ins m name value l hql)⟩
      · rw [xremove_eq name n v _ l r rfl hql]
        exact ⟨_, _, rfl, hmk _ (quiescent_del name l hql)⟩
    · simp only [hlt, if_false]
      have hmk : ∀ x : Tree, Quiescent x → Quiescent (mkNode n v (dirOf name n) x l rwlock.init) := by
        intro x hx
        simp only [dirOf, hlt, if_false, mkNode]
        exact ⟨rfl, hql, hx⟩
      refine ⟨?_, ?_, ?_⟩
      · rw [query_eq name result len n v _ r l rfl hqr]
        simp only [strncpy, hn, if_true, Option.map_some']
        exact ⟨_, _, rfl, hmk r hqr⟩
      · rw [add_eq m name value n v _ r l rfl hqr]
        exact ⟨_, _, rfl, hmk _ (quiescent_ins m name value r hqr)⟩
      · rw [xremove_eq name n v _ r l rfl hqr]
        exact ⟨_, _, rfl, hmk _ (quiescent_del name r hqr)⟩

/-! ## The locks `search` leaves held -/

theorem locked_quiescent {t : Tree} (hq : Quiescent t) : t.locked = [] := by
  induction t with
  | null => rfl
  | node n v l r k ihl ihr =>
    obtain ⟨hk, hl, hr⟩ := hq
    simp [Tree.locked, hk, ihl hl, ihr hr]

theorem locked_mkNode (n v : Str) (d : Dir) (t o : Tree) (k : rwlock) (ho : Quiescent o) :
    (mkNode n v d t o k).locked
      = (if k = rwlock.init then [] else [([], k)])
          ++ t.locked.map (fun e => (d :: e.1, e.2)) := by
  cases d <;> simp [mkNode, Tree.locked, locked_quiescent ho]

theorem searchPost_lift (w : Bool) (name n v : Str) (d : Dir) (o : Tree) (s : SearchRes)
    (ho : Quiescent o) (h : SearchPost w name s) :
    SearchPost w name (s.lift n v d o rwlock.init) := by
  obtain ⟨t, r, pp⟩ := s
  cases w <;> cases r <;>
    simp only [SearchPost, SearchRes.lift, Option.map_some', Option.map_none',
      locked_mkNode n v d t o rwlock.init ho, if_true, List.nil_append, deref_mkNode] at h ⊢
  · obtain ⟨h1, h2⟩ := h
    simp [h1, h2]
  · obtain ⟨h1, h2, h3⟩ := h
    simp [h1, h2, h3]
  · obtain ⟨parent, h1, h2⟩ := h
    exact ⟨d :: parent, by simp [h1], by simp [h2]⟩
  · obtain ⟨parent, e, h1, h2, h3, h4⟩ := h
    exact ⟨d :: parent, e, by simp [h1], by simp [h2], by simp [h3], h4⟩

theorem search_post (name : Str) (w : Bool) :
    ∀ (t : Tree), Quiescent t → ∀ (n v : Str) (d : Dir) (o : Tree) (k : rwlock),
      Quiescent o → d = dirOf name n →
      ∃ s, search name (mkNode n v d t o k) (if w then rwlock.written else rwlock.read1) w
          = some s ∧ SearchPost w name s := by
  intro t
  induction t with
  | null =>
    intro _ n v d o k ho hd
    cases w
    · refine ⟨_, search_read_null name n v d o k hd, ?_⟩
      simp [SearchPost, locked_mkNode _ _ _ _ _ _ ho, Tree.locked]
    · refine ⟨_, search_write_null name n v d o k rwlock.written hd, ?_⟩
      exact ⟨[], rfl, by simp [locked_mkNode _ _ _ _ _ _ ho, Tree.locked, rwlock.written,
        rwlock.init]⟩
  | node nn nv nl nr nk ihl ihr =>
    intro hq n v d o k ho hd
    obtain ⟨hk, hql, hqr⟩ := hq
    subst hk
    by_cases h0 : strcmp name nn = 0
    · have hname : nn = name := (strcmp_eq_zero.mp h0).symm
      cases w
      · refine ⟨_, search_read_found name n v d o k nn nv nl nr hd h0, ?_⟩
        simp [SearchPost, locked_mkNode _ _ _ _ _ _ ho, Tree.locked, locked_quiescent hql,
          locked_quiescent hqr, rwlock.read1, rwlock.init, Tree.deref, Tree.name, hname]
      · refine ⟨_, search_write_found name n v d o k nn nv nl nr hd h0, ?_⟩
        exact ⟨[], d, rfl, rfl, by
          simp [locked_mkNode _ _ _ _ _ _ ho, Tree.locked, locked_quiescent hql,
            locked_quiescent hqr, rwlock.written, rwlock.init], by
          simp [Tree.deref, Tree.name, hname]⟩
    · have key : ∃ s, search name (Tree.node nn nv nl nr rwlock.init)
            (if w then rwlock.written else rwlock.read1) w = some s ∧ SearchPost w name s := by
        by_cases hlt : strcmp name nn < 0
        · have := ihl hql nn nv Dir.L nr rwlock.init hqr (by simp [dirOf, hlt])
          simpa [mkNode] using this
        · have := ihr hqr nn nv Dir.R nl rwlock.init hql (by simp [dirOf, hlt])
          simpa [mkNode] using this
      obtain ⟨s, hs, hp⟩ := key
      refine ⟨s.lift n v d o rwlock.init, ?_, searchPost_lift w name n v d o s ho hp⟩
      cases w
      · simp only [Bool.false_eq_true, if_false] at hs ⊢
        rw [search_read_rec name n v d o k nn nv nl nr hd h0, hs]
        rfl
      · simp only [if_true] at hs ⊢
        rw [search_write_rec name n v d o k nn nv nl nr hd h0, hs]
        rfl

/-- C10 (the locks `search` leaves held): called on a parent whose two subtrees hold no lock
and which the caller has read-locked (read mode) or write-locked (write mode), `search` returns,
and the nodes with a held lock are then: in read mode with a target, the target alone, held by
one reader; in read mode without target, none; in write mode with a target, the target and
its parent, both write-locked, the parent being stored in `*parentpp`; in write mode without
target, the node stored in `*parentpp` alone, write-locked.  A target has the name searched.
This holds whatever the name of the parent is. -/
theorem search_lock_postconditions (name pname pvalue : Str) (l r : Tree) (writing : Bool)
    (hl : Quiescent l) (hr : Quiescent r) :
    ∃ s, search name
          (Tree.node pname pvalue l r (if writing then rwlock.written else rwlock.read1))
          (if writing then rwlock.written else rwlock.read1) writing = some s
      ∧ (writing = false → ∀ target, s.result = some target →
          s.tree.locked = [(target, rwlock.read1)]
            ∧ (s.tree.deref target).map Tree.name = some name)
      ∧ (writing = false → s.result = none → s.tree.locked = [])
      ∧ (writing = true → ∀ target, s.result = some target →
          ∃ parent d, s.parentpp = some parent ∧ target = parent ++ [d]
            ∧ s.tree.locked = [(parent, rwlock.written), (target, rwlock.written)]
            ∧ (s.tree.deref target).map Tree.name = some name)
      ∧ (writing = true → s.result = none →
          ∃ parent, s.parentpp = some parent ∧ s.tree.locked = [(parent, rwlock.written)]) := by
  have key : ∃ s, search name
        (Tree.node pname pvalue l r (if writing then rwlock.written else rwlock.read1))
        (if writing then rwlock.written else rwlock.read1) writing = some s
      ∧ SearchPost writing name s := by
    rw [node_eq_mkNode name pname pvalue l r]
    by_cases hlt : strcmp name pname < 0
    · simp only [hlt, if_true]
      exact search_post name writing l hl pname pvalue _ r _ hr rfl
    · simp only [hlt, if_false]
      exact search_post name writing r hr pname pvalue _ l _ hl rfl
  obtain ⟨s, hs, hp⟩ := key
  refine ⟨s, hs, ?_, ?_, ?_, ?_⟩
  · intro hw target ht
    subst hw
    simp only [SearchPost, ht] at hp
    exact ⟨hp.2.1, hp.2.2⟩
  · intro hw ht
    subst hw
    simp only [SearchPost, ht] at hp
    exact hp.2
  · intro hw target ht
    subst hw
    simp only [SearchPost, ht] at hp
    exact hp
  · intro hw ht
    subst hw
    simp only [SearchPost, ht] at hp
    exact hp

/-! ## The claims on the stores of the spec scenarios -/

/-- The store after `add("m", "1")` on the initial store is reachable. -/
theorem reachable_m : Reachable (Tree.node [] [] Tree.null (leaf "m" "1") rwlock.init) :=
  Reachable.add Heap.ok (cstr "m") (cstr "1") head _ 1 Reachable.init (by decide) (by decide)

/-- C1 on the store holding `m`: `add("apple", "red")` then `query("apple")`. -/
theorem add_then_query_yields_value_witness :
    Reachable (Tree.node [] [] Tree.null (leaf "m" "1") rwlock.init)
      ∧ cstr "apple" ∉ (Tree.node [] [] Tree.null (leaf "m" "1") rwlock.init).names
      ∧ 0 ∉ cstr "red"
      ∧ ((cstr "red").length : Int) + 1 ≤ 16 ∧ (16 : Int) ≤ buffer16.length
      ∧ (16 : Int) < 2 ^ 31
      ∧ ∃ t1 buf t2,
          add Heap.ok (cstr "apple") (cstr "red")
              (Tree.node [] [] Tree.null (leaf "m" "1") rwlock.init) = some (1, t1)
            ∧ query (cstr "apple") buffer16 16 t1 = some (buf, t2)
            ∧ buf.take (cstr "red").length = cstr "red"
            ∧ (((cstr "red").length : Int) + 1 < 16 → c_string buf = cstr "red") :=
  ⟨reachable_m, by decide, by decide, by decide, by decide, by decide,
    add_then_query_yields_value _ reachable_m (cstr "apple") (cstr "red") (by decide)
      (by decide) buffer16 16 (by decide) (by decide) (by decide)⟩

/-- C2 on the store of scenario 4: `remove("m")` then `query("m")`. -/
theorem xremove_then_query_not_found_witness :
    isSentinel store_mftahpz = true ∧ Ordered store_mftahpz ∧ Quiescent store_mftahpz
      ∧ cstr "m" ∈ store_mftahpz.names
      ∧ (10 : Int) ≤ 16 ∧ (16 : Int) ≤ buffer16.length ∧ (16 : Int) < 2 ^ 31
      ∧ ∃ t1 buf t2, xremove (cstr "m") store_mftahpz = some (1, t1)
          ∧ cstr "m" ∉ t1.keys
          ∧ query (cstr "m") buffer16 16 t1 = some (buf, t2) ∧ buf.take 9 = not_found
          ∧ ((10 : Int) < 16 → c_string buf = not_found) :=
  ⟨by decide, by decide, by decide, by decide, by decide, by decide, by decide,
    xremove_then_query_not_found store_mftahpz (by decide) (by decide) (by decide) (cstr "m")
      (by decide) buffer16 16 (by decide) (by decide) (by decide)⟩

/-- C3 on the store of scenario 4, for the name `m` (a node with two children). -/
theorem ordering_invariant_kept_witness :
    isSentinel store_mftahpz = true ∧ Ordered store_mftahpz ∧ Quiescent store_mftahpz
      ∧ cstr "m" ≠ []
      ∧ (∀ (m : Heap) (v : Str), ∃ rc t1, add m (cstr "m") v store_mftahpz = some (rc, t1)
          ∧ Ordered t1 ∧ t1.keys.Pairwise (fun a b => strcmp a b < 0) ∧ t1.keys.Nodup)
      ∧ (∃ rc t1, xremove (cstr "m") store_mftahpz = some (rc, t1) ∧ Ordered t1
          ∧ t1.keys.Pairwise (fun a b => strcmp a b < 0) ∧ t1.keys.Nodup) :=
  ⟨by decide, by decide, by decide, by decide,
    ordering_invariant_kept store_mftahpz (by decide) (by decide) (by decide) (cstr "m")
      (by decide)⟩

/-- C4 on the store of scenario 4: `add("p", "9")` where `p` holds `6`. -/
theorem duplicate_add_is_noop_witness :
    isSentinel store_mftahpz = true ∧ Ordered store_mftahpz ∧ Quiescent store_mftahpz
      ∧ (cstr "p", cstr "6") ∈ store_mftahpz.entries ∧ 0 ∉ cstr "6"
      ∧ ((cstr "6").length : Int) + 1 ≤ 16 ∧ (16 : Int) ≤ buffer16.length
      ∧ (16 : Int) < 2 ^ 31
      ∧ add Heap.ok (cstr "p") (cstr "9") store_mftahpz = some (0, store_mftahpz)
      ∧ ∃ buf, query (cstr "p") buffer16 16 store_mftahpz = some (buf, store_mftahpz)
          ∧ buf.take (cstr "6").length = cstr "6"
          ∧ (((cstr "6").length : Int) + 1 < 16 → c_string buf = cstr "6") :=
  ⟨by decide, by decide, by decide, by decide, by decide, by decide, by decide, by decide,
    duplicate_add_is_noop store_mftahpz (by decide) (by decide) (by decide) (cstr "p") (cstr "6")
      (by decide) Heap.ok (cstr "9") (by decide) buffer16 16 (by decide) (by decide)
      (by decide)⟩

/-- C5 on the initial store: `remove("banana")` (scenario 3). -/
theorem xremove_absent_is_noop_witness :
    isSentinel head = true ∧ Ordered head ∧ Quiescent head ∧ cstr "banana" ∉ head.names
      ∧ xremove (cstr "banana") head = some (0, head) :=
  ⟨by decide, by decide, by decide, by decide,
    xremove_absent_is_noop head (by decide) (by decide) (by decide) (cstr "banana")
      (by decide)⟩

/-- C6 on the initial store: `query("banana")` (scenario 3). -/
theorem query_absent_not_found_witness :
    isSentinel head = true ∧ Ordered head ∧ Quiescent head ∧ cstr "banana" ∉ head.names
      ∧ (10 : Int) ≤ 16 ∧ (16 : Int) ≤ buffer16.length ∧ (16 : Int) < 2 ^ 31
      ∧ ∃ buf, query (cstr "banana") buffer16 16 head = some (buf, head)
          ∧ buf.take 9 = not_found ∧ ((10 : Int) < 16 → c_string buf = not_found) :=
  ⟨by decide, by decide, by decide, by decide, by decide, by decide, by decide,
    query_absent_not_found head (by decide) (by decide) (by decide) (cstr "banana")
      (by decide) buffer16 16 (by decide) (by decide) (by decide)⟩

/-- C7 on the store of scenario 5: `query("e")` around `add("d", _)` and `remove("d")`, where
`e` is the in-order successor whose name and value move into the node of `d`; after the
removal `query("e")` still leaves the value `6` of `e`. -/
theorem other_names_untouched_witness :
    isSentinel store_dbfaceg = true ∧ Ordered store_dbfaceg ∧ Quiescent store_dbfaceg
      ∧ cstr "e" ≠ cstr "d"
      ∧ ((∀ (m : Heap) (v : Str), ∃ rc t1, add m (cstr "d") v store_dbfaceg = some (rc, t1)
            ∧ (query (cstr "e") buffer16 16 t1).map Prod.fst
              = (query (cstr "e") buffer16 16 store_dbfaceg).map Prod.fst)
        ∧ (∃ rc t1, xremove (cstr "d") store_dbfaceg = some (rc, t1)
            ∧ (query (cstr "e") buffer16 16 t1).map Prod.fst
              = (query (cstr "e") buffer16 16 store_dbfaceg).map Prod.fst))
      ∧ ((xremove (cstr "d") store_dbfaceg).bind
            (fun x => query (cstr "e") buffer16 16 x.2)).map (fun y => c_string y.1)
          = some (cstr "6") :=
  ⟨by decide, by decide, by decide, by decide,
    other_names_untouched store_dbfaceg (by decide) (by decide) (by decide) (cstr "d")
      (cstr "e") (by decide) buffer16 16, by decide⟩

/-- C8 on scenario 4 of the spec: the seven calls of `add` give `store_mftahpz`,
`remove("m")` then gives the names `a, f, h, p, t, z` and `query("p")` leaves `6`. -/
theorem entries_after_xremove_witness :
    isSentinel store_mftahpz = true ∧ Ordered store_mftahpz ∧ Quiescent store_mftahpz
      ∧ cstr "m" ∈ store_mftahpz.names
      ∧ (∃ t1 v l1 l2, xremove (cstr "m") store_mftahpz = some (1, t1)
          ∧ store_mftahpz.entries = l1 ++ (cstr "m", v) :: l2
          ∧ t1.entries = l1 ++ l2 ∧ cstr "m" ∉ (l1 ++ l2).map Prod.fst)
      ∧ add_all [("m", "1"), ("f", "2"), ("t", "3"), ("a", "4"), ("h", "5"), ("p", "6"),
          ("z", "7")] head = some store_mftahpz
      ∧ xremove (cstr "m") store_mftahpz = some (1, store_fahptz)
      ∧ store_fahptz.names = [cstr "a", cstr "f", cstr "h", cstr "p", cstr "t", cstr "z"]
      ∧ (query (cstr "p") buffer16 16 store_fahptz).map (fun y => c_string y.1)
          = some (cstr "6") :=
  ⟨by decide, by decide, by decide, by decide,
    entries_after_xremove store_mftahpz (by decide) (by decide) (by decide) (cstr "m")
      (by decide), by decide, by decide, by decide, by decide⟩

/-- C9 on the store of scenario 4, for the name `m`. -/
theorem lock_hygiene_witness :
    store_mftahpz.isNull = false ∧ Quiescent store_mftahpz
      ∧ (1 : Int) ≤ 16 ∧ (16 : Int) ≤ buffer16.length ∧ (16 : Int) < 2 ^ 31
      ∧ (∃ buf t1, query (cstr "m") buffer16 16 store_mftahpz = some (buf, t1) ∧ Quiescent t1)
      ∧ (∃ rc t1, add Heap.ok (cstr "m") (cstr "8") store_mftahpz = some (rc, t1)
          ∧ Quiescent t1)
      ∧ (∃ rc t1, xremove (cstr "m") store_mftahpz = some (rc, t1) ∧ Quiescent t1) :=
  ⟨by decide, by decide, by decide, by decide, by decide,
    lock_hygiene store_mftahpz (by decide) (by decide) (cstr "m") (cstr "8") Heap.ok buffer16 16
      (by decide) (by decide) (by decide)⟩

/-- C10 on the store of scenario 4: `search` in write mode for `h` from the write-locked
sentinel; the four outcomes evaluated, for `h` (stored) and `q` (not stored). -/
theorem search_lock_postconditions_witness :
    Quiescent Tree.null ∧ Quiescent store_mftahpz.rchild
      ∧ (∃ s, search (cstr "h")
            (Tree.node [] [] Tree.null store_mftahpz.rchild
              (if true then rwlock.written else rwlock.read1))
            (if true then rwlock.written else rwlock.read1) true = some s
          ∧ (true = false → ∀ target, s.result = some target →
              s.tree.locked = [(target, rwlock.read1)]
                ∧ (s.tree.deref target).map Tree.name = some (cstr "h"))
          ∧ (true = false → s.result = none → s.tree.locked = [])
          ∧ (true = true → ∀ target, s.result = some target →
              ∃ parent d, s.parentpp = some parent ∧ target = parent ++ [d]
                ∧ s.tree.locked = [(parent, rwlock.written), (target, rwlock.written)]
                ∧ (s.tree.deref target).map Tree.name = some (cstr "h"))
          ∧ (true = true → s.result = none →
              ∃ parent, s.parentpp = some parent
                ∧ s.tree.locked = [(parent, rwlock.written)]))
      ∧ (search (cstr "h") store_mftahpz rwlock.written true).map
            (fun s => (s.result, s.parentpp, s.tree.locked))
          = some (some [Dir.R, Dir.L, Dir.R], some [Dir.R, Dir.L],
              [([Dir.R, Dir.L], rwlock.written), ([Dir.R, Dir.L, Dir.R], rwlock.written)])
      ∧ (search (cstr "q") store_mftahpz rwlock.written true).map
            (fun s => (s.result, s.parentpp, s.tree.locked))
          = some (none, some [Dir.R, Dir.R, Dir.L], [([Dir.R, Dir.R, Dir.L], rwlock.written)])
      ∧ (search (cstr "h") store_mftahpz rwlock.read1 false).map
            (fun s => (s.result, s.parentpp, s.tree.locked))
          = some (some [Dir.R, Dir.L, Dir.R], none, [([Dir.R, Dir.L, Dir.R], rwlock.read1)])
      ∧ (search (cstr "q") store_mftahpz rwlock.read1 false).map
            (fun s => (s.result, s.parentpp, s.tree.locked))
          = some (none, none, []) :=
  ⟨by decide, by decide,
    search_lock_postconditions (cstr "h") [] [] Tree.null store_mftahpz.rchild true
      (by decide) (by decide), by decide, by decide, by decide, by decide⟩

/-! ## Allocation failure in `add` -/

theorem ins_of_alloc_failure (m : Heap) (name value : Str) (t : Tree)
    (hfail : node_create m name value Tree.null Tree.null = Tree.null) :
    ins m name value t = t := by
  induction t with
  | null => simpa [ins] using hfail
  | node n v l r k ihl ihr =>
    unfold ins
    split
    · rfl
    · split
      · rw [ihl]
      · rw [ihr]

/-- C11 (allocation failure reported as failure), the code at the failing input: with the
first allocation of `node_create` failing, so that `node_create` returns `NULL`,
`add("apple", "red")` on the initial store, where `apple` is not stored, returns 1 and not 0;
the tree is left as it was. -/
theorem add_returns_one_on_allocation_failure :
    node_create ⟨false, true, true⟩ (cstr "apple") (cstr "red") Tree.null Tree.null = Tree.null
      ∧ cstr "apple" ∉ head.names
      ∧ add ⟨false, true, true⟩ (cstr "apple") (cstr "red") head = some (1, head) := by
  decide

/-- C12 (allocation failure is atomic): on any tree none of whose locks is held, when
`node_create` fails for `add(k, v)`, `add` returns and the tree afterwards is equal to the tree
before (names, values, child links and lock fields), so that no lock is held on return; the
would-be parent has been write-locked and released. -/
theorem allocation_failure_is_atomic (head : Tree) (hnn : head.isNull = false)
    (hq : Quiescent head) (k v : Str) (m : Heap)
    (hfail : node_create m k v Tree.null Tree.null = Tree.null) :
    ∃ rc t1, add m k v head = some (rc, t1) ∧ t1 = head ∧ Quiescent t1 := by
  cases head with
  | null => simp [Tree.isNull] at hnn
  | node n nv l r lk =>
    obtain ⟨hk, hql, hqr⟩ := hq
    subst hk
    by_cases hlt : strcmp k n < 0
    · have h := add_eq m k v n nv Dir.L l r (by simp [dirOf, hlt]) hql
      rw [ins_of_alloc_failure m k v l hfail] at h
      exact ⟨_, Tree.node n nv l r rwlock.init, h, rfl, ⟨rfl, hql, hqr⟩⟩
    · have h := add_eq m k v n nv Dir.R r l (by simp [dirOf, hlt]) hqr
      rw [ins_of_alloc_failure m k v r hfail] at h
      exact ⟨_, Tree.node n nv l r rwlock.init, h, rfl, ⟨rfl, hql, hqr⟩⟩

/-- C12 on the store of scenario 4: `add("q", "9")` with the value allocation failing. -/
theorem allocation_failure_is_atomic_witness :
    store_mftahpz.isNull = false ∧ Quiescent store_mftahpz
      ∧ node_create ⟨true, true, false⟩ (cstr "q") (cstr "9") Tree.null Tree.null = Tree.null
      ∧ ∃ rc t1, add ⟨true, true, false⟩ (cstr "q") (cstr "9") store_mftahpz = some (rc, t1)
          ∧ t1 = store_mftahpz ∧ Quiescent t1 :=
  ⟨by decide, by decide, by decide,
    allocation_failure_is_atomic store_mftahpz (by decide) (by decide) (cstr "q") (cstr "9")
      ⟨true, true, false⟩ (by decide)⟩

/-! ## The reader/writer lock of one node -/

theorem lockInv_step {lk lk1 : rwlock} {h h1 : Holders} (c : LockCall) (hi : LockInv lk h)
    (hh : h.after c = some h1) (hl : c.run lk = some lk1) : LockInv lk1 h1 := by
  obtain ⟨rq, nr, g, nm⟩ := lk
  obtain ⟨r, w⟩ := h
  obtain ⟨h1, h2, h3, h4, h5, h6⟩ := hi
  simp only at h1 h2 h3 h4 h5 h6
  subst h1 h2 h3
  cases c
  · -- read_lock
    simp only [Holders.after, Option.some.injEq] at hh
    subst hh
    by_cases hr : r = 0
    · subst hr
      cases nm
      · simp [LockCall.run, read_lock, pthread_mutex_lock, pthread_mutex_unlock] at hl
        subst hl
        have : w = 0 := by
          by_contra hw
          have : w = 1 := by omega
          simp [this] at h4
        simp [LockInv, this]
      · simp [LockCall.run, read_lock, pthread_mutex_lock, pthread_mutex_unlock] at hl
    · have hnm : nm = true := h4.mpr (Or.inl (by omega))
      subst hnm
      have hne : ¬ ((r : Int) + 1 = 1) := by omega
      simp [LockCall.run, read_lock, pthread_mutex_lock, pthread_mutex_unlock, hne] at hl
      subst hl
      have hw : w = 0 := by
        by_contra hw
        exact h5 ⟨by omega, by omega⟩
      simp [LockInv, hw]
  · -- read_unlock
    by_cases hr : 0 < r
    · simp only [Holders.after, hr, if_true, Option.some.injEq] at hh
      subst hh
      have hnm : nm = true := h4.mpr (Or.inl hr)
      subst hnm
      have hw : w = 0 := by
        by_contra hw
        exact h5 ⟨hr, by omega⟩
      subst hw
      by_cases h1 : r = 1
      · subst h1
        simp [LockCall.run, read_unlock, pthread_mutex_lock, pthread_mutex_unlock] at hl
        subst hl
        simp [LockInv]
      · have hne : ¬ ((r : Int) - 1 = 0) := by omega
        simp [LockCall.run, read_unlock, pthread_mutex_lock, pthread_mutex_unlock, hne] at hl
        subst hl
        have : 0 < r - 1 := by omega
        simp [LockInv, this]
        omega
    · simp [Holders.after, hr] at hh
  · -- write_lock
    simp only [Holders.after, Option.some.injEq] at hh
    subst hh
    cases nm
    · simp [LockCall.run, write_lock, pthread_mutex_lock, pthread_mutex_unlock] at hl
      subst hl
      have hr : r = 0 := by
        by_contra hr
        have := h4.mpr (Or.inl (by omega))
        simp at this
      have hw : w = 0 := by
        by_contra hw
        have : w = 1 := by omega
        simp [this] at h4
      simp [LockInv, hr, hw]
    · simp [LockCall.run, write_lock, pthread_mutex_lock, pthread_mutex_unlock] at hl
  · -- write_unlock
    by_cases hw : 0 < w
    · simp only [Holders.after, hw, if_true, Option.some.injEq] at hh
      subst hh
      have hw1 : w = 1 := by omega
      subst hw1
      have hr : r = 0 := by
        by_contra hr
        exact h5 ⟨by omega, by omega⟩
      subst hr
      have hnm : nm = true := h4.mpr (Or.inr rfl)
      subst hnm
      simp [LockCall.run, write_unlock, pthread_mutex_unlock] at hl
      subst hl
      simp [LockInv]
    · simp [Holders.after, hw] at hh

theorem lockInv_init : LockInv rwlock.init ⟨0, 0⟩ := by
  simp [LockInv, rwlock.init]

theorem run_calls_append (pre post : List LockCall) (lk : rwlock) (h : Holders)
    (lk2 : rwlock) (h2 : Holders) (hrun : run_calls (pre ++ post) lk h = some (lk2, h2)) :
    ∃ lk1 h1, run_calls pre lk h = some (lk1, h1) ∧ run_calls post lk1 h1 = some (lk2, h2) := by
  induction pre generalizing lk h with
  | nil => exact ⟨lk, h, rfl, hrun⟩
  | cons c cs ih =>
    simp only [List.cons_append, run_calls] at hrun ⊢
    cases ha : h.after c with
    | none => simp [ha] at hrun
    | some ha1 =>
      cases hl : c.run lk with
      | none => simp [ha, hl] at hrun
      | some lk1 =>
        simp only [ha, hl] at hrun ⊢
        exact ih lk1 ha1 hrun

theorem lockInv_run (cs : List LockCall) (lk lk1 : rwlock) (h h1 : Holders)
    (hi : LockInv lk h) (hrun : run_calls cs lk h = some (lk1, h1)) : LockInv lk1 h1 := by
  induction cs generalizing lk h with
  | nil =>
    simp only [run_calls, Option.some.injEq, Prod.mk.injEq] at hrun
    rw [← hrun.1, ← hrun.2]
    exact hi
  | cons c cs ih =>
    simp only [run_calls] at hrun
    cases ha : h.after c with
    | none => simp [ha] at hrun
    | some ha1 =>
      cases hl : c.run lk with
      | none => simp [ha, hl] at hrun
      | some lk2 =>
        simp only [ha, hl] at hrun
        exact ih lk2 ha1 (lockInv_step c hi ha hl) hrun

/-- C19 (reader/writer lock state): for every sequence of `read_lock`, `read_unlock`,
`write_lock` and `write_unlock` calls on a freshly initialised node in which every unlock
matches an outstanding lock of its kind and every call returns, after each call (after every
initial part `pre` of the sequence) the node mutex is held exactly when a reader or the one
writer holds the lock, never both and never two writers, `num_readers` is the number of
outstanding readers, and with nothing outstanding the lock fields are again as initialised. -/
theorem rwlock_state_invariant (pre post : List LockCall) (lk : rwlock) (h : Holders)
    (hrun : run_calls (pre ++ post) rwlock.init ⟨0, 0⟩ = some (lk, h)) :
    ∃ lk1 h1, run_calls pre rwlock.init ⟨0, 0⟩ = some (lk1, h1)
      ∧ (lk1.node_mutex = true ↔ (0 < h1.readers ∨ h1.writers = 1))
      ∧ ¬ (0 < h1.readers ∧ 0 < h1.writers) ∧ h1.writers ≤ 1
      ∧ lk1.num_readers = h1.readers
      ∧ (h1.readers = 0 ∧ h1.writers = 0 → lk1 = rwlock.init) := by
  obtain ⟨lk1, h1, hpre, _⟩ := run_calls_append pre post rwlock.init ⟨0, 0⟩ lk h hrun
  have hi := lockInv_run pre rwlock.init lk1 ⟨0, 0⟩ h1 lockInv_init hpre
  obtain ⟨i1, i2, i3, i4, i5, i6⟩ := hi
  refine ⟨lk1, h1, hpre, i4, i5, i6, i3, ?_⟩
  rintro ⟨hr, hw⟩
  obtain ⟨rq, nr, g, nm⟩ := lk1
  simp only at i1 i2 i3 i4
  have hnm : nm = false := by
    cases nm
    · rfl
    · have := i4.mp rfl
      omega
  subst i1 i2 hnm
  simp [rwlock.init, i3, hr]

/-- C19 on two readers followed, after their release, by a writer: the state after the second
`read_lock`, and again free fields at the end. -/
theorem rwlock_state_invariant_witness :
    run_calls ([LockCall.read_lock, LockCall.read_lock]
        ++ [LockCall.read_unlock, LockCall.read_unlock, LockCall.write_lock,
          LockCall.write_unlock]) rwlock.init ⟨0, 0⟩ = some (rwlock.init, ⟨0, 0⟩)
      ∧ (∃ lk1 h1, run_calls [LockCall.read_lock, LockCall.read_lock] rwlock.init ⟨0, 0⟩
            = some (lk1, h1)
          ∧ (lk1.node_mutex = true ↔ (0 < h1.readers ∨ h1.writers = 1))
          ∧ ¬ (0 < h1.readers ∧ 0 < h1.writers) ∧ h1.writers ≤ 1
          ∧ lk1.num_readers = h1.readers
          ∧ (h1.readers = 0 ∧ h1.writers = 0 → lk1 = rwlock.init))
      ∧ run_calls [LockCall.read_lock, LockCall.read_lock] rwlock.init ⟨0, 0⟩
          = some (⟨false, 2, false, true⟩, ⟨2, 0⟩)
      ∧ run_calls [LockCall.write_lock, LockCall.read_lock] rwlock.init ⟨0, 0⟩ = none
      ∧ run_calls [LockCall.read_lock, LockCall.write_lock] rwlock.init ⟨0, 0⟩ = none :=
  ⟨by decide,
    rwlock_state_invariant [LockCall.read_lock, LockCall.read_lock]
      [LockCall.read_unlock, LockCall.read_unlock, LockCall.write_lock, LockCall.write_unlock]
      rwlock.init ⟨0, 0⟩ (by decide),
    by decide, by decide, by decide⟩

/-! ## The sentinel under arbitrary names -/

theorem search_result_ne_nil (name : Str) (t : Tree) (plk : rwlock) (w : Bool) (s : SearchRes)
    (h : search name t plk w = some s) : s.result ≠ some [] := by
  cases t with
  | null => simp [search] at h
  | node pn pv l r k =>
    rw [node_eq_mkNode name pn pv l r k, search_mkNode name pn pv _ _ _ k plk w rfl] at h
    split at h
    · split at h
      · simp only [Option.some.injEq] at h
        rw [← h]
        simp
      · simp only [Option.bind_eq_some] at h
        obtain ⟨_, _, h⟩ := h
        simp only [Option.some.injEq] at h
        rw [← h]
        simp
    · simp only [Option.bind_eq_some] at h
      obtain ⟨_, _, _, _, h⟩ := h
      split at h
      · simp only [Option.some.injEq] at h
        rw [← h]
        simp
      · simp only [Option.bind_eq_some] at h
        obtain ⟨_, _, s1, _, h⟩ := h
        simp only [Option.some.injEq] at h
        rw [← h]
        cases hr : s1.result <;> simp [SearchRes.lift, hr]

theorem reachableAny_inv {t : Tree} (h : ReachableAny t) :
    ∃ r, t = Tree.node [] [] Tree.null r rwlock.init ∧ Quiescent r := by
  induction h with
  | init => exact ⟨Tree.null, rfl, trivial⟩
  | query name result buf len t t1 _ hq ih =>
    obtain ⟨r, rfl, hqr⟩ := ih
    rw [query_sentinel name result len [] Tree.null r hqr] at hq
    simp only [Option.map_eq_some'] at hq
    obtain ⟨b, _, hb⟩ := hq
    simp only [Prod.mk.injEq] at hb
    exact ⟨r, hb.2.symm, hqr⟩
  | add m name value t t1 rc _ hadd ih =>
    obtain ⟨r, rfl, hqr⟩ := ih
    rw [add_sentinel m name value [] Tree.null r hqr] at hadd
    simp only [Option.some.injEq, Prod.mk.injEq] at hadd
    exact ⟨_, hadd.2.symm, quiescent_ins m name value r hqr⟩
  | xremove name t t1 rc _ hrem ih =>
    obtain ⟨r, rfl, hqr⟩ := ih
    rw [xremove_sentinel name [] Tree.null r hqr] at hrem
    simp only [Option.some.injEq, Prod.mk.injEq] at hrem
    exact ⟨_, hrem.2.symm, quiescent_del name r hqr⟩

/-- C17 (sentinel invariant): in every store reached from the initial `head` by calls of
`query`, `add` and `xremove` with any names, the empty one included, the sentinel has name
`""` and value `""` and no left child and no lock is held; `search` from it never returns the
sentinel itself as the target; every `xremove` returns and leaves the sentinel in place, with
its name, its value and no left child. -/
theorem sentinel_invariant (t : Tree) (h : ReachableAny t) :
    isSentinel t = true ∧ t.lchild = Tree.null ∧ Quiescent t
      ∧ (∀ (name : Str) (plk : rwlock) (w : Bool) (s : SearchRes),
          search name t plk w = some s → s.result ≠ some [])
      ∧ (∀ name : Str, ∃ rc t1, xremove name t = some (rc, t1) ∧ isSentinel t1 = true
          ∧ t1.lchild = Tree.null) := by
  obtain ⟨r, rfl, hqr⟩ := reachableAny_inv h
  refine ⟨rfl, rfl, ⟨rfl, trivial, hqr⟩, ?_, ?_⟩
  · intro name plk w s hs
    exact search_result_ne_nil name _ plk w s hs
  · intro name
    exact ⟨_, _, xremove_sentinel name [] Tree.null r hqr, rfl, rfl⟩

/-- The store after `add("", "x")` and `add("b", "y")` on the initial store is reached. -/
theorem reachableAny_empty_name : ReachableAny store_empty_name_b :=
  ReachableAny.add Heap.ok (cstr "b") (cstr "y") store_empty_name _ 1
    (ReachableAny.add Heap.ok [] (cstr "x") head _ 1 ReachableAny.init (by decide)) (by decide)

/-- C17 on the store reached by `add("", "x")` and `add("b", "y")`, where the node named `""`
hangs under the right link of the sentinel; `remove("")` then unlinks that node, not the
sentinel. -/
theorem sentinel_invariant_witness :
    ReachableAny store_empty_name_b
      ∧ (isSentinel store_empty_name_b = true ∧ store_empty_name_b.lchild = Tree.null
        ∧ Quiescent store_empty_name_b
        ∧ (∀ (name : Str) (plk : rwlock) (w : Bool) (s : SearchRes),
            search name store_empty_name_b plk w = some s → s.result ≠ some [])
        ∧ (∀ name : Str, ∃ rc t1, xremove name store_empty_name_b = some (rc, t1)
            ∧ isSentinel t1 = true ∧ t1.lchild = Tree.null))
      ∧ xremove [] store_empty_name_b
          = some (1, Tree.node [] [] Tree.null (leaf "b" "y") rwlock.init) :=
  ⟨reachableAny_empty_name, sentinel_invariant store_empty_name_b reachableAny_empty_name,
    by decide⟩

/-! ## What `search` finds and where it stops -/

theorem insertPoint_lift (name n v : Str) (d : Dir) (o : Tree) (k : rwlock) (s : SearchRes)
    (h : InsertPoint name s) : InsertPoint name (s.lift n v d o k) := by
  obtain ⟨parent, pnode, h1, h2, h3, h4⟩ := h
  refine ⟨d :: parent, pnode, by simp [SearchRes.lift, h1], by simp [SearchRes.lift, h2], h3, ?_⟩
  intro hr
  apply h4
  cases hs : s.result with
  | none => rfl
  | some p => simp [SearchRes.lift, hs] at hr

theorem deref_nil (t : Tree) : t.deref [] = some t := by
  cases t <;> rfl

theorem isNull_mkNode (n v : Str) (d : Dir) (t o : Tree) (k : rwlock) :
    (mkNode n v d t o k).isNull = false := by
  cases d <;> rfl

theorem name_mkNode (n v : Str) (d : Dir) (t o : Tree) (k : rwlock) :
    (mkNode n v d t o k).name = n := by
  cases d <;> rfl

theorem slot_mkNode (name n v : Str) (t o : Tree) (k : rwlock) :
    (if strcmp name n < 0 then (mkNode n v (dirOf name n) t o k).lchild
      else (mkNode n v (dirOf name n) t o k).rchild) = t := by
  by_cases h : strcmp name n < 0 <;> simp [dirOf, h, mkNode, Tree.lchild, Tree.rchild]

theorem search_finds (name : Str) (w : Bool) :
    ∀ (t : Tree), Quiescent t → ∀ (n v : Str) (d : Dir) (o : Tree) (k : rwlock),
      d = dirOf name n →
      ∃ s, search name (mkNode n v d t o k) (if w then rwlock.written else rwlock.read1) w
          = some s ∧ s.result.isSome = (find name t).isSome
        ∧ (w = true → InsertPoint name s) := by
  intro t
  induction t with
  | null =>
    intro _ n v d o k hd
    cases w
    · exact ⟨_, search_read_null name n v d o k hd, by simp [find], by simp⟩
    · refine ⟨_, search_write_null name n v d o k rwlock.written hd, by simp [find], ?_⟩
      intro _
      subst hd
      exact ⟨[], mkNode n v (dirOf name n) Tree.null o rwlock.written, rfl, deref_nil _,
        isNull_mkNode _ _ _ _ _ _, fun _ => by
          rw [name_mkNode]
          exact slot_mkNode name n v Tree.null o rwlock.written⟩
  | node nn nv nl nr nk ihl ihr =>
    intro hq n v d o k hd
    obtain ⟨hk, hql, hqr⟩ := hq
    subst hk
    by_cases h0 : strcmp name nn = 0
    · cases w
      · exact ⟨_, search_read_found name n v d o k nn nv nl nr hd h0, by simp [find, h0],
          by simp⟩
      · refine ⟨_, search_write_found name n v d o k nn nv nl nr hd h0, by simp [find, h0], ?_⟩
        intro _
        exact ⟨[], mkNode n v d (Tree.node nn nv nl nr rwlock.written) o rwlock.written, rfl,
          deref_nil _, isNull_mkNode _ _ _ _ _ _, fun h => by simp at h⟩
    · have key : ∃ s, search name (Tree.node nn nv nl nr rwlock.init)
            (if w then rwlock.written else rwlock.read1) w = some s
          ∧ s.result.isSome = (find name (Tree.node nn nv nl nr rwlock.init)).isSome
          ∧ (w = true → InsertPoint name s) := by
        by_cases hlt : strcmp name nn < 0
        · have := ihl hql nn nv Dir.L nr rwlock.init (by simp [dirOf, hlt])
          simpa [mkNode, find, h0, hlt] using this
        · have := ihr hqr nn nv Dir.R nl rwlock.init (by simp [dirOf, hlt])
          simpa [mkNode, find, h0, hlt] using this
      obtain ⟨s, hs, hf, hp⟩ := key
      refine ⟨s.lift n v d o rwlock.init, ?_, ?_,
        fun hw => insertPoint_lift name n v d o rwlock.init s (hp hw)⟩
      · cases w
        · simp only [Bool.false_eq_true, if_false] at hs ⊢
          rw [search_read_rec name n v d o k nn nv nl nr hd h0, hs]
          rfl
        · simp only [if_true] at hs ⊢
          rw [search_write_rec name n v d o k nn nv nl nr hd h0, hs]
          rfl
      · rw [← hf]
        rcases hr : s.result with _ | p <;> simp [SearchRes.lift, hr]

theorem find_isSome_iff_mem {name : Str} {t : Tree} (ho : Ordered t) :
    (find name t).isSome = true ↔ name ∈ t.keys := by
  constructor
  · intro h
    obtain ⟨v, hv⟩ := Option.isSome_iff_exists.mp h
    exact mem_keys_of_mem_inorder (find_mem hv)
  · intro h
    obtain ⟨v, hv, _⟩ := find_isSome_of_mem ho h
    simp [hv]

/-- C18 (search result and insertion point): from a parent in BST order whose two subtrees hold
no lock, `search` returns; it returns a target exactly when a node named `name` exists below
the parent, and a target it returns has that name; in write mode it stores in `*parentpp` a
pointer to a node of the tree, never `NULL`, and when there is no target the child slot of that
node on the side `name` compares to its name is empty.  This holds whatever the name of the
parent is. -/
theorem search_result_and_insertion_point (name pname pvalue : Str) (l r : Tree)
    (writing : Bool) (ho : Ordered (Tree.node pname pvalue l r rwlock.init))
    (hl : Quiescent l) (hr : Quiescent r) :
    ∃ s, search name
          (Tree.node pname pvalue l r (if writing then rwlock.written else rwlock.read1))
          (if writing then rwlock.written else rwlock.read1) writing = some s
      ∧ (s.result.isSome = true ↔ (name ∈ l.keys ∨ name ∈ r.keys))
      ∧ (∀ target, s.result = some target →
          (s.tree.deref target).map Tree.name = some name)
      ∧ (writing = true → ∃ parent pnode, s.parentpp = some parent
          ∧ s.tree.deref parent = some pnode ∧ pnode.isNull = false
          ∧ (s.result = none →
              (if strcmp name pnode.name < 0 then pnode.lchild else pnode.rchild)
                = Tree.null)) := by
  obtain ⟨hkl, hkr, hol, hor⟩ := ho
  have key : ∃ s, search name
        (Tree.node pname pvalue l r (if writing then rwlock.written else rwlock.read1))
        (if writing then rwlock.written else rwlock.read1) writing = some s
      ∧ (s.result.isSome = true ↔ (name ∈ l.keys ∨ name ∈ r.keys))
      ∧ SearchPost writing name s ∧ (writing = true → InsertPoint name s) := by
    rw [node_eq_mkNode name pname pvalue l r]
    by_cases hlt : strcmp name pname < 0
    · simp only [hlt, if_true]
      obtain ⟨s, hs, hf, hp⟩ := search_finds name writing l hl pname pvalue _ r
        (if writing then rwlock.written else rwlock.read1) rfl
      obtain ⟨s2, hs2, hpost⟩ := search_post name writing l hl pname pvalue _ r
        (if writing then rwlock.written else rwlock.read1) hr rfl
      rw [hs] at hs2
      cases Option.some.inj hs2
      refine ⟨s, hs, ?_, hpost, hp⟩
      rw [hf, find_isSome_iff_mem hol]
      constructor
      · exact Or.inl
      · rintro (h | h)
        · exact h
        · have := hkr name h
          omega
    · simp only [hlt, if_false]
      obtain ⟨s, hs, hf, hp⟩ := search_finds name writing r hr pname pvalue _ l
        (if writing then rwlock.written else rwlock.read1) rfl
      obtain ⟨s2, hs2, hpost⟩ := search_post name writing r hr pname pvalue _ l
        (if writing then rwlock.written else rwlock.read1) hl rfl
      rw [hs] at hs2
      cases Option.some.inj hs2
      refine ⟨s, hs, ?_, hpost, hp⟩
      rw [hf, find_isSome_iff_mem hor]
      constructor
      · exact Or.inr
      · rintro (h | h)
        · exact absurd (hkl name h) hlt
        · exact h
  obtain ⟨s, hs, hf, hpost, hp⟩ := key
  refine ⟨s, hs, hf, ?_, hp⟩
  intro target ht
  cases writing
  · simp only [SearchPost, ht] at hpost
    exact hpost.2.2
  · simp only [SearchPost, ht] at hpost
    obtain ⟨_, _, _, _, _, h⟩ := hpost
    exact h

/-- C18 on the store of scenario 4: `search` in write mode from the sentinel for `q`, which is
not stored, hands back the node `p`, whose right slot is empty. -/
theorem search_result_and_insertion_point_witness :
    Ordered (Tree.node [] [] Tree.null store_mftahpz.rchild rwlock.init)
      ∧ Quiescent Tree.null ∧ Quiescent store_mftahpz.rchild
      ∧ (∃ s, search (cstr "q")
            (Tree.node [] [] Tree.null store_mftahpz.rchild
              (if true then rwlock.written else rwlock.read1))
            (if true then rwlock.written else rwlock.read1) true = some s
          ∧ (s.result.isSome = true
              ↔ (cstr "q" ∈ Tree.null.keys ∨ cstr "q" ∈ store_mftahpz.rchild.keys))
          ∧ (∀ target, s.result = some target →
              (s.tree.deref target).map Tree.name = some (cstr "q"))
          ∧ (true = true → ∃ parent pnode, s.parentpp = some parent
              ∧ s.tree.deref parent = some pnode ∧ pnode.isNull = false
              ∧ (s.result = none →
                  (if strcmp (cstr "q") pnode.name < 0 then pnode.lchild else pnode.rchild)
                    = Tree.null)))
      ∧ (search (cstr "q") store_mftahpz rwlock.written true).map
            (fun s => (s.result, s.parentpp,
              (s.parentpp.bind s.tree.deref).map (fun p => (p.name, p.rchild))))
          = some (none, some [Dir.R, Dir.R, Dir.L], some (cstr "p", Tree.null)) :=
  ⟨by decide, by decide, by decide,
    search_result_and_insertion_point (cstr "q") [] [] Tree.null store_mftahpz.rchild true
      (by decide) (by decide) (by decide), by decide⟩

/-! ## The two-children deletion as a splice -/

theorem mem_keys_of_deref {t : Tree} {p : Ptr} {k v : Str} {l r : Tree} {lk : rwlock}
    (h : t.deref p = some (Tree.node k v l r lk)) : k ∈ t.keys := by
  induction p generalizing t with
  | nil =>
    rw [deref_nil] at h
    cases Option.some.inj h
    simp [keys_node]
  | cons d p ih =>
    cases t with
    | null => simp [Tree.deref] at h
    | node n nv tl tr tk =>
      rw [keys_node]
      cases d with
      | L => exact List.mem_append_left _ (ih (by simpa [Tree.deref] using h))
      | R =>
        exact List.mem_append_right _ (List.mem_cons_of_mem _ (ih (by simpa [Tree.deref] using h)))

theorem del_at {t : Tree} {p : Ptr} {k v : Str} {l r : Tree} {lk : rwlock} (ho : Ordered t)
    (h : t.deref p = some (Tree.node k v l r lk)) :
    t.store p (del k (Tree.node k v l r lk)) = some (del k t) := by
  induction p generalizing t with
  | nil =>
    rw [deref_nil] at h
    cases Option.some.inj h
    cases hd : del k (Tree.node k v l r lk) <;> rfl
  | cons d p ih =>
    cases t with
    | null => simp [Tree.deref] at h
    | node n nv tl tr tk =>
      obtain ⟨hl, hr, hol, hor⟩ := ho
      cases d with
      | L =>
        have h1 : tl.deref p = some (Tree.node k v l r lk) := by simpa [Tree.deref] using h
        have hlt := hl k (mem_keys_of_deref h1)
        have hne : ¬ strcmp k n = 0 := by omega
        rw [Tree.store, ih hol h1]
        simp [del, hne, hlt]
      | R =>
        have h1 : tr.deref p = some (Tree.node k v l r lk) := by simpa [Tree.deref] using h
        have hgt := hr k (mem_keys_of_deref h1)
        have hne : ¬ strcmp k n = 0 := by omega
        have hnl : ¬ strcmp k n < 0 := by omega
        rw [Tree.store, ih hor h1]
        simp [del, hne, hnl]

theorem minNode_spec (n v : Str) (l r : Tree) (k : rwlock) :
    ∃ i, (Tree.node n v l r k).deref (List.replicate i Dir.L)
          = some (minNode (Tree.node n v l r k))
      ∧ (minNode (Tree.node n v l r k)).isNull = false
      ∧ (minNode (Tree.node n v l r k)).lchild = Tree.null
      ∧ (Tree.node n v l r k).store (List.replicate i Dir.L)
          (minNode (Tree.node n v l r k)).rchild = some (dropMin (Tree.node n v l r k)) := by
  induction l generalizing n v r k with
  | null => exact ⟨0, by simp [minNode, dropMin, Tree.deref, Tree.store, Tree.isNull,
      Tree.lchild, Tree.rchild]⟩
  | node ln lv ll lr lk ihl _ =>
    obtain ⟨i, h1, h2, h3, h4⟩ := ihl ln lv lr lk
    refine ⟨i + 1, ?_, ?_, ?_, ?_⟩
    · rw [minNode_node_node, List.replicate_succ]
      simpa [Tree.deref] using h1
    · rw [minNode_node_node]
      exact h2
    · rw [minNode_node_node]
      exact h3
    · rw [minNode_node_node, dropMin_node_node, List.replicate_succ]
      simp only [Tree.store]
      rw [h4]
      rfl

theorem minNode_least (n v : Str) (l r : Tree) (k : rwlock)
    (ho : Ordered (Tree.node n v l r k)) :
    ∀ key ∈ (Tree.node n v l r k).keys,
      (minNode (Tree.node n v l r k)).name = key
        ∨ strcmp (minNode (Tree.node n v l r k)).name key < 0 := by
  intro key hkey
  have hp := (ordered_iff_pairwise _).mp ho
  have hin := inorder_minNode n v l r k
  have hk : (Tree.node n v l r k).keys
      = (minNode (Tree.node n v l r k)).name :: (dropMin (Tree.node n v l r k)).keys := by
    simp only [Tree.keys]
    rw [hin]
    rfl
  rw [hk] at hp hkey
  rcases List.mem_cons.mp hkey with h | h
  · exact Or.inl h.symm
  · exact Or.inr ((List.pairwise_cons.mp hp).1 key h)

/-- C16 (two-children deletion is the successor splice): on a store in BST order with no lock
held, when the node `T` named `k` has both children, `xremove(k)` returns 1 and the tree
afterwards is the tree before with only what hangs at `T` replaced: there is now a node with
the left subtree of `T`, the lock fields of `T`, and the name and value of `S`, the leftmost
node of the right subtree of `T`, which carries the least name of that subtree; its right
subtree is that of `T` with the link to `S` now leading to the right child of `S`. -/
theorem two_children_splice (head : Tree) (hs : isSentinel head = true) (ho : Ordered head)
    (hq : Quiescent head) (k v : Str) (T : Ptr) (l r : Tree) (lk : rwlock)
    (hT : head.deref T = some (Tree.node k v l r lk)) (hl : l.isNull = false)
    (hr : r.isNull = false) :
    ∃ i S r1 t1, r.deref (List.replicate i Dir.L) = some S ∧ S.isNull = false
      ∧ S.lchild = Tree.null
      ∧ (∀ key ∈ r.keys, S.name = key ∨ strcmp S.name key < 0)
      ∧ r.store (List.replicate i Dir.L) S.rchild = some r1
      ∧ xremove k head = some (1, t1)
      ∧ head.store T (Tree.node S.name S.value l r1 lk) = some t1 := by
  obtain ⟨rt, rfl, hor, hqr, hkr⟩ := sentinel_shape hs ho hq
  cases T with
  | nil =>
    rw [deref_nil] at hT
    cases Option.some.inj hT
    simp [Tree.isNull] at hl
  | cons d T1 =>
    cases d with
    | L => cases T1 <;> simp [Tree.deref] at hT
    | R =>
      have h1 : rt.deref T1 = some (Tree.node k v l r lk) := by simpa [Tree.deref] using hT
      have hmem := mem_keys_of_deref h1
      obtain ⟨v1, hv1, _⟩ := find_isSome_of_mem hor hmem
      have hdel := del_at hor h1
      cases r with
      | null => simp [Tree.isNull] at hr
      | node rn rv rl rr rk =>
        cases l with
        | null => simp [Tree.isNull] at hl
        | node ln lv ll lr llk =>
          obtain ⟨i, m1, m2, m3, m4⟩ := minNode_spec rn rv rl rr rk
          have hord : Ordered (Tree.node rn rv rl rr rk) := by
            have hsub : ∀ (t : Tree) (p : Ptr) (x : Tree), Ordered t → t.deref p = some x →
                Ordered x := by
              intro t p
              induction p generalizing t with
              | nil =>
                intro x hot hx
                rw [deref_nil] at hx
                cases Option.some.inj hx
                exact hot
              | cons e p ihp =>
                intro x hot hx
                cases t with
                | null => simp [Tree.deref] at hx
                | node a b tl tr tk =>
                  cases e with
                  | L => exact ihp tl x hot.2.2.1 (by simpa [Tree.deref] using hx)
                  | R => exact ihp tr x hot.2.2.2 (by simpa [Tree.deref] using hx)
            exact (hsub rt T1 _ hor h1).2.2.2
          refine ⟨i, minNode (Tree.node rn rv rl rr rk), dropMin (Tree.node rn rv rl rr rk),
            Tree.node [] [] Tree.null (del k rt) rwlock.init, m1, m2, m3,
            minNode_least rn rv rl rr rk hord, m4, ?_, ?_⟩
          · rw [xremove_sentinel k [] Tree.null rt hqr, hv1]
            rfl
          · have hd : del k (Tree.node k v (Tree.node ln lv ll lr llk)
                (Tree.node rn rv rl rr rk) lk)
                = Tree.node (minNode (Tree.node rn rv rl rr rk)).name
                    (minNode (Tree.node rn rv rl rr rk)).value (Tree.node ln lv ll lr llk)
                    (dropMin (Tree.node rn rv rl rr rk)) lk := by
              simp [del, strcmp_self, Tree.isNull]
            rw [hd] at hdel
            simp [Tree.store, hdel]

/-- C16 on the store of scenario 4: `remove("m")`, where the node `m` at the right link of the
sentinel has the children `f` and `t`, and `p` is the leftmost node under `t`. -/
theorem two_children_splice_witness :
    isSentinel store_mftahpz = true ∧ Ordered store_mftahpz ∧ Quiescent store_mftahpz
      ∧ store_mftahpz.deref [Dir.R]
          = some (Tree.node (cstr "m") (cstr "1")
              (inner "f" "2" (leaf "a" "4") (leaf "h" "5"))
              (inner "t" "3" (leaf "p" "6") (leaf "z" "7")) rwlock.init)
      ∧ (inner "f" "2" (leaf "a" "4") (leaf "h" "5")).isNull = false
      ∧ (inner "t" "3" (leaf "p" "6") (leaf "z" "7")).isNull = false
      ∧ (∃ i S r1 t1,
          (inner "t" "3" (leaf "p" "6") (leaf "z" "7")).deref (List.replicate i Dir.L) = some S
          ∧ S.isNull = false ∧ S.lchild = Tree.null
          ∧ (∀ key ∈ (inner "t" "3" (leaf "p" "6") (leaf "z" "7")).keys,
              S.name = key ∨ strcmp S.name key < 0)
          ∧ (inner "t" "3" (leaf "p" "6") (leaf "z" "7")).store (List.replicate i Dir.L)
              S.rchild = some r1
          ∧ xremove (cstr "m") store_mftahpz = some (1, t1)
          ∧ store_mftahpz.store [Dir.R]
              (Tree.node S.name S.value (inner "f" "2" (leaf "a" "4") (leaf "h" "5")) r1
                rwlock.init) = some t1)
      ∧ xremove (cstr "m") store_mftahpz = some (1, store_fahptz) :=
  ⟨by decide, by decide, by decide, by decide, by decide, by decide,
    two_children_splice store_mftahpz (by decide) (by decide) (by decide) (cstr "m") (cstr "1")
      [Dir.R] _ _ rwlock.init (by decide) (by decide) (by decide), by decide⟩

/-! ## The outcome tokens of `interpret_command` -/

theorem isWord_spec {w : Str} (h : isWord w = true) :
    w ≠ [] ∧ w.length ≤ 255 ∧ ∀ c ∈ w, isspace c = false := by
  simp only [isWord, Bool.and_eq_true, Bool.not_eq_true', decide_eq_true_eq, List.all_eq_true]
    at h
  obtain ⟨⟨h1, h2⟩, h3⟩ := h
  refine ⟨?_, h2, h3⟩
  intro he
  rw [he] at h1
  simp at h1

theorem takeWhile_word (w rest : Str) (hw : ∀ c ∈ w, isspace c = false)
    (hrest : rest = [] ∨ ∃ c tl, rest = c :: tl ∧ isspace c = true) :
    (w ++ rest).takeWhile (fun c => !isspace c) = w := by
  induction w with
  | nil =>
    rcases hrest with h | ⟨c, tl, h, hc⟩
    · simp [h]
    · simp [h, List.takeWhile_cons, hc]
  | cons a as ih =>
    have ha : isspace a = false := hw a (by simp)
    have has : ∀ c ∈ as, isspace c = false := fun c hc => hw c (by simp [hc])
    simp [List.takeWhile_cons, ha, ih has]

theorem scan_word_spec (w rest : Str) (h : isWord w = true)
    (hrest : rest = [] ∨ ∃ c tl, rest = c :: tl ∧ isspace c = true) :
    scan_word (32 :: w ++ rest) = some (w, rest) := by
  obtain ⟨h1, h2, h3⟩ := isWord_spec h
  cases w with
  | nil => exact absurd rfl h1
  | cons a as =>
    have ha : isspace a = false := h3 a (by simp)
    have hd : (32 :: (a :: as) ++ rest).dropWhile isspace = (a :: as) ++ rest := by
      have h32 : isspace 32 = true := by decide
      rw [List.cons_append, List.dropWhile_cons, h32]
      simp only [if_true]
      rw [List.cons_append, List.dropWhile_cons, ha]
      simp
    unfold scan_word
    simp only [hd, takeWhile_word (a :: as) rest h3 hrest]
    rw [List.take_of_length_le h2]
    simp

theorem c_string_token (response : List Nat) (tok : Str) (len : Int) (htok : 0 ∉ tok)
    (hlen : (tok.length : Int) + 1 < len) (hbuf : len ≤ response.length)
    (hint : len < 2 ^ 31) (t : Tree) :
    ∃ buf, (strncpy response tok (size_t_of_int (len - 1))).map (fun b => (b, t))
        = some (buf, t) ∧ c_string buf = tok := by
  obtain ⟨buf, h1, _, h3⟩ := strncpy_spec response tok len htok (by omega) hbuf hint
  exact ⟨buf, by rw [h1]; rfl, h3 hlen⟩

/-- C20 (outcome tokens), as the code has them: on a store in BST order with no lock held, for
words `name` and `value` and a response buffer of more than twenty bytes, the command
`a name value`, its allocations succeeding, leaves `"added"` in the buffer when `name` was not
stored and `"already in database"` when it was; the command `d name` leaves `"removed"` when
`name` was stored and `"not in database"` when it was not. -/
theorem outcome_tokens (head : Tree) (hs : isSentinel head = true) (ho : Ordered head)
    (hq : Quiescent head) (name value : Str) (hname : isWord name = true)
    (hvalue : isWord value = true) (response : List Nat) (len : Int) (hlen : 20 < len)
    (hbuf : len ≤ response.length) (hint : len < 2 ^ 31) :
    (∃ buf t1, interpret_command Heap.ok (97 :: 32 :: name ++ 32 :: value) response len head
          = some (buf, t1)
        ∧ c_string buf
          = if name ∈ head.names then cstr "already in database" else cstr "added")
    ∧ (∃ buf t1, interpret_command Heap.ok (100 :: 32 :: name) response len head
          = some (buf, t1)
        ∧ c_string buf
          = if name ∈ head.names then cstr "removed" else cstr "not in database") := by
  obtain ⟨r, rfl, hor, hqr, hkr⟩ := sentinel_shape hs ho hq
  obtain ⟨hn1, hn2, hn3⟩ := isWord_spec hname
  obtain ⟨hv1, hv2, hv3⟩ := isWord_spec hvalue
  rw [names_sentinel]
  have hsome : (find name r).isSome = true ↔ name ∈ r.keys := by
    constructor
    · intro h
      obtain ⟨v, hv⟩ := Option.isSome_iff_exists.mp h
      exact mem_keys_of_mem_inorder (find_mem hv)
    · intro h
      obtain ⟨v, hv, _⟩ := find_isSome_of_mem hor h
      simp [hv]
  have hw1 : scan_word (32 :: name ++ 32 :: value) = some (name, 32 :: value) :=
    scan_word_spec name (32 :: value) hname (Or.inr ⟨32, value, rfl, by decide⟩)
  have hw2 : scan_word (32 :: value) = some (value, []) := by
    have := scan_word_spec value [] hvalue (Or.inl rfl)
    simpa using this
  have hw3 : scan_word (32 :: name) = some (name, []) := by
    have := scan_word_spec name [] hname (Or.inl rfl)
    simpa using this
  have hnl : ¬ name.length = 0 := fun h => hn1 (List.length_eq_zero.mp h)
  have hvl : ¬ value.length = 0 := fun h => hv1 (List.length_eq_zero.mp h)
  constructor
  · have hcmd : interpret_command Heap.ok (97 :: 32 :: name ++ 32 :: value) response len
          (Tree.node [] [] Tree.null r rwlock.init)
        = interpret_add Heap.ok (32 :: name ++ 32 :: value) response len
            (Tree.node [] [] Tree.null r rwlock.init) := by
      simp [interpret_command]
    rw [hcmd]
    simp only [interpret_add, hw1, hw2, Option.some_bind, hnl, hvl, or_self, if_false,
      add_sentinel Heap.ok name value [] Tree.null r hqr]
    by_cases hin : name ∈ r.keys
    · simp only [hsome.mpr hin, if_true, ne_eq, not_true_eq_false, if_false, hin]
      obtain ⟨buf, hb, hc⟩ := c_string_token response (cstr "already in database") len
        (by decide) (by simpa using (by omega : (19 : Int) + 1 < len)) hbuf hint
        (Tree.node [] [] Tree.null (ins Heap.ok name value r) rwlock.init)
      exact ⟨buf, _, hb, hc⟩
    · have hno : (find name r).isSome = false := by
        cases hf : (find name r).isSome
        · rfl
        · exact absurd (hsome.mp hf) hin
      simp only [hno, Bool.false_eq_true, if_false, ne_eq, one_ne_zero, not_false_eq_true,
        if_true, hin]
      obtain ⟨buf, hb, hc⟩ := c_string_token response (cstr "added") len
        (by decide) (by simpa using (by omega : (5 : Int) + 1 < len)) hbuf hint
        (Tree.node [] [] Tree.null (ins Heap.ok name value r) rwlock.init)
      exact ⟨buf, _, hb, hc⟩
  · have hcmd : interpret_command Heap.ok (100 :: 32 :: name) response len
          (Tree.node [] [] Tree.null r rwlock.init)
        = interpret_delete (32 :: name) response len
            (Tree.node [] [] Tree.null r rwlock.init) := by
      simp [interpret_command]
    rw [hcmd]
    simp only [interpret_delete, hw3, Option.some_bind, hnl, if_false,
      xremove_sentinel name [] Tree.null r hqr]
    by_cases hin : name ∈ r.keys
    · simp only [hsome.mpr hin, if_true, ne_eq, one_ne_zero, not_false_eq_true, hin]
      obtain ⟨buf, hb, hc⟩ := c_string_token response (cstr "removed") len
        (by decide) (by simpa using (by omega : (7 : Int) + 1 < len)) hbuf hint
        (Tree.node [] [] Tree.null (del name r) rwlock.init)
      exact ⟨buf, _, hb, hc⟩
    · have hno : (find name r).isSome = false := by
        cases hf : (find name r).isSome
        · rfl
        · exact absurd (hsome.mp hf) hin
      simp only [hno, Bool.false_eq_true, if_false, ne_eq, not_true_eq_false, hin]
      obtain ⟨buf, hb, hc⟩ := c_string_token response (cstr "not in database") len
        (by decide) (by simpa using (by omega : (15 : Int) + 1 < len)) hbuf hint
        (Tree.node [] [] Tree.null (del name r) rwlock.init)
      exact ⟨buf, _, hb, hc⟩

/-- C20 as stated fails on the code: on the store holding `apple` (scenario 2), the command
`a apple green` leaves `"already in database"` in the buffer, not `"already present"`; on the
initial store (scenario 3), the command `d banana` leaves `"not in database"`, not
`"not present"`. -/
theorem outcome_tokens_counterexample :
    cstr "apple" ∈ store_apple.names
      ∧ (interpret_command Heap.ok (cstr "a apple green") buffer32 32 store_apple).map
            (fun x => c_string x.1) = some (cstr "already in database")
      ∧ (interpret_command Heap.ok (cstr "a apple green") buffer32 32 store_apple).map
            (fun x => c_string x.1) ≠ some (cstr "already present")
      ∧ cstr "banana" ∉ head.names
      ∧ (interpret_command Heap.ok (cstr "d banana") buffer32 32 head).map
            (fun x => c_string x.1) = some (cstr "not in database")
      ∧ (interpret_command Heap.ok (cstr "d banana") buffer32 32 head).map
            (fun x => c_string x.1) ≠ some (cstr "not present") := by
  decide

/-- C20 as amended on the store holding `apple`: `a apple green` and `d apple`. -/
theorem outcome_tokens_witness :
    isSentinel store_apple = true ∧ Ordered store_apple ∧ Quiescent store_apple
      ∧ isWord (cstr "apple") = true ∧ isWord (cstr "green") = true
      ∧ (20 : Int) < 32 ∧ (32 : Int) ≤ buffer32.length ∧ (32 : Int) < 2 ^ 31
      ∧ ((∃ buf t1, interpret_command Heap.ok (97 :: 32 :: cstr "apple" ++ 32 :: cstr "green")
              buffer32 32 store_apple = some (buf, t1)
            ∧ c_string buf
              = if cstr "apple" ∈ store_apple.names then cstr "already in database"
                else cstr "added")
        ∧ (∃ buf t1, interpret_command Heap.ok (100 :: 32 :: cstr "apple") buffer32 32
              store_apple = some (buf, t1)
            ∧ c_string buf
              = if cstr "apple" ∈ store_apple.names then cstr "removed"
                else cstr "not in database")) :=
  ⟨by decide, by decide, by decide, by decide, by decide, by decide, by decide, by decide,
    outcome_tokens store_apple (by decide) (by decide) (by decide) (cstr "apple") (cstr "green")
      (by decide) (by decide) buffer32 32 (by decide) (by decide) (by decide)⟩

/-! ## The operations with their lock calls compute what the operations compute -/

theorem search_log_eq (name : Str) (w : Bool) :
    ∀ (t : Tree) (plk : rwlock),
      search_log name t plk w
        = (search name t plk w).map (fun s => (s, search_events name t w)) := by
  intro t
  induction t with
  | null =>
    intro plk
    simp [search_log, search]
  | node pn pv l r k ihl ihr =>
    intro plk
    rw [search_log, search, search_events]
    by_cases h : strcmp name pn < 0
    · simp only [h, decide_True, if_true]
      cases l with
      | null =>
        cases w
        · cases hp : read_unlock plk <;> simp [hp]
        · simp
      | node nn nv nl nr nlk =>
        simp only [ihl]
        cases w
        · cases h1 : read_lock nlk with
          | none => simp [h1]
          | some a =>
            cases h2 : read_unlock plk with
            | none => simp [h1, h2]
            | some b =>
              by_cases h0 : strcmp name nn = 0
              · simp [h1, h2, h0]
              · cases h3 : search name (Tree.node nn nv nl nr nlk) a false <;>
                  simp [h1, h2, h0, h3]
        · cases h1 : write_lock nlk with
          | none => simp [h1]
          | some a =>
            by_cases h0 : strcmp name nn = 0
            · simp [h1, h0]
            · cases h2 : write_unlock plk with
              | none => simp [h1, h0, h2]
              | some b =>
                cases h3 : search name (Tree.node nn nv nl nr nlk) a true <;>
                  simp [h1, h2, h0, h3]
    · simp only [h, decide_False, Bool.false_eq_true, if_false]
      cases r with
      | null =>
        cases w
        · cases hp : read_unlock plk <;> simp [hp]
        · simp
      | node nn nv nl nr nlk =>
        simp only [ihr]
        cases w
        · cases h1 : read_lock nlk with
          | none => simp [h1]
          | some a =>
            cases h2 : read_unlock plk with
            | none => simp [h1, h2]
            | some b =>
              by_cases h0 : strcmp name nn = 0
              · simp [h1, h2, h0]
              · cases h3 : search name (Tree.node nn nv nl nr nlk) a false <;>
                  simp [h1, h2, h0, h3]
        · cases h1 : write_lock nlk with
          | none => simp [h1]
          | some a =>
            by_cases h0 : strcmp name nn = 0
            · simp [h1, h0]
            · cases h2 : write_unlock plk with
              | none => simp [h1, h0, h2]
              | some b =>
                cases h3 : search name (Tree.node nn nv nl nr nlk) a true <;>
                  simp [h1, h2, h0, h3]

theorem xremove_loop_log_eq :
    ∀ (t : Tree) (nlk : rwlock),
      xremove_loop_log t nlk
        = (xremove_loop t nlk).map (fun w => (w, walk_events w.2.length)) := by
  intro t
  induction t with
  | null =>
    intro nlk
    simp [xremove_loop_log, xremove_loop]
  | node n v l r k ihl _ =>
    intro nlk
    cases l with
    | null => simp [xremove_loop_log, xremove_loop, walk_events]
    | node ln lv ll lr llk =>
      rw [xremove_loop_log, xremove_loop]
      simp only [ihl]
      cases h1 : write_lock llk with
      | none => simp [h1]
      | some a =>
        cases h2 : write_unlock nlk with
        | none => simp [h1, h2]
        | some b =>
          cases h3 : xremove_loop (Tree.node ln lv ll lr llk) a <;>
            simp [h1, h2, h3, walk_events]

theorem xremove_loop_path :
    ∀ (t : Tree) (nlk : rwlock) (w : Tree × Ptr), xremove_loop t nlk = some w →
      w.2 = List.replicate w.2.length Dir.L := by
  intro t
  induction t with
  | null =>
    intro nlk w h
    simp [xremove_loop] at h
  | node n v l r k ihl _ =>
    intro nlk w h
    cases l with
    | null =>
      simp only [xremove_loop, Option.some.injEq] at h
      rw [← h]
      rfl
    | node ln lv ll lr llk =>
      rw [xremove_loop] at h
      simp only [Option.bind_eq_bind, Option.bind_eq_some] at h
      obtain ⟨a, _, b, _, w1, hw1, h⟩ := h
      simp only [Option.some.injEq] at h
      rw [← h]
      have := ihl a w1 hw1
      simp only [List.length_cons, List.replicate_succ]
      rw [← this]

theorem xremove_successor_log_fst (tree : Tree) (dnode : Ptr) :
    (xremove_successor_log tree dnode).map Prod.fst = xremove_successor tree dnode := by
  simp only [xremove_successor_log, xremove_successor, xremove_loop_log_eq,
    Option.bind_eq_bind, Option.map_bind, Option.bind_map, Function.comp_def, Option.map_some']
  simp only [Option.bind_some]

theorem xremove_successor_log_events (tree : Tree) (dnode : Ptr) (x : Tree × List LockEvent)
    (h : xremove_successor_log tree dnode = some x) :
    ∃ k, x.2 = ⟨LockCall.write_lock, dnode ++ [Dir.R]⟩
      :: (walk_events k).map (LockEvent.under (dnode ++ [Dir.R]))
        ++ [⟨LockCall.write_unlock, dnode⟩] := by
  simp only [xremove_successor_log, xremove_loop_log_eq, Option.bind_eq_bind,
    Option.bind_eq_some, Option.map_eq_some'] at h
  obtain ⟨_, _, _, _, w, ⟨w0, _, hw⟩, _, _, _, _, _, _, _, _, _, _, _, _, h⟩ := h
  simp only [Option.some.injEq] at h
  rw [← h, ← hw]
  exact ⟨w0.2.length, rfl⟩

theorem query_tail_log_fst (result : List Nat) (len : Int) (s : SearchRes) :
    (query_tail_log result len s).map Prod.fst = query_tail result len s := by
  unfold query_tail_log query_tail
  cases s.result <;>
    simp only [Option.bind_eq_bind, Option.map_bind, Function.comp_def, Option.map_some']

theorem add_tail_log_fst (m : Heap) (name value : Str) (s : SearchRes) :
    (add_tail_log m name value s).map Prod.fst = add_tail m name value s := by
  unfold add_tail_log add_tail
  cases s.result with
  | some target =>
    simp only [Option.bind_eq_bind, Option.map_bind, Function.comp_def, Option.map_some']
  | none =>
    cases s.parentpp with
    | none => rfl
    | some parent =>
      simp only [Option.bind_eq_bind, Option.map_bind, Function.comp_def]
      congr 1
      funext pnode
      split <;> simp only [Option.map_bind, Function.comp_def, Option.map_some']

theorem xremove_tail_log_fst (s : SearchRes) :
    (xremove_tail_log s).map Prod.fst = xremove_tail s := by
  unfold xremove_tail_log xremove_tail
  cases s.result with
  | none =>
    simp only [Option.bind_eq_bind, Option.map_bind, Function.comp_def, Option.map_some']
  | some dnode =>
    simp only [Option.bind_eq_bind, Option.map_bind, Function.comp_def]
    congr 1
    funext parent
    congr 1
    funext d
    congr 1
    funext p
    split
    · split <;> simp only [Option.map_bind, Function.comp_def, Option.map_some']
    · split
      · split <;> simp only [Option.map_bind, Function.comp_def, Option.map_some']
      · simp only [Option.map_bind, Function.comp_def, Option.map_some',
          ← xremove_successor_log_fst, Option.bind_map]

theorem query_log_fst (name : Str) (result : List Nat) (len : Int) (head : Tree) :
    (query_log name result len head).map Prod.fst = query name result len head := by
  have h : query name result len head
      = (read_lock head.lk).bind (fun hlk =>
          (search name head hlk false).bind (query_tail result len)) := by
    simp only [query, Option.bind_eq_bind]
    rfl
  rw [h]
  simp only [query_log, search_log_eq, ← query_tail_log_fst, Option.bind_eq_bind,
    Option.map_bind, Option.bind_map, Function.comp_def, Option.map_some']
  simp only [Option.map_eq_bind, Function.comp_def]

theorem add_log_fst (m : Heap) (name value : Str) (head : Tree) :
    (add_log m name value head).map Prod.fst = add m name value head := by
  have h : add m name value head
      = (write_lock head.lk).bind (fun hlk =>
          (search name head hlk true).bind (add_tail m name value)) := by
    simp only [add, Option.bind_eq_bind]
    rfl
  rw [h]
  simp only [add_log, search_log_eq, ← add_tail_log_fst, Option.bind_eq_bind,
    Option.map_bind, Option.bind_map, Function.comp_def, Option.map_some']
  simp only [Option.map_eq_bind, Function.comp_def]

theorem xremove_log_fst (name : Str) (head : Tree) :
    (xremove_log name head).map Prod.fst = xremove name head := by
  have h : xremove name head
      = (write_lock head.lk).bind (fun hlk =>
          (search name head hlk true).bind xremove_tail) := by
    simp only [xremove, Option.bind_eq_bind]
    rfl
  rw [h]
  simp only [xremove_log, search_log_eq, ← xremove_tail_log_fst, Option.bind_eq_bind,
    Option.map_bind, Option.bind_map, Function.comp_def, Option.map_some']
  simp only [Option.map_eq_bind, Function.comp_def]

/-! ## Held nodes and root-to-leaf order of event sequences -/

theorem under_under (q p : Ptr) (e : LockEvent) :
    (e.under p).under q = e.under (q ++ p) := by
  simp [LockEvent.under, List.append_assoc]

theorem map_under_under (q p : Ptr) (es : List LockEvent) :
    (es.map (LockEvent.under p)).map (LockEvent.under q) = es.map (LockEvent.under (q ++ p)) := by
  simp [List.map_map, Function.comp_def, under_under]

theorem erase_map_append (q : Ptr) (H : List Ptr) (x : Ptr) :
    (H.map (fun h => q ++ h)).erase (q ++ x) = (H.erase x).map (fun h => q ++ h) := by
  induction H with
  | nil => rfl
  | cons h hs ih =>
    simp only [List.map_cons, List.erase_cons]
    by_cases hx : h = x
    · subst hx
      simp
    · have h1 : (h == x) = false := by simpa using hx
      have h2 : (q ++ h == q ++ x) = false := by simpa using hx
      simp only [h1, h2, Bool.false_eq_true, if_false, List.map_cons, ih]

theorem held_step_under (q : Ptr) (H : List Ptr) (e : LockEvent) :
    held_step (H.map (fun h => q ++ h)) (e.under q) = (held_step H e).map (fun h => q ++ h) := by
  unfold held_step
  by_cases ha : e.call.acquires = true
  · simp [LockEvent.under, ha]
  · simp only [LockEvent.under, ha, Bool.false_eq_true, if_false]
    exact erase_map_append q H e.node

theorem held_after_under (q : Ptr) (es : List LockEvent) :
    ∀ H : List Ptr, held_after (H.map (fun h => q ++ h)) (es.map (LockEvent.under q))
      = (held_after H es).map (fun h => q ++ h) := by
  induction es with
  | nil => intro H; rfl
  | cons e es ih =>
    intro H
    simp only [held_after, List.map_cons, List.foldl_cons] at ih ⊢
    rw [held_step_under]
    exact ih _

theorem held_after_append (H : List Ptr) (a b : List LockEvent) :
    held_after H (a ++ b) = held_after (held_after H a) b := by
  simp [held_after, List.foldl_append]

theorem acquiresBelow_under (q : Ptr) (H : List Ptr) (e : LockEvent)
    (h : AcquiresBelow H e) : AcquiresBelow (H.map (fun h => q ++ h)) (e.under q) := by
  obtain ⟨h1, h2, h3⟩ := h
  refine ⟨?_, ?_, ?_⟩
  · simp [LockEvent.under, h1]
  · simp only [LockEvent.under, List.dropLast_append_of_ne_nil q h1, List.mem_map]
    exact ⟨_, h2, rfl⟩
  · intro x hx
    simp only [List.mem_map] at hx
    obtain ⟨y, hy, rfl⟩ := hx
    rintro ⟨t, ht⟩
    simp only [LockEvent.under, List.append_assoc] at ht
    exact h3 y hy ⟨t, List.append_cancel_left ht⟩

theorem orderedAcq_under (q : Ptr) (es : List LockEvent) :
    ∀ H : List Ptr, OrderedAcq H es →
      OrderedAcq (H.map (fun h => q ++ h)) (es.map (LockEvent.under q)) := by
  induction es with
  | nil => intro H _; trivial
  | cons e es ih =>
    intro H h
    obtain ⟨h1, h2⟩ := h
    simp only [List.map_cons, OrderedAcq]
    refine ⟨fun ha => acquiresBelow_under q H e (h1 (by simpa [LockEvent.under] using ha)), ?_⟩
    rw [held_step_under]
    exact ih _ h2

theorem orderedAcq_append (a b : List LockEvent) :
    ∀ H : List Ptr, OrderedAcq H a → OrderedAcq (held_after H a) b → OrderedAcq H (a ++ b) := by
  induction a with
  | nil => intro H _ hb; exact hb
  | cons e es ih =>
    intro H ha hb
    obtain ⟨h1, h2⟩ := ha
    exact ⟨h1, ih _ h2 hb⟩

theorem orderedAcq_of_releases (es : List LockEvent) (h : ∀ e ∈ es, e.call.acquires = false) :
    ∀ H : List Ptr, OrderedAcq H es := by
  induction es with
  | nil => intro H; trivial
  | cons e es ih =>
    intro H
    refine ⟨fun ha => ?_, ih (fun x hx => h x (List.mem_cons_of_mem _ hx)) _⟩
    rw [h e (List.mem_cons_self e es)] at ha
    exact absurd ha (by decide)

/-! ## The lock calls of `search` -/

theorem search_events_mkNode (name n v : Str) (d : Dir) (t o : Tree) (k : rwlock) (w : Bool)
    (hd : d = dirOf name n) :
    search_events name (mkNode n v d t o k) w =
      match t with
      | Tree.null => if w then [] else [⟨LockCall.read_unlock, []⟩]
      | Tree.node nn nv nl nr nlk =>
        (if w then [⟨LockCall.write_lock, [d]⟩]
          else [⟨LockCall.read_lock, [d]⟩, ⟨LockCall.read_unlock, []⟩])
        ++ (if strcmp name nn = 0 then []
            else (if w then [⟨LockCall.write_unlock, []⟩] else [])
              ++ (search_events name (Tree.node nn nv nl nr nlk) w).map
                  (LockEvent.under [d])) := by
  subst hd
  by_cases h : strcmp name n < 0
  · have hd : dirOf name n = Dir.L := by simp [dirOf, h]
    rw [hd]
    simp only [mkNode]
    rw [search_events]
    simp only [h, decide_True, if_true]
    cases t with
    | null => rfl
    | node nn nv nl nr nlk => by_cases h0 : strcmp name nn = 0 <;> simp [h0]
  · have hd : dirOf name n = Dir.R := by simp [dirOf, h]
    rw [hd]
    simp only [mkNode]
    rw [search_events]
    simp only [h, decide_False, Bool.false_eq_true, if_false]
    cases t with
    | null => rfl
    | node nn nv nl nr nlk => by_cases h0 : strcmp name nn = 0 <;> simp [h0]

theorem orderedAcq_search_events (name : Str) (w : Bool) :
    ∀ t : Tree, OrderedAcq [[]] (search_events name t w) := by
  intro t
  induction t with
  | null => trivial
  | node n v l r k ihl ihr =>
    have key : ∀ (d : Dir) (t o : Tree), d = dirOf name n →
        OrderedAcq [[]] (search_events name t w) →
        OrderedAcq [[]] (search_events name (mkNode n v d t o k) w) := by
      intro d t o hd iht
      rw [search_events_mkNode name n v d t o k w hd]
      cases t with
      | null => cases w <;> simp [OrderedAcq, LockCall.acquires]
      | node nn nv nl nr nlk =>
        have hl := orderedAcq_under [d] _ [[]] iht
        simp only [List.map_cons, List.map_nil, List.append_nil] at hl
        have hb : AcquiresBelow [[]] ⟨LockCall.write_lock, [d]⟩ := by
          refine ⟨by simp, by simp, ?_⟩
          intro h hh
          simp only [List.mem_singleton] at hh
          subst hh
          simp
        have hb2 : AcquiresBelow [[]] ⟨LockCall.read_lock, [d]⟩ := by
          refine ⟨by simp, by simp, ?_⟩
          intro h hh
          simp only [List.mem_singleton] at hh
          subst hh
          simp
        by_cases h0 : strcmp name nn = 0
        · cases w
          · simp only [h0, if_true, Bool.false_eq_true, if_false, List.append_nil]
            exact ⟨fun _ => hb2, ⟨fun h => by simp [LockCall.acquires] at h, trivial⟩⟩
          · simp only [h0, if_true, List.append_nil]
            exact ⟨fun _ => hb, trivial⟩
        · cases w
          · simp only [h0, if_false, Bool.false_eq_true, List.nil_append, List.cons_append]
            refine ⟨fun _ => hb2, ⟨fun h => by simp [LockCall.acquires] at h, ?_⟩⟩
            have hs : held_step (held_step [[]] ⟨LockCall.read_lock, [d]⟩)
                ⟨LockCall.read_unlock, []⟩ = [[d]] := by
              simp [held_step, LockCall.acquires]
            rw [hs]
            exact hl
          · simp only [h0, if_false, if_true, List.cons_append, List.nil_append]
            refine ⟨fun _ => hb, ⟨fun h => by simp [LockCall.acquires] at h, ?_⟩⟩
            have hs : held_step (held_step [[]] ⟨LockCall.write_lock, [d]⟩)
                ⟨LockCall.write_unlock, []⟩ = [[d]] := by
              simp [held_step, LockCall.acquires]
            rw [hs]
            exact hl
    rw [node_eq_mkNode name n v l r k]
    by_cases hlt : strcmp name n < 0
    · simp only [hlt, if_true]
      exact key _ l r rfl ihl
    · simp only [hlt, if_false]
      exact key _ r l rfl ihr

theorem held_after_search_events (name : Str) (w : Bool) :
    ∀ (t : Tree), Quiescent t → ∀ (n v : Str) (d : Dir) (o : Tree) (k : rwlock),
      Quiescent o → d = dirOf name n → ∀ s : SearchRes,
      search name (mkNode n v d t o k) (if w then rwlock.written else rwlock.read1) w = some s →
      held_after [[]] (search_events name (mkNode n v d t o k) w)
        = s.tree.locked.map Prod.fst := by
  intro t
  induction t with
  | null =>
    intro _ n v d o k ho hd s hs
    rw [search_events_mkNode name n v d Tree.null o k w hd]
    cases w
    · simp only [Bool.false_eq_true, if_false] at hs ⊢
      rw [search_read_null name n v d o k hd] at hs
      cases Option.some.inj hs
      simp [held_after, held_step, LockCall.acquires, locked_mkNode _ _ _ _ _ _ ho, Tree.locked]
    · simp only [if_true] at hs ⊢
      rw [search_write_null name n v d o k rwlock.written hd] at hs
      cases Option.some.inj hs
      simp [held_after, locked_mkNode _ _ _ _ _ _ ho, Tree.locked, rwlock.written, rwlock.init]
  | node nn nv nl nr nk ihl ihr =>
    intro hq n v d o k ho hd s hs
    obtain ⟨hk, hql, hqr⟩ := hq
    subst hk
    rw [search_events_mkNode name n v d _ o k w hd]
    by_cases h0 : strcmp name nn = 0
    · cases w
      · simp only [Bool.false_eq_true, if_false] at hs ⊢
        rw [search_read_found name n v d o k nn nv nl nr hd h0] at hs
        cases Option.some.inj hs
        simp [h0, held_after, held_step, LockCall.acquires, locked_mkNode _ _ _ _ _ _ ho,
          Tree.locked, locked_quiescent hql, locked_quiescent hqr, rwlock.read1, rwlock.init]
      · simp only [if_true] at hs ⊢
        rw [search_write_found name n v d o k nn nv nl nr hd h0] at hs
        cases Option.some.inj hs
        simp [h0, held_after, held_step, LockCall.acquires, locked_mkNode _ _ _ _ _ _ ho,
          Tree.locked, locked_quiescent hql, locked_quiescent hqr, rwlock.written, rwlock.init]
    · have key : ∀ s1 : SearchRes, search name (Tree.node nn nv nl nr rwlock.init)
            (if w then rwlock.written else rwlock.read1) w = some s1 →
          held_after [[]] (search_events name (Tree.node nn nv nl nr rwlock.init) w)
            = s1.tree.locked.map Prod.fst := by
        intro s1 hs1
        by_cases hlt : strcmp name nn < 0
        · have := ihl hql nn nv Dir.L nr rwlock.init hqr (by simp [dirOf, hlt]) s1
            (by simpa [mkNode] using hs1)
          simpa [mkNode] using this
        · have := ihr hqr nn nv Dir.R nl rwlock.init hql (by simp [dirOf, hlt]) s1
            (by simpa [mkNode] using hs1)
          simpa [mkNode] using this
      have hrec : ∃ s1, search name (Tree.node nn nv nl nr rwlock.init)
            (if w then rwlock.written else rwlock.read1) w = some s1
          ∧ s = s1.lift n v d o rwlock.init := by
        cases w
        · simp only [Bool.false_eq_true, if_false] at hs ⊢
          rw [search_read_rec name n v d o k nn nv nl nr hd h0] at hs
          simp only [Option.map_eq_some'] at hs
          obtain ⟨s1, h1, h2⟩ := hs
          exact ⟨s1, h1, h2.symm⟩
        · simp only [if_true] at hs ⊢
          rw [search_write_rec name n v d o k nn nv nl nr hd h0] at hs
          simp only [Option.map_eq_some'] at hs
          obtain ⟨s1, h1, h2⟩ := hs
          exact ⟨s1, h1, h2.symm⟩
      obtain ⟨s1, hs1, rfl⟩ := hrec
      have hk := key s1 hs1
      have hu := held_after_under [d]
        (search_events name (Tree.node nn nv nl nr rwlock.init) w) [[]]
      simp only [List.map_cons, List.map_nil, List.append_nil] at hu
      have hlocked : (s1.lift n v d o rwlock.init).tree.locked.map Prod.fst
          = (s1.tree.locked.map Prod.fst).map (fun h => [d] ++ h) := by
        simp [SearchRes.lift, locked_mkNode _ _ _ _ _ _ ho, List.map_map, Function.comp_def]
      rw [hlocked, ← hk, ← hu]
      cases w
      · simp [h0, held_after, held_step, LockCall.acquires]
      · simp [h0, held_after, held_step, LockCall.acquires]

/-! ## The lock calls of the successor walk -/

theorem held_walk (x : Ptr) :
    ∀ (k : Nat) (q : Ptr), (∀ p, x ≠ q ++ p) →
      held_after [x, q] ((walk_events k).map (LockEvent.under q))
        = [x, q ++ List.replicate k Dir.L] := by
  intro k
  induction k with
  | zero => intro q _; simp [walk_events, held_after]
  | succ k ih =>
    intro q hx
    have hxq : x ≠ q := by simpa using hx []
    have hxq2 : (x == q) = false := by simpa using hxq
    have hs : held_step (held_step [x, q] (LockEvent.under q ⟨LockCall.write_lock, [Dir.L]⟩))
        (LockEvent.under q ⟨LockCall.write_unlock, []⟩) = [x, q ++ [Dir.L]] := by
      simp [held_step, LockEvent.under, LockCall.acquires, List.erase_cons, hxq2]
    have hi := ih (q ++ [Dir.L]) (fun p => by simpa using hx ([Dir.L] ++ p))
    simp only [walk_events, List.map_cons, map_under_under, held_after, List.foldl_cons, hs]
    simp only [held_after] at hi
    rw [hi]
    simp [List.replicate_succ]

theorem orderedAcq_walk (x : Ptr) :
    ∀ (k : Nat) (q : Ptr), (∀ p, x ≠ q ++ p) →
      OrderedAcq [x, q] ((walk_events k).map (LockEvent.under q)) := by
  intro k
  induction k with
  | zero => intro q _; simp [walk_events, OrderedAcq]
  | succ k ih =>
    intro q hx
    have hxq : x ≠ q := by simpa using hx []
    have hxq2 : (x == q) = false := by simpa using hxq
    have hs : held_step (held_step [x, q] (LockEvent.under q ⟨LockCall.write_lock, [Dir.L]⟩))
        (LockEvent.under q ⟨LockCall.write_unlock, []⟩) = [x, q ++ [Dir.L]] := by
      simp [held_step, LockEvent.under, LockCall.acquires, List.erase_cons, hxq2]
    have hi := ih (q ++ [Dir.L]) (fun p => by simpa using hx ([Dir.L] ++ p))
    simp only [walk_events, List.map_cons, map_under_under, OrderedAcq, hs]
    refine ⟨fun _ => ⟨?_, ?_, ?_⟩, ?_, hi⟩
    · simp [LockEvent.under]
    · simp [LockEvent.under]
    · intro h hh
      simp only [List.mem_cons, List.mem_singleton, List.not_mem_nil, or_false] at hh
      rintro ⟨t, ht⟩
      simp only [LockEvent.under] at ht
      rcases hh with rfl | rfl
      · exact hx ([Dir.L] ++ t) (by simpa using ht.symm)
      · have := congrArg List.length ht
        simp at this
    · intro h
      simp [LockEvent.under, LockCall.acquires] at h

theorem footprint_walk (dnode : Ptr) :
    ∀ (k i : Nat),
      AtEveryPoint (FootprintHandOver dnode) [dnode, dnode ++ Dir.R :: List.replicate i Dir.L]
        ((walk_events k).map (LockEvent.under (dnode ++ Dir.R :: List.replicate i Dir.L))) := by
  intro k
  induction k with
  | zero =>
    intro i
    exact Or.inl (Or.inr ⟨_, ⟨i, rfl⟩, rfl⟩)
  | succ k ih =>
    intro i
    have hxq2 : (dnode == dnode ++ Dir.R :: List.replicate i Dir.L) = false := by simp
    have hq : dnode ++ Dir.R :: List.replicate i Dir.L ++ [Dir.L]
        = dnode ++ Dir.R :: List.replicate (i + 1) Dir.L := by
      simp [List.replicate_succ']
    have hs1 : held_step [dnode, dnode ++ Dir.R :: List.replicate i Dir.L]
          (LockEvent.under (dnode ++ Dir.R :: List.replicate i Dir.L)
            ⟨LockCall.write_lock, [Dir.L]⟩)
        = [dnode, dnode ++ Dir.R :: List.replicate i Dir.L,
            dnode ++ Dir.R :: List.replicate i Dir.L ++ [Dir.L]] := by
      simp [held_step, LockEvent.under, LockCall.acquires]
    have hs2 : held_step [dnode, dnode ++ Dir.R :: List.replicate i Dir.L,
            dnode ++ Dir.R :: List.replicate i Dir.L ++ [Dir.L]]
          (LockEvent.under (dnode ++ Dir.R :: List.replicate i Dir.L)
            ⟨LockCall.write_unlock, []⟩)
        = [dnode, dnode ++ Dir.R :: List.replicate (i + 1) Dir.L] := by
      rw [← hq]
      simp [held_step, LockEvent.under, LockCall.acquires, List.erase_cons, hxq2]
    simp only [walk_events, List.map_cons, map_under_under, AtEveryPoint, hs1, hs2]
    refine ⟨Or.inl (Or.inr ⟨_, ⟨i, rfl⟩, rfl⟩), Or.inr ⟨_, ⟨i, rfl⟩, rfl⟩, ?_⟩
    rw [hq]
    exact ih (i + 1)

/-! ## The lock calls after `search` -/

theorem query_tail_log_events (result : List Nat) (len : Int) (s : SearchRes)
    (q : (List Nat × Tree) × List LockEvent) (h : query_tail_log result len s = some q) :
    ∀ e ∈ q.2, e.call.acquires = false := by
  unfold query_tail_log at h
  cases hr : s.result with
  | none =>
    simp only [hr, Option.bind_eq_bind, Option.bind_eq_some] at h
    obtain ⟨_, _, h⟩ := h
    cases Option.some.inj h
    simp
  | some target =>
    simp only [hr, Option.bind_eq_bind, Option.bind_eq_some] at h
    obtain ⟨_, _, _, _, _, _, h⟩ := h
    cases Option.some.inj h
    simp [LockCall.acquires]

theorem add_tail_log_events (m : Heap) (name value : Str) (s : SearchRes)
    (a : (Int × Tree) × List LockEvent) (h : add_tail_log m name value s = some a) :
    ∀ e ∈ a.2, e.call.acquires = false := by
  unfold add_tail_log at h
  cases hr : s.result with
  | some target =>
    simp only [hr, Option.bind_eq_bind, Option.bind_eq_some] at h
    obtain ⟨_, _, _, _, _, _, h⟩ := h
    cases Option.some.inj h
    simp [LockCall.acquires]
  | none =>
    cases hp : s.parentpp with
    | none =>
      simp only [hr, hp] at h
      cases Option.some.inj h
      simp
    | some parent =>
      simp only [hr, hp, Option.bind_eq_bind, Option.bind_eq_some] at h
      obtain ⟨_, _, h⟩ := h
      split at h <;>
      · simp only [Option.bind_eq_some] at h
        obtain ⟨_, _, _, _, h⟩ := h
        cases Option.some.inj h
        simp [LockCall.acquires]

theorem xremove_tail_log_events (s : SearchRes) (x : (Int × Tree) × List LockEvent)
    (h : xremove_tail_log s = some x) :
    ∃ parent, s.parentpp = some parent ∧
      ((x.2 = [⟨LockCall.write_unlock, parent⟩]
          ∧ ∀ dnode dn, s.result = some dnode → s.tree.deref dnode = some dn →
              (dn.rchild.isNull = true ∨ dn.lchild.isNull = true))
        ∨ ∃ dnode k, s.result = some dnode
            ∧ x.2 = ⟨LockCall.write_unlock, parent⟩ :: ⟨LockCall.write_lock, dnode ++ [Dir.R]⟩
                :: (walk_events k).map (LockEvent.under (dnode ++ [Dir.R]))
                  ++ [⟨LockCall.write_unlock, dnode⟩]) := by
  unfold xremove_tail_log at h
  cases hr : s.result with
  | none =>
    simp only [hr, Option.bind_eq_bind, Option.bind_eq_some] at h
    obtain ⟨parent, hp, _, _, h⟩ := h
    cases Option.some.inj h
    exact ⟨parent, hp, Or.inl ⟨rfl, fun _ _ hx => by cases hx⟩⟩
  | some dnode =>
    simp only [hr, Option.bind_eq_bind, Option.bind_eq_some] at h
    obtain ⟨parent, hp, d, hd, p, _, h⟩ := h
    refine ⟨parent, hp, ?_⟩
    by_cases h1 : d.rchild.isNull = true
    · have hx2 : x.2 = [⟨LockCall.write_unlock, parent⟩] := by
        simp only [h1, if_true] at h
        split at h <;>
        · simp only [Option.bind_eq_some] at h
          obtain ⟨_, _, _, _, h⟩ := h
          cases Option.some.inj h
          rfl
      refine Or.inl ⟨hx2, fun dnode1 dn hx hy => ?_⟩
      cases hx
      rw [hd] at hy
      cases hy
      exact Or.inl h1
    · by_cases h2 : d.lchild.isNull = true
      · have hx2 : x.2 = [⟨LockCall.write_unlock, parent⟩] := by
          simp only [h1, h2, if_true, if_false, Bool.false_eq_true] at h
          split at h <;>
          · simp only [Option.bind_eq_some] at h
            obtain ⟨_, _, _, _, h⟩ := h
            cases Option.some.inj h
            rfl
        refine Or.inl ⟨hx2, fun dnode1 dn hx hy => ?_⟩
        cases hx
        rw [hd] at hy
        cases hy
        exact Or.inr h2
      · simp only [h1, h2, if_false, Bool.false_eq_true, Option.bind_eq_bind, Option.bind_eq_some] at h
        obtain ⟨_, _, y, hy, h⟩ := h
        cases Option.some.inj h
        obtain ⟨k, hk⟩ := xremove_successor_log_events _ dnode y hy
        exact Or.inr ⟨dnode, k, rfl, by rw [hk]; rfl⟩

/-! ## The lock calls of an operation on a store with no lock held -/

theorem exists_mkNode (name : Str) (head : Tree) (hnn : head.isNull = false)
    (hq : Quiescent head) :
    ∃ n v d t o, head = mkNode n v d t o rwlock.init ∧ d = dirOf name n
      ∧ Quiescent t ∧ Quiescent o := by
  cases head with
  | null => cases hnn
  | node n v l r k =>
    obtain ⟨hk, hl, hr⟩ := hq
    subst hk
    by_cases h : strcmp name n < 0
    · exact ⟨n, v, Dir.L, l, r, rfl, by simp [dirOf, h], hl, hr⟩
    · exact ⟨n, v, Dir.R, r, l, rfl, by simp [dirOf, h], hr, hl⟩

theorem lk_mkNode (n v : Str) (d : Dir) (t o : Tree) (k : rwlock) :
    (mkNode n v d t o k).lk = k := by
  cases d <;> rfl

theorem search_log_quiescent (name : Str) (w : Bool) (n v : Str) (d : Dir) (t o : Tree)
    (hd : d = dirOf name n) (hq : Quiescent t) (ho : Quiescent o) :
    ∃ s, search name (mkNode n v d t o rwlock.init)
          (if w then rwlock.written else rwlock.read1) w = some s
      ∧ SearchPost w name s
      ∧ search_log name (mkNode n v d t o rwlock.init)
          (if w then rwlock.written else rwlock.read1) w
          = some (s, search_events name (mkNode n v d t o rwlock.init) w)
      ∧ held_after [[]] (search_events name (mkNode n v d t o rwlock.init) w)
          = s.tree.locked.map Prod.fst
      ∧ OrderedAcq [[]] (search_events name (mkNode n v d t o rwlock.init) w) := by
  obtain ⟨s, hs, hp⟩ := search_post name w t hq n v d o rwlock.init ho hd
  refine ⟨s, hs, hp, ?_, held_after_search_events name w t hq n v d o rwlock.init ho hd s hs,
    orderedAcq_search_events name w _⟩
  rw [search_log_eq, hs]
  rfl

theorem rootToLeaf_of_releases (ev tl : List LockEvent) (c : LockCall)
    (hc : c.acquires = true) (h1 : OrderedAcq [[]] ev)
    (h2 : ∀ e ∈ tl, e.call.acquires = false) :
    RootToLeaf (⟨c, []⟩ :: ev ++ tl) := by
  refine ⟨hc, rfl, orderedAcq_append _ _ _ h1 (orderedAcq_of_releases _ h2 _)⟩

theorem query_log_quiescent (name : Str) (result : List Nat) (len : Int) (n v : Str) (d : Dir)
    (t o : Tree) (hd : d = dirOf name n) (hq : Quiescent t) (ho : Quiescent o)
    (hlen : 1 ≤ len) (hbuf : len ≤ result.length) (hint : len < 2 ^ 31) :
    ∃ q : (List Nat × Tree) × List LockEvent, query name result len (mkNode n v d t o rwlock.init) = some q.1
      ∧ query_log name result len (mkNode n v d t o rwlock.init)
          = some (q.1, ⟨LockCall.read_lock, []⟩
              :: search_events name (mkNode n v d t o rwlock.init) false ++ q.2)
      ∧ ∀ e ∈ q.2, e.call.acquires = false := by
  obtain ⟨s, hs, _, hlog, _, _⟩ := search_log_quiescent name false n v d t o hd hq ho
  simp only [Bool.false_eq_true, if_false] at hlog
  have h1 : query_log name result len (mkNode n v d t o rwlock.init)
      = (query_tail_log result len s).bind (fun q => some (q.1, ⟨LockCall.read_lock, []⟩
          :: search_events name (mkNode n v d t o rwlock.init) false ++ q.2)) := by
    simp only [query_log, lk_mkNode, read_lock_init, hlog, Option.bind_eq_bind,
      Option.some_bind]
  have hfst := query_log_fst name result len (mkNode n v d t o rwlock.init)
  have hn : (len - 1).toNat ≤ result.length := by omega
  rw [query_eq name result len n v d t o hd hq, size_t_of_int_pred len hlen hint] at hfst
  simp only [strncpy, hn, if_true, Option.map_some'] at hfst
  rw [h1] at hfst ⊢
  cases hq1 : query_tail_log result len s with
  | none => rw [hq1] at hfst; cases hfst
  | some q =>
    rw [hq1] at hfst
    simp only [Option.some_bind, Option.map_some', Option.some.injEq] at hfst
    refine ⟨q, ?_, rfl, query_tail_log_events result len s q hq1⟩
    rw [query_eq name result len n v d t o hd hq, size_t_of_int_pred len hlen hint]
    simp only [strncpy, hn, if_true, Option.map_some', hfst]

theorem add_log_quiescent (m : Heap) (name value : Str) (n v : Str) (d : Dir)
    (t o : Tree) (hd : d = dirOf name n) (hq : Quiescent t) (ho : Quiescent o) :
    ∃ a : (Int × Tree) × List LockEvent, add m name value (mkNode n v d t o rwlock.init) = some a.1
      ∧ add_log m name value (mkNode n v d t o rwlock.init)
          = some (a.1, ⟨LockCall.write_lock, []⟩
              :: search_events name (mkNode n v d t o rwlock.init) true ++ a.2)
      ∧ ∀ e ∈ a.2, e.call.acquires = false := by
  obtain ⟨s, hs, _, hlog, _, _⟩ := search_log_quiescent name true n v d t o hd hq ho
  simp only [if_true] at hlog
  have h1 : add_log m name value (mkNode n v d t o rwlock.init)
      = (add_tail_log m name value s).bind (fun a => some (a.1, ⟨LockCall.write_lock, []⟩
          :: search_events name (mkNode n v d t o rwlock.init) true ++ a.2)) := by
    simp only [add_log, lk_mkNode, write_lock_init, hlog, Option.bind_eq_bind,
      Option.some_bind]
  have hfst := add_log_fst m name value (mkNode n v d t o rwlock.init)
  rw [add_eq m name value n v d t o hd hq] at hfst
  rw [h1] at hfst ⊢
  cases ha : add_tail_log m name value s with
  | none => rw [ha] at hfst; cases hfst
  | some a =>
    rw [ha] at hfst
    simp only [Option.some_bind, Option.map_some', Option.some.injEq] at hfst
    refine ⟨a, ?_, rfl, add_tail_log_events m name value s a ha⟩
    rw [add_eq m name value n v d t o hd hq, hfst]

theorem xremove_log_quiescent (name : Str) (n v : Str) (d : Dir)
    (t o : Tree) (hd : d = dirOf name n) (hq : Quiescent t) (ho : Quiescent o) :
    ∃ s x, search name (mkNode n v d t o rwlock.init) rwlock.written true = some s
      ∧ SearchPost true name s
      ∧ held_after [[]] (search_events name (mkNode n v d t o rwlock.init) true)
          = s.tree.locked.map Prod.fst
      ∧ OrderedAcq [[]] (search_events name (mkNode n v d t o rwlock.init) true)
      ∧ xremove_tail_log s = some x
      ∧ xremove name (mkNode n v d t o rwlock.init) = some x.1
      ∧ xremove_log name (mkNode n v d t o rwlock.init)
          = some (x.1, ⟨LockCall.write_lock, []⟩
              :: search_events name (mkNode n v d t o rwlock.init) true ++ x.2) := by
  obtain ⟨s, hs, hp, hlog, hheld, hord⟩ := search_log_quiescent name true n v d t o hd hq ho
  simp only [if_true] at hlog hs
  have h1 : xremove_log name (mkNode n v d t o rwlock.init)
      = (xremove_tail_log s).bind (fun x => some (x.1, ⟨LockCall.write_lock, []⟩
          :: search_events name (mkNode n v d t o rwlock.init) true ++ x.2)) := by
    simp only [xremove_log, lk_mkNode, write_lock_init, hlog, Option.bind_eq_bind,
      Option.some_bind]
  have hfst := xremove_log_fst name (mkNode n v d t o rwlock.init)
  rw [xremove_eq name n v d t o hd hq] at hfst
  rw [h1] at hfst ⊢
  cases hx : xremove_tail_log s with
  | none => rw [hx] at hfst; cases hfst
  | some x =>
    rw [hx] at hfst
    simp only [Option.some_bind, Option.map_some', Option.some.injEq] at hfst
    refine ⟨s, x, hs, hp, hheld, hord, hx, ?_, rfl⟩
    rw [xremove_eq name n v d t o hd hq, hfst]

theorem orderedAcq_successor (parent dnode : Ptr) (k : Nat) :
    OrderedAcq [parent, dnode]
      (⟨LockCall.write_unlock, parent⟩ :: ⟨LockCall.write_lock, dnode ++ [Dir.R]⟩
        :: (walk_events k).map (LockEvent.under (dnode ++ [Dir.R]))
          ++ [⟨LockCall.write_unlock, dnode⟩]) := by
  have hx : ∀ p, dnode ≠ dnode ++ [Dir.R] ++ p := by
    intro p h
    have := congrArg List.length h
    simp at this
  have h1 : held_step [parent, dnode] ⟨LockCall.write_unlock, parent⟩ = [dnode] := by
    simp [held_step, LockCall.acquires]
  have h2 : held_step [dnode] ⟨LockCall.write_lock, dnode ++ [Dir.R]⟩
      = [dnode, dnode ++ [Dir.R]] := by
    simp [held_step, LockCall.acquires]
  refine ⟨fun h => by simp [LockCall.acquires] at h, ?_⟩
  rw [h1]
  refine ⟨fun _ => ⟨by simp, by simp, ?_⟩, ?_⟩
  · intro h hh
    simp only [List.mem_singleton] at hh
    subst hh
    rintro ⟨t, ht⟩
    exact hx t ht.symm
  · rw [h2]
    exact orderedAcq_append _ _ _ (orderedAcq_walk dnode k _ hx)
      (orderedAcq_of_releases _ (by simp [LockCall.acquires]) _)

theorem footprint_successor (dnode : Ptr) (k : Nat) :
    AtEveryPoint (FootprintHandOver dnode) [dnode]
      (⟨LockCall.write_lock, dnode ++ [Dir.R]⟩
        :: (walk_events k).map (LockEvent.under (dnode ++ [Dir.R]))) := by
  have h2 : held_step [dnode] ⟨LockCall.write_lock, dnode ++ [Dir.R]⟩
      = [dnode, dnode ++ [Dir.R]] := by
    simp [held_step, LockCall.acquires]
  refine ⟨Or.inl (Or.inl rfl), ?_⟩
  rw [h2]
  exact footprint_walk dnode k 0

/-! ## Acquisition order and the footprint of the successor walk -/

/-- C15 (root-to-leaf acquisition order): on a store with no lock held, each of `query`, `add`
and `xremove`, for any name, returns, and in the sequence of its lock calls the first is an
acquisition of the node the operation starts at (the sentinel), and every later acquisition is
on a child of a node held at that moment and is neither equal to nor an ancestor of a node
held at that moment.  The buffer of `query` has `len >= 1` bytes. -/
theorem root_to_leaf_acquisition_order (head : Tree) (hnn : head.isNull = false)
    (hq : Quiescent head) (m : Heap) (name value : Str) (result : List Nat) (len : Int)
    (hlen : 1 ≤ len) (hbuf : len ≤ result.length) (hint : len < 2 ^ 31) :
    (∃ r ev, query name result len head = some r
        ∧ query_log name result len head = some (r, ev) ∧ RootToLeaf ev)
    ∧ (∃ r ev, add m name value head = some r
        ∧ add_log m name value head = some (r, ev) ∧ RootToLeaf ev)
    ∧ (∃ r ev, xremove name head = some r
        ∧ xremove_log name head = some (r, ev) ∧ RootToLeaf ev) := by
  obtain ⟨n, v, d, t, o, rfl, hd, hqt, hqo⟩ := exists_mkNode name head hnn hq
  refine ⟨?_, ?_, ?_⟩
  · obtain ⟨q, h1, h2, h3⟩ :=
      query_log_quiescent name result len n v d t o hd hqt hqo hlen hbuf hint
    exact ⟨_, _, h1, h2, rootToLeaf_of_releases _ _ _ rfl (orderedAcq_search_events _ _ _) h3⟩
  · obtain ⟨a, h1, h2, h3⟩ := add_log_quiescent m name value n v d t o hd hqt hqo
    exact ⟨_, _, h1, h2, rootToLeaf_of_releases _ _ _ rfl (orderedAcq_search_events _ _ _) h3⟩
  · obtain ⟨s, x, hs, hp, hheld, hord, hx, h1, h2⟩ :=
      xremove_log_quiescent name n v d t o hd hqt hqo
    refine ⟨_, _, h1, h2, ?_⟩
    obtain ⟨parent, hpp, ⟨hx2, _⟩ | ⟨dnode, k, hr, hx2⟩⟩ := xremove_tail_log_events s x hx
    · exact rootToLeaf_of_releases _ _ _ rfl hord
        (by rw [hx2]; simp [LockCall.acquires])
    · refine ⟨rfl, rfl, orderedAcq_append _ _ _ hord ?_⟩
      simp only [SearchPost, hr] at hp
      obtain ⟨parent1, d1, hp1, _, hl, _⟩ := hp
      rw [hpp] at hp1
      cases hp1
      rw [hheld, hl, hx2]
      exact orderedAcq_successor parent dnode k

/-- C15 on the store of scenario 4: `query("m")`, `add("m", "9")` and `remove("m")`, the last
with the walk to the in-order successor `p`. -/
theorem root_to_leaf_acquisition_order_witness :
    store_mftahpz.isNull = false ∧ Quiescent store_mftahpz
      ∧ (1 : Int) ≤ 16 ∧ (16 : Int) ≤ buffer16.length ∧ (16 : Int) < 2 ^ 31
      ∧ ((∃ r ev, query (cstr "m") buffer16 16 store_mftahpz = some r
            ∧ query_log (cstr "m") buffer16 16 store_mftahpz = some (r, ev) ∧ RootToLeaf ev)
        ∧ (∃ r ev, add ⟨true, true, true⟩ (cstr "m") (cstr "9") store_mftahpz = some r
            ∧ add_log ⟨true, true, true⟩ (cstr "m") (cstr "9") store_mftahpz = some (r, ev)
            ∧ RootToLeaf ev)
        ∧ (∃ r ev, xremove (cstr "m") store_mftahpz = some r
            ∧ xremove_log (cstr "m") store_mftahpz = some (r, ev) ∧ RootToLeaf ev)) :=
  ⟨by decide, by decide, by decide, by decide, by decide,
    root_to_leaf_acquisition_order store_mftahpz (by decide) (by decide) ⟨true, true, true⟩
      (cstr "m") (cstr "9") buffer16 16 (by decide) (by decide) (by decide)⟩

/-- C14 as stated fails on the store of scenario 4 for `remove("m")`: the node of `m`, at the
right link of the sentinel, has two children; after the release of the parent (the sentinel)
the walk locks the right child `t`, then the left child `p` of `t` while `t` is still locked,
so that the operation holds the target `m` together with its two descendants `t` and `p`. -/
theorem successor_walk_footprint_counterexample :
    search (cstr "m") store_mftahpz rwlock.written true = some store_mftahpz_found_m
      ∧ (store_mftahpz_found_m.tree.deref [Dir.R]).map
          (fun dn => (dn.lchild.isNull, dn.rchild.isNull)) = some (false, false)
      ∧ xremove_log (cstr "m") store_mftahpz
          = some ((1, store_fahptz),
              [⟨LockCall.write_lock, []⟩, ⟨LockCall.write_lock, [Dir.R]⟩,
                ⟨LockCall.write_unlock, []⟩,
                ⟨LockCall.write_lock, [Dir.R, Dir.R]⟩,
                ⟨LockCall.write_lock, [Dir.R, Dir.R, Dir.L]⟩,
                ⟨LockCall.write_unlock, [Dir.R, Dir.R]⟩,
                ⟨LockCall.write_unlock, [Dir.R]⟩])
      ∧ held_after []
          [⟨LockCall.write_lock, []⟩, ⟨LockCall.write_lock, [Dir.R]⟩,
            ⟨LockCall.write_unlock, []⟩,
            ⟨LockCall.write_lock, [Dir.R, Dir.R]⟩,
            ⟨LockCall.write_lock, [Dir.R, Dir.R, Dir.L]⟩]
          = [[Dir.R], [Dir.R, Dir.R], [Dir.R, Dir.R, Dir.L]]
      ∧ ¬ AtEveryPoint (FootprintTwo [Dir.R]) [[Dir.R]]
          [⟨LockCall.write_lock, [Dir.R, Dir.R]⟩,
            ⟨LockCall.write_lock, [Dir.R, Dir.R, Dir.L]⟩,
            ⟨LockCall.write_unlock, [Dir.R, Dir.R]⟩] := by
  refine ⟨by decide, by decide, by decide, by decide, ?_⟩
  intro h
  obtain ⟨_, _, h3, _⟩ := h
  simp only [held_step, LockCall.acquires, if_true, List.cons_append, List.nil_append] at h3
  rcases h3 with h3 | ⟨q, _, h3⟩
  · cases h3
  · cases h3

/-- C14, amended (lock footprint of the successor walk): in the two-children case of `xremove`
on a store with no lock held, the lock calls are those of `write_lock(&head)` and `search`,
the release of the parent, the calls `W` of the walk, and the release of the target.  After the
release of the parent the target alone is held, and at every point of `W` the held nodes are
the target alone, the target and one node on the left spine of its right subtree, or, between
`write_lock(next->lchild)` and `write_unlock(next)`, the target, such a node and its left
child. -/
theorem successor_walk_footprint (head : Tree) (hnn : head.isNull = false)
    (hq : Quiescent head) (name : Str) (s : SearchRes) (dnode : Ptr) (dn : Tree)
    (hs : search name head rwlock.written true = some s) (ht : s.result = some dnode)
    (hd : s.tree.deref dnode = some dn) (hl : dn.lchild.isNull = false)
    (hr : dn.rchild.isNull = false) :
    ∃ r parent k, s.parentpp = some parent ∧ xremove name head = some r
      ∧ xremove_log name head
          = some (r, (⟨LockCall.write_lock, []⟩ :: search_events name head true)
              ++ ⟨LockCall.write_unlock, parent⟩
                :: ((⟨LockCall.write_lock, dnode ++ [Dir.R]⟩
                      :: (walk_events k).map (LockEvent.under (dnode ++ [Dir.R])))
                    ++ [⟨LockCall.write_unlock, dnode⟩]))
      ∧ held_after [] ((⟨LockCall.write_lock, []⟩ :: search_events name head true)
          ++ [⟨LockCall.write_unlock, parent⟩]) = [dnode]
      ∧ AtEveryPoint (FootprintHandOver dnode) [dnode]
          (⟨LockCall.write_lock, dnode ++ [Dir.R]⟩
            :: (walk_events k).map (LockEvent.under (dnode ++ [Dir.R]))) := by
  obtain ⟨n, v, d, t, o, rfl, hdir, hqt, hqo⟩ := exists_mkNode name head hnn hq
  obtain ⟨s1, x, hs1, hp, hheld, _, hx, h1, h2⟩ :=
    xremove_log_quiescent name n v d t o hdir hqt hqo
  rw [hs] at hs1
  cases hs1
  obtain ⟨parent, hpp, ⟨_, hno⟩ | ⟨dnode1, k, hr1, hx2⟩⟩ := xremove_tail_log_events s x hx
  · rcases hno dnode dn ht hd with h | h
    · rw [hr] at h; cases h
    · rw [hl] at h; cases h
  · rw [ht] at hr1
    cases hr1
    refine ⟨x.1, parent, k, hpp, h1, ?_, ?_, footprint_successor dnode k⟩
    · rw [h2, hx2]
      simp
    · simp only [SearchPost, ht] at hp
      obtain ⟨parent1, d1, hp1, _, hlk, _⟩ := hp
      rw [hpp] at hp1
      cases hp1
      have h0 : held_after [] ((⟨LockCall.write_lock, []⟩
            :: search_events name (mkNode n v d t o rwlock.init) true)
            ++ [⟨LockCall.write_unlock, parent⟩])
          = held_step (held_after [[]]
              (search_events name (mkNode n v d t o rwlock.init) true))
              ⟨LockCall.write_unlock, parent⟩ := by
        simp [held_after, held_step, LockCall.acquires]
      rw [h0, hheld, hlk]
      simp [held_step, LockCall.acquires]

/-- C14, amended, on the store of scenario 4 for `remove("m")`, where the walk goes from `t`
to `p`. -/
theorem successor_walk_footprint_witness :
    store_mftahpz.isNull = false ∧ Quiescent store_mftahpz
      ∧ search (cstr "m") store_mftahpz rwlock.written true = some store_mftahpz_found_m
      ∧ store_mftahpz_found_m.result = some [Dir.R]
      ∧ store_mftahpz_found_m.tree.deref [Dir.R]
          = some (Tree.node (cstr "m") (cstr "1") (inner "f" "2" (leaf "a" "4") (leaf "h" "5"))
              (inner "t" "3" (leaf "p" "6") (leaf "z" "7")) rwlock.written)
      ∧ ∃ r parent k, store_mftahpz_found_m.parentpp = some parent
        ∧ xremove (cstr "m") store_mftahpz = some r
        ∧ xremove_log (cstr "m") store_mftahpz
            = some (r, (⟨LockCall.write_lock, []⟩ :: search_events (cstr "m") store_mftahpz true)
                ++ ⟨LockCall.write_unlock, parent⟩
                  :: ((⟨LockCall.write_lock, [Dir.R] ++ [Dir.R]⟩
                        :: (walk_events k).map (LockEvent.under ([Dir.R] ++ [Dir.R])))
                      ++ [⟨LockCall.write_unlock, [Dir.R]⟩]))
        ∧ held_after [] ((⟨LockCall.write_lock, []⟩
            :: search_events (cstr "m") store_mftahpz true)
            ++ [⟨LockCall.write_unlock, parent⟩]) = [[Dir.R]]
        ∧ AtEveryPoint (FootprintHandOver [Dir.R]) [[Dir.R]]
            (⟨LockCall.write_lock, [Dir.R] ++ [Dir.R]⟩
              :: (walk_events k).map (LockEvent.under ([Dir.R] ++ [Dir.R]))) :=
  ⟨by decide, by decide, by decide, rfl, by decide,
    successor_walk_footprint store_mftahpz (by decide) (by decide) (cstr "m")
      store_mftahpz_found_m [Dir.R]
      (Tree.node (cstr "m") (cstr "1") (inner "f" "2" (leaf "a" "4") (leaf "h" "5"))
        (inner "t" "3" (leaf "p" "6") (leaf "z" "7")) rwlock.written)
      (by decide) rfl (by decide) (by decide) (by decide)⟩

end DbFine
